import Mathlib

/-!
Verification of the jlox tree-walking Lox interpreter (Rust) against its
specification.  Each section embeds one part of the source shallowly:

* numbers (Rust f64) are modelled by the rationals; the claims settled here
  do not depend on rounding, NaN, or float formatting,
* reference-counted handles (Rc) to callables and instances are modelled by
  natural-number identities,
* HashMap string maps are modelled by association lists with insert-replace,
* Rust panics (expect / unwrap / assert! / out-of-range slice) are modelled
  by an explicit none / panic constructor.
-/

set_option maxRecDepth 10000

namespace JLox

/-- Model of f64 (src/src/token.rs NUMBER literal payload, runtime numbers). -/
abbrev F64 := ℚ

/-! ## Tokens, from src/src/token.rs -/

inductive TokenType where
  | LEFT_PARAN | RIGHT_PARAN | LEFT_BRACE | RIGHT_BRACE
  | COMMA | DOT | MINUS | PLUS | SEMICOLON | SLASH | STAR
  | BANG | BANG_EQUAL | EQUAL | EQUAL_EQUAL
  | GREATER | GREATER_EQUAL | LESS | LESS_EQUAL
  | IDENTIFIER
  | STRING (litral : String)
  | NUMBER (litral : F64)
  | AND | CLASS | ELSE | EXTENSION | FALSE | FUN | FOR | IF | NIL | OR
  | PRINT | RETURN | SUPER | THIS | TRUE | VAR | WHILE
  | EOF
deriving DecidableEq, Repr

structure Token where
  token_type : TokenType
  lexeme : String
  line : Nat
deriving DecidableEq, Repr

/-! ## Association lists, modelling HashMap<String, V>.

Insert replaces an existing binding for the key (HashMap::insert); get
returns the binding if present. -/

def alistGet {V : Type} (l : List (String × V)) (k : String) : Option V :=
  match l with
  | [] => none
  | (k₀, v₀) :: rest => if k₀ = k then some v₀ else alistGet rest k

def alistInsert {V : Type} (l : List (String × V)) (k : String) (v : V) :
    List (String × V) :=
  (k, v) :: l.filter (fun kv => kv.1 ≠ k)

def alistContains {V : Type} (l : List (String × V)) (k : String) : Bool :=
  (alistGet l k).isSome

/-! ## Runtime values, from src/src/interpreter/runtime_value.rs.

The Rc pointers inside Callable / Instance are modelled by a Nat identity:
two values built from clones of the same Rc carry the same identity. -/

inductive RuntimeValue where
  | Number (value : F64)
  | Str (value : String)
  | Boolean (value : Bool)
  | Nil
  | Callable (id : Nat)
  | Instance (id : Nat)
deriving DecidableEq, Repr

/-- Runtime error / early-return channel,
from src/src/interpreter/interpreter_error.rs. -/
inductive InterpErr where
  | runtimeError (line : Option Nat) (message : String)
  | earlyReturn (line : Nat) (return_value : RuntimeValue)
deriving DecidableEq, Repr

/-- InterpreterError::early_return_reason: Some only for EarlyReturn. -/
def InterpErr.early_return_reason : InterpErr → Option RuntimeValue
  | .runtimeError _ _ => none
  | .earlyReturn _ v => some v

abbrev RuntimeResult (α : Type := RuntimeValue) := Except InterpErr α

namespace RuntimeValue

/-- impl Neg for RuntimeValue (unary minus). -/
def neg : RuntimeValue → RuntimeResult
  | Number v => .ok (Number (v * (-1)))
  | _ => .error (.runtimeError none "Can't negate anything other than number")

/-- impl Mul for RuntimeValue. -/
def mul : RuntimeValue → RuntimeValue → RuntimeResult
  | Number l, Number r => .ok (Number (l * r))
  | _, _ => .error (.runtimeError none "Multiplication is allowed only between numbers")

/-- impl Div for RuntimeValue; rhs compared against ±0.0 via total_cmp. -/
def div : RuntimeValue → RuntimeValue → RuntimeResult
  | Number l, Number r =>
      if r = 0 then .error (.runtimeError none "divide by zero error")
      else .ok (Number (l / r))
  | _, _ => .error (.runtimeError none "division is allowed only between numbers")

/-- impl Add for RuntimeValue: numbers add, strings concatenate. -/
def add : RuntimeValue → RuntimeValue → RuntimeResult
  | Number l, Number r => .ok (Number (l + r))
  | Str l, Str r => .ok (Str (l ++ r))
  | _, _ => .error (.runtimeError none "addition is allowed only between numbers")

/-- impl Sub for RuntimeValue. -/
def sub : RuntimeValue → RuntimeValue → RuntimeResult
  | Number l, Number r => .ok (Number (l - r))
  | _, _ => .error (.runtimeError none "subtraction is allowed only between numbers")

/-- impl Not for RuntimeValue: only booleans can be negated. -/
def notOp : RuntimeValue → RuntimeResult
  | Boolean v => .ok (Boolean (!v))
  | _ => .error (.runtimeError none "Not is allowed only on booleans")

/-- impl PartialEq for RuntimeValue, fn eq.  Callable and Instance fall
into the catch-all arm and compare false (no identity comparison). -/
def eqRV : RuntimeValue → RuntimeValue → Bool
  | Str l, Str r => l = r
  | Number l, Number r => l = r
  | Boolean l, Boolean r => l = r
  | Nil, Nil => true
  | _, _ => false

/-- impl PartialEq for RuntimeValue, fn ne (written out in the source). -/
def neRV : RuntimeValue → RuntimeValue → Bool
  | Str l, Str r => l ≠ r
  | Number l, Number r => l ≠ r
  | Boolean l, Boolean r => l ≠ r
  | Nil, Nil => false
  | _, _ => true

/-- impl PartialOrd for RuntimeValue, fn lt. -/
def ltRV : RuntimeValue → RuntimeValue → Bool
  | Str l, Str r => l < r
  | Number l, Number r => l < r
  | Boolean l, Boolean r => l < r
  | _, _ => false

/-- impl PartialOrd for RuntimeValue, fn le. -/
def leRV : RuntimeValue → RuntimeValue → Bool
  | Str l, Str r => l ≤ r
  | Number l, Number r => l ≤ r
  | Boolean l, Boolean r => l ≤ r
  | Nil, Nil => true
  | _, _ => false

/-- impl PartialOrd for RuntimeValue, fn gt. -/
def gtRV : RuntimeValue → RuntimeValue → Bool
  | Str l, Str r => l > r
  | Number l, Number r => l > r
  | Boolean l, Boolean r => l > r
  | _, _ => false

/-- impl PartialOrd for RuntimeValue, fn ge. -/
def geRV : RuntimeValue → RuntimeValue → Bool
  | Str l, Str r => l ≥ r
  | Number l, Number r => l ≥ r
  | Boolean l, Boolean r => l ≥ r
  | Nil, Nil => true
  | _, _ => false

/-- RuntimeValue::is_truthy: Nil and false are falsey, all else truthy. -/
def is_truthy : RuntimeValue → RuntimeValue
  | Nil => Boolean false
  | Boolean false => Boolean false
  | _ => Boolean true

/-- bool::from(RuntimeValue) via is_truthy. -/
def toBool (v : RuntimeValue) : Bool :=
  match v.is_truthy with
  | Boolean true => true
  | _ => false

end RuntimeValue

/-! ## Binary operator evaluation,
from Interpreter::evaluate, Expr::Binary arm
(src/src/interpreter/mod.rs and the identical arm in src/src/interpreter.rs).

BANG_EQUAL is evaluated as !RuntimeValue::Boolean(left == right); Not on a
Boolean always succeeds, so it reduces to Boolean(!(left == right)). -/

def evalBinaryOp (op : TokenType) (left right : RuntimeValue) : RuntimeResult :=
  match op with
  | .MINUS => left.sub right
  | .PLUS => left.add right
  | .STAR => left.mul right
  | .SLASH => left.div right
  | .GREATER => .ok (.Boolean (left.gtRV right))
  | .GREATER_EQUAL => .ok (.Boolean (left.geRV right))
  | .LESS => .ok (.Boolean (left.ltRV right))
  | .LESS_EQUAL => .ok (.Boolean (left.leRV right))
  | .BANG_EQUAL => (RuntimeValue.Boolean (left.eqRV right)).notOp
  | .EQUAL_EQUAL => .ok (.Boolean (left.eqRV right))
  | _ => .error (.runtimeError none "Unsupported operator")

/-! ## Environments, from src/src/interpreter/environment.rs.

Environment { values: HashMap, enclosing: Option<Rc<RefCell<Environment>>> }
is modelled as a chain: `global` for enclosing = None, `child` for
enclosing = Some.  In-place mutation through the shared Rc handle is
modelled by rebuilding the chain (the claims settled on this model do not
depend on aliasing between chains).  Panics (ancestor's unwrap, get_at's
expect) are modelled by none. -/

inductive Environment where
  | global (values : List (String × RuntimeValue))
  | child (values : List (String × RuntimeValue)) (enclosing : Environment)
deriving DecidableEq, Repr

namespace Environment

def values : Environment → List (String × RuntimeValue)
  | .global v => v
  | .child v _ => v

def enclosing : Environment → Option Environment
  | .global _ => none
  | .child _ e => some e

/-- Number of frames in the chain (spec-side helper for stating depths). -/
def chainLength : Environment → Nat
  | .global _ => 1
  | .child _ e => 1 + chainLength e

/-- Environment::define — unconditional insert into the current frame. -/
def define (e : Environment) (name : String) (value : RuntimeValue) : Environment :=
  match e with
  | .global v => .global (alistInsert v name value)
  | .child v enc => .child (alistInsert v name value) enc

/-- Environment::get — search by name from the current frame outward;
on total miss, runtime error "Undefined variable". -/
def get : Environment → Token → RuntimeResult
  | .global v, name =>
      match alistGet v name.lexeme with
      | some value => .ok value
      | none => .error (.runtimeError (some name.line)
          ("Undefined variable \"" ++ name.lexeme ++ "\"."))
  | .child v enc, name =>
      match alistGet v name.lexeme with
      | some value => .ok value
      | none => get enc name

/-- Environment::ancestor — one unconditional hop through enclosing
(unwrap), then depth − 1 further hops; none models the unwrap panic. -/
def ancestor (e : Environment) (depth : Nat) : Option Environment :=
  match e.enclosing with
  | none => none
  | some env => hops env (depth - 1)
where
  hops : Environment → Nat → Option Environment
    | env, 0 => some env
    | env, n + 1 =>
        match env.enclosing with
        | none => none
        | some t => hops t n

/-- Environment::env_at_depth — current frame at 0, else ancestor. -/
def env_at_depth (e : Environment) (depth : Nat) : Option Environment :=
  if depth = 0 then some e else ancestor e depth

/-- Environment::get_at — frame at exactly `depth`, then a direct lookup
whose failure is a panic (expect), modelled by none. -/
def get_at (e : Environment) (name : String) (depth : Nat) : Option RuntimeValue :=
  match env_at_depth e depth with
  | none => none
  | some env => alistGet env.values name

/-- Environment::assign — search outward for an existing binding; mutate on
hit, error "is not declared" on total miss.  Returns the updated chain. -/
def assign : Environment → Token → RuntimeValue → Except InterpErr (Environment × RuntimeValue)
  | .global v, name, value =>
      if (alistGet v name.lexeme).isSome then
        .ok (.global (alistInsert v name.lexeme value), value)
      else
        .error (.runtimeError (some name.line)
          ("Variable " ++ name.lexeme ++ " is not declared"))
  | .child v enc, name, value =>
      if (alistGet v name.lexeme).isSome then
        .ok (.child (alistInsert v name.lexeme value) enc, value)
      else
        (assign enc name value).map (fun p => (.child v p.1, p.2))

/-- Environment::env_mut_at_depth — apply a frame mutation at `depth`;
none models the ancestor unwrap panic.  The Rc-shared in-place mutation is
modelled by rebuilding the chain hop by hop. -/
def env_mut_at_depth (e : Environment) (depth : Nat)
    (f : Environment → Environment) : Option Environment :=
  match depth with
  | 0 => some (f e)
  | n + 1 =>
      match e with
      | .global _ => none
      | .child v enc =>
          (env_mut_at_depth enc n f).map (fun enc2 => .child v enc2)

/-- Environment::assign_at — insert (not assign-existing) into the frame at
`depth`; always returns Ok(value) when the depth is reachable. -/
def assign_at (e : Environment) (name : String) (value : RuntimeValue)
    (depth : Nat) : Option (Environment × RuntimeValue) :=
  (env_mut_at_depth e depth (fun env => env.define name value)).map
    (fun e2 => (e2, value))

/-- Spec-side helper: is the name bound anywhere in the chain? -/
def boundAnywhere : Environment → String → Bool
  | .global v, name => alistContains v name
  | .child v enc, name => alistContains v name || boundAnywhere enc name

end Environment

/-! ## Lox classes, from src/src/interpreter/lox_class.rs.

Rc<LoxFunction> method handles are modelled by Nat identities.  The
Option<Rc<LoxClass>> superclass is modelled by the two constructors. -/

inductive LoxClassDefinition where
  | root (name : String) (methods : List (String × Nat))
  | sub (name : String) (super_class : LoxClassDefinition)
      (methods : List (String × Nat))
deriving DecidableEq, Repr

namespace LoxClassDefinition

def methods : LoxClassDefinition → List (String × Nat)
  | .root _ ms => ms
  | .sub _ _ ms => ms

/-- LoxClassDefinition::find_method (lines 35–46).  The source is

    let mut method = None;
    if let Some(super_class) = self.super_class.as_ref() {
        method = super_class.0.find_method(method_name);
    } else if method.is_none() {
        method = self.methods.get(method_name).map(...);
    }
    method

so with a superclass present only the superclass is consulted (the else-if
arm runs only when there is no superclass, where method.is_none() is
trivially true). -/
def find_method : LoxClassDefinition → String → Option Nat
  | .sub _ super_class _, method_name => find_method super_class method_name
  | .root _ ms, method_name => alistGet ms method_name

/-- Spec-side helper: the topmost class of the superclass chain. -/
def rootOf : LoxClassDefinition → LoxClassDefinition
  | .root n ms => .root n ms
  | .sub _ super_class _ => rootOf super_class

end LoxClassDefinition

/-- Instance data: class handle plus mutable field map
(struct ClassInstanceData). -/
structure ClassInstanceData where
  kclass : LoxClassDefinition
  fields : List (String × RuntimeValue)
deriving DecidableEq, Repr

/-- Result of a property access: a field value, or a method found in the
class hierarchy and returned bound to the instance (bind builds a fresh
LoxFunction around the same declaration; we record which method was
found by its identity). -/
inductive PropValue where
  | field (v : RuntimeValue)
  | boundMethod (funId : Nat)
deriving DecidableEq, Repr

/-- ClassInstance::get (lines 167–181): fields first, then
lookup_method (= kclass.find_method), binding any method found. -/
def ClassInstance.get (inst : ClassInstanceData) (name : String) : Option PropValue :=
  match alistGet inst.fields name with
  | some v => some (.field v)
  | none => (inst.kclass.find_method name).map PropValue.boundMethod

/-! ## AST, from src/src/ast.rs -/

inductive LitralValue where
  | NUMBER (v : F64)
  | STRING (v : String)
  | True
  | False
  | Nil
deriving DecidableEq, Repr

/-- LitralValue → RuntimeValue (impl From<LitralValue> for RuntimeValue). -/
def LitralValue.toRuntimeValue : LitralValue → RuntimeValue
  | .NUMBER v => .Number v
  | .STRING v => .Str v
  | .True => .Boolean true
  | .False => .Boolean false
  | .Nil => .Nil

inductive Expr where
  | Litral (litral : LitralValue)
  | Variable (name : Token) (depth : Option Nat)
  | This (keyword : Token) (depth : Option Nat)
  | Super (keyword : Token) (method : Token) (depth : Option Nat)
  | Unary (operator : Token) (right : Expr)
  | Binary (left : Expr) (operator : Token) (right : Expr)
  | Logical (left : Expr) (operator : Token) (right : Expr)
  | Grouping (expression : Expr)
  | Assign (name : Token) (depth : Option Nat) (value : Expr)
  | Call (callee : Expr) (paran : Token) (arguments : List Expr)
  | Get (object : Expr) (name : Token)
  | Set (object : Expr) (name : Token) (value : Expr)
deriving Repr

mutual
inductive Fun where
  | mk (name : Token) (params : List Token) (body : List Stmt)
deriving Repr

inductive Stmt where
  | Class (name : Token) (super_class : Option Expr) (methods : List Fun)
  | Function (fn : Fun)
  | Var (name : Token) (expression : Option Expr)
  | PrintStmt (expression : Expr)
  | ExpressionStmt (expression : Expr)
  | Block (statements : List Stmt)
  | IfStmt (condition : Expr) (then_branch : Stmt) (else_branch : Option Stmt)
  | WhileStmt (condition : Expr) (body : Stmt)
  | Return (keyword : Token) (value : Option Expr)
deriving Repr
end

/-! ## LoxFunction::call, from src/src/interpreter/lox_function.rs (68–99).

The execution of the body (Interpreter::execute_block over a fresh
environment holding the bound parameters) is abstracted by its outcome:
Ok(()) or Err(e).  The assert! on a value-carrying return inside an
initializer is modelled by the panic outcome. -/

inductive BodyResult where
  | ok
  | err (e : InterpErr)
deriving DecidableEq, Repr

inductive CallOutcome where
  | ok (v : RuntimeValue)
  | err (e : InterpErr)
  | panic
deriving DecidableEq, Repr

def LoxFunction.call (is_initializer : Bool) (closure : Environment)
    (result : BodyResult) : CallOutcome :=
  match result with
  | .ok =>
      if is_initializer then
        -- return 'this' from constructor; get_at's expect failure is a panic
        match closure.get_at "this" 0 with
        | some v => .ok v
        | none => .panic
      else .ok .Nil
  | .err e =>
      match e.early_return_reason with
      | some return_value =>
          if is_initializer then
            -- assert!(RuntimeValue::Nil == return_value, ...)
            if RuntimeValue.Nil.eqRV return_value then
              match closure.get_at "this" 0 with
              | some v => .ok v
              | none => .panic
            else .panic
          else .ok return_value
      | none => .err e

/-! ## Resolver return-context rule, from src/src/resolver.rs (172–192). -/

inductive FunctionType where
  | Function
  | Initializer
  | Method
deriving DecidableEq, Repr

/-- Number of errors the Resolver reports for a Return statement, given the
current function context and whether the return carries a value
(Stmt::Return arm of Resolver::resolve_stmt). -/
def resolverReturnErrs (current_function : Option FunctionType)
    (has_value : Bool) : Nat :=
  match current_function with
  | some fun_type =>
      if has_value then
        if fun_type = FunctionType.Initializer then 1 else 0
      else 0
  | none => 1

/-! ## Driver, from src/src/main.rs. -/

/-- Outcome of one pipeline run (run, lines 61–78): error counts exposed by
the parser and resolver, and whether interpret returned a runtime error. -/
structure PipelineOutcome where
  parse_errs : Nat
  resolver_errs : Nat
  runtime_error : Bool
deriving DecidableEq, Repr

/-- run (main.rs 61–78) returns unit: parse, resolver and runtime errors
are only printed, never propagated to the caller. -/
def run (_p : PipelineOutcome) : Unit := ()

/-- run_file (main.rs 36–43): Err exactly when opening or reading the file
fails; the pipeline outcome is discarded through run. -/
def run_file (io_error : Bool) (p : PipelineOutcome) : Except Unit Unit :=
  if io_error then .error () else .ok (run p)

/-- Process exit codes (std::process::ExitCode). -/
def ExitSuccess : Nat := 0

def ExitFailure : Nat := 1

/-- main (main.rs 12–34).  argc counts the program name plus arguments;
run_prompt loops forever reading stdin and returns Err only on a stdin /
stdout I/O failure, abstracted by repl_io_error. -/
def mainExit (argc : Nat) (io_error : Bool) (p : PipelineOutcome)
    (repl_io_error : Bool) : Nat :=
  if argc > 2 then ExitFailure
  else if argc = 2 then
    match run_file io_error p with
    | .error _ => ExitFailure
    | .ok _ => ExitSuccess
  else if repl_io_error then ExitFailure else ExitSuccess

/-! ## Display form of runtime values, from runtime_value.rs (207–219).

Rust renders Number through the f64 Display implementation and Callable /
Instance through the pointed-to object's Display; f64 formatting and the
object registry are not part of this shallow model, so those three
renderings are parameters. -/

def displayRuntimeValue (numFmt : F64 → String)
    (callableFmt instanceFmt : Nat → String) : RuntimeValue → String
  | .Nil => "Nil"
  | .Number v => numFmt v
  | .Str v => v
  | .Boolean v => if v then "true" else "false"
  | .Callable p => callableFmt p
  | .Instance p => instanceFmt p

/-- stdout written by run (main.rs 61–78) when the program parses and
resolves cleanly: println!("{:#?}", stmts) writes the pretty debug dump of
the resolved statements and a newline, then the interpreter writes its own
output.  The pretty-Debug rendering of Vec<Stmt> is modelled exactly for
the empty list ("[]"); non-empty renderings are a parameter. -/
def debugDump (nonEmptyFmt : List Stmt → String) : List Stmt → String
  | [] => "[]"
  | s :: rest => nonEmptyFmt (s :: rest)

def runStdout (nonEmptyFmt : List Stmt → String) (stmts : List Stmt)
    (interp_out : String) : String :=
  debugDump nonEmptyFmt stmts ++ "\n" ++ interp_out

/-! ## Executable interpreter fragment, from Interpreter::execute and
Interpreter::evaluate in src/src/interpreter.rs.

The fragment covers literals, grouping, unary, binary, logical, variables
and assignment, and the statements Var, Print, Expression, Block, If,
While, Return.  Function calls, classes and property access need the
shared-heap closure machinery this model does not carry; executing them
yields the explicit outcome .unmodelled.  The bottom frame of the
environment chain is the globals environment (Interpreter { globals,
environment }), reached by name when resolved_depth is None.  Fuel bounds
While loops; exhaustion is the explicit outcome .timeout.  The stdout
property is NOT proved on this fragment: the full-language instrumented
interpreter executeHO / evaluateHO further below (built on the heap model)
carries it, prints inside called function bodies included; the fragment
remains as a lightweight executable model of the first-order core. -/

inductive Res (α : Type) where
  | ok (a : α)
  | err (e : InterpErr)
  | panic
  | unmodelled
  | timeout
deriving DecidableEq, Repr

/-- err.message() (unwrap_or_default gives "" when absent). -/
def InterpErr.message : InterpErr → String
  | .runtimeError _ m => m
  | .earlyReturn _ _ => ""

/-- The globals frame at the bottom of the chain. -/
def bottomFrame : Environment → Environment
  | .global v => .global v
  | .child _ enc => bottomFrame enc

/-- self.globals.borrow().get(name) — by-name lookup in the globals frame. -/
def globalsGet (env : Environment) (name : Token) : RuntimeResult :=
  (bottomFrame env).get name

/-- self.globals.borrow_mut().assign(name, value) — by-name assignment in
the globals frame, grafted back into the chain. -/
def globalsAssign : Environment → Token → RuntimeValue →
    Except InterpErr (Environment × RuntimeValue)
  | .global v, name, value => Environment.assign (.global v) name value
  | .child v enc, name, value =>
      (globalsAssign enc name value).map (fun p => (.child v p.1, p.2))

/-- Lift an assignment result (updated chain, value) into Res. -/
def ofRR : Except InterpErr (Environment × RuntimeValue) →
    Res (RuntimeValue × Environment)
  | .ok p => .ok (p.2, p.1)
  | .error e => .err e

/-- Interpreter::evaluate restricted to the fragment. -/
def evaluate : Environment → Expr → Res (RuntimeValue × Environment)
  | env, .Grouping e => evaluate env e
  | env, .Unary op right =>
      match evaluate env right with
      | .ok (r, env1) =>
          match op.token_type with
          | .MINUS =>
              match r.neg with
              | .ok v => .ok (v, env1)
              | .error e => .err e
          | .BANG =>
              match r.is_truthy.notOp with
              | .ok v => .ok (v, env1)
              | .error e => .err e
          | _ => .err (.runtimeError (some op.line)
              "Only - and ! are supported as a unary operator!")
      | other => other
  | env, .Binary l op r =>
      match evaluate env l with
      | .ok (lv, env1) =>
          match evaluate env1 r with
          | .ok (rv, env2) =>
              -- map_err rewraps with the operator token for the line number
              match evalBinaryOp op.token_type lv rv with
              | .ok v => .ok (v, env2)
              | .error e => .err (.runtimeError (some op.line) e.message)
          | other => other
      | other => other
  | env, .Logical l op r =>
      match evaluate env l with
      | .ok (lv, env1) =>
          match op.token_type, lv.toBool with
          | .OR, true => .ok (lv, env1)
          | .AND, false => .ok (lv, env1)
          | _, _ => evaluate env1 r
      | other => other
  | env, .Litral lit => .ok (lit.toRuntimeValue, env)
  | env, .Variable name depth =>
      match depth with
      | some d =>
          match env.get_at name.lexeme d with
          | some v => .ok (v, env)
          | none => .panic
      | none =>
          match globalsGet env name with
          | .ok v => .ok (v, env)
          | .error e => .err e
  | env, .This keyword depth =>
      match depth with
      | some d =>
          match env.get_at keyword.lexeme d with
          | some v => .ok (v, env)
          | none => .panic
      | none => .panic -- panic!("'this' can't be in global scope")
  | env, .Assign name depth value =>
      match evaluate env value with
      | .ok (v, env1) =>
          match depth with
          | some d =>
              match env1.assign_at name.lexeme v d with
              | some (env2, vv) => .ok (vv, env2)
              | none => .panic
          | none => ofRR (globalsAssign env1 name v)
      | other => other
  | _, .Super _ _ _ => .unmodelled
  | _, .Call _ _ _ => .unmodelled
  | _, .Get _ _ => .unmodelled
  | _, .Set _ _ _ => .unmodelled

mutual

/-- Interpreter::execute restricted to the fragment, with the stdout text
written by PrintStmt (println!("{}", value) writes the display form and a
newline) accumulated in the second component.  The display renderings for
numbers, callables and instances are parameters (see displayRuntimeValue).
On a non-ok outcome the text already written is kept (stdout is not rolled
back); the block arm restores the enclosing environment on the ok path as
execute_block restores self.environment. -/
def execStmt (numFmt : F64 → String) (callableFmt instanceFmt : Nat → String) :
    Nat → Environment → Stmt → Res Environment × String
  | 0, _, _ => (.timeout, "")
  | _ + 1, env, .Var name expression =>
      match expression with
      | none => (.ok (env.define name.lexeme .Nil), "")
      | some e =>
          match evaluate env e with
          | .ok (v, env1) => (.ok (env1.define name.lexeme v), "")
          | .err e1 => (.err e1, "")
          | .panic => (.panic, "")
          | .unmodelled => (.unmodelled, "")
          | .timeout => (.timeout, "")
  | _ + 1, env, .ExpressionStmt e =>
      match evaluate env e with
      | .ok (_, env1) => (.ok env1, "")
      | .err e1 => (.err e1, "")
      | .panic => (.panic, "")
      | .unmodelled => (.unmodelled, "")
      | .timeout => (.timeout, "")
  | _ + 1, env, .PrintStmt e =>
      match evaluate env e with
      | .ok (v, env1) =>
          (.ok env1, displayRuntimeValue numFmt callableFmt instanceFmt v ++ "\n")
      | .err e1 => (.err e1, "")
      | .panic => (.panic, "")
      | .unmodelled => (.unmodelled, "")
      | .timeout => (.timeout, "")
  | fuel + 1, env, .IfStmt c t els =>
      match evaluate env c with
      | .ok (cv, env1) =>
          if cv.toBool then execStmt numFmt callableFmt instanceFmt fuel env1 t
          else
            match els with
            | some e => execStmt numFmt callableFmt instanceFmt fuel env1 e
            | none => (.ok env1, "")
      | .err e1 => (.err e1, "")
      | .panic => (.panic, "")
      | .unmodelled => (.unmodelled, "")
      | .timeout => (.timeout, "")
  | fuel + 1, env, .WhileStmt c b =>
      match evaluate env c with
      | .ok (cv, env1) =>
          if cv.toBool then
            match execStmt numFmt callableFmt instanceFmt fuel env1 b with
            | (.ok env2, out1) =>
                match execStmt numFmt callableFmt instanceFmt fuel env2 (.WhileStmt c b) with
                | (r, out2) => (r, out1 ++ out2)
            | other => other
          else (.ok env1, "")
      | .err e1 => (.err e1, "")
      | .panic => (.panic, "")
      | .unmodelled => (.unmodelled, "")
      | .timeout => (.timeout, "")
  | fuel + 1, env, .Block statements =>
      match execStmts numFmt callableFmt instanceFmt fuel (.child [] env) statements with
      | (.ok (.child _ enc), out) => (.ok enc, out)
      | (.ok (.global _), out) => (.panic, out) -- unreachable: frames are balanced
      | (r, out) => (r, out)
  | _ + 1, env, .Return keyword value =>
      match value with
      | some e =>
          match evaluate env e with
          | .ok (v, _) => (.err (.earlyReturn keyword.line v), "")
          | .err e1 => (.err e1, "")
          | .panic => (.panic, "")
          | .unmodelled => (.unmodelled, "")
          | .timeout => (.timeout, "")
      | none => (.err (.earlyReturn keyword.line .Nil), "")
  | _ + 1, _, .Class _ _ _ => (.unmodelled, "")
  | _ + 1, _, .Function _ => (.unmodelled, "")
termination_by f _ s => (f, sizeOf s)

/-- interpret / execute_block over a statement list (try_for_each). -/
def execStmts (numFmt : F64 → String) (callableFmt instanceFmt : Nat → String) :
    Nat → Environment → List Stmt → Res Environment × String
  | _, env, [] => (.ok env, "")
  | fuel, env, s :: rest =>
      match execStmt numFmt callableFmt instanceFmt fuel env s with
      | (.ok env1, out1) =>
          match execStmts numFmt callableFmt instanceFmt fuel env1 rest with
          | (r, out2) => (r, out1 ++ out2)
      | other => other
termination_by f _ l => (f, sizeOf l)

end

mutual

/-- Spec-side observer: the sequence of values printed by executed print
statements, mirroring execStmt statement by statement but recording the
printed RuntimeValues instead of rendered text. -/
def printedStmt : Nat → Environment → Stmt → Res Environment × List RuntimeValue
  | 0, _, _ => (.timeout, [])
  | _ + 1, env, .Var name expression =>
      match expression with
      | none => (.ok (env.define name.lexeme .Nil), [])
      | some e =>
          match evaluate env e with
          | .ok (v, env1) => (.ok (env1.define name.lexeme v), [])
          | .err e1 => (.err e1, [])
          | .panic => (.panic, [])
          | .unmodelled => (.unmodelled, [])
          | .timeout => (.timeout, [])
  | _ + 1, env, .ExpressionStmt e =>
      match evaluate env e with
      | .ok (_, env1) => (.ok env1, [])
      | .err e1 => (.err e1, [])
      | .panic => (.panic, [])
      | .unmodelled => (.unmodelled, [])
      | .timeout => (.timeout, [])
  | _ + 1, env, .PrintStmt e =>
      match evaluate env e with
      | .ok (v, env1) => (.ok env1, [v])
      | .err e1 => (.err e1, [])
      | .panic => (.panic, [])
      | .unmodelled => (.unmodelled, [])
      | .timeout => (.timeout, [])
  | fuel + 1, env, .IfStmt c t els =>
      match evaluate env c with
      | .ok (cv, env1) =>
          if cv.toBool then printedStmt fuel env1 t
          else
            match els with
            | some e => printedStmt fuel env1 e
            | none => (.ok env1, [])
      | .err e1 => (.err e1, [])
      | .panic => (.panic, [])
      | .unmodelled => (.unmodelled, [])
      | .timeout => (.timeout, [])
  | fuel + 1, env, .WhileStmt c b =>
      match evaluate env c with
      | .ok (cv, env1) =>
          if cv.toBool then
            match printedStmt fuel env1 b with
            | (.ok env2, out1) =>
                match printedStmt fuel env2 (.WhileStmt c b) with
                | (r, out2) => (r, out1 ++ out2)
            | other => other
          else (.ok env1, [])
      | .err e1 => (.err e1, [])
      | .panic => (.panic, [])
      | .unmodelled => (.unmodelled, [])
      | .timeout => (.timeout, [])
  | fuel + 1, env, .Block statements =>
      match printedStmts fuel (.child [] env) statements with
      | (.ok (.child _ enc), out) => (.ok enc, out)
      | (.ok (.global _), out) => (.panic, out)
      | (r, out) => (r, out)
  | _ + 1, env, .Return keyword value =>
      match value with
      | some e =>
          match evaluate env e with
          | .ok (v, _) => (.err (.earlyReturn keyword.line v), [])
          | .err e1 => (.err e1, [])
          | .panic => (.panic, [])
          | .unmodelled => (.unmodelled, [])
          | .timeout => (.timeout, [])
      | none => (.err (.earlyReturn keyword.line .Nil), [])
  | _ + 1, _, .Class _ _ _ => (.unmodelled, [])
  | _ + 1, _, .Function _ => (.unmodelled, [])
termination_by f _ s => (f, sizeOf s)

def printedStmts : Nat → Environment → List Stmt → Res Environment × List RuntimeValue
  | _, env, [] => (.ok env, [])
  | fuel, env, s :: rest =>
      match printedStmt fuel env s with
      | (.ok env1, out1) =>
          match printedStmts fuel env1 rest with
          | (r, out2) => (r, out1 ++ out2)
      | other => other
termination_by f _ l => (f, sizeOf l)

end

/-- Rendering of a printed-value sequence: each value in display form
followed by one newline. -/
def renderPrinted (numFmt : F64 → String) (callableFmt instanceFmt : Nat → String)
    (vs : List RuntimeValue) : String :=
  match vs with
  | [] => ""
  | v :: rest =>
      displayRuntimeValue numFmt callableFmt instanceFmt v ++ "\n" ++
        renderPrinted numFmt callableFmt instanceFmt rest

/-! ## Scanner, from src/src/scanner.rs.

The scanner operates on the vector of grapheme clusters of the source
(each modelled as a String).  Only the state and the string-literal path
are embedded: scan_token enters Scanner::string_litral after consuming an
opening double quote, with start at the quote and current just past it.
Rust slice indexing source_graphemes[a..b] panics when a > b or
b > len; the panic is modelled by none. -/

structure ScanState where
  source_graphemes : List String
  start : Nat
  current : Nat
  line : Nat
deriving DecidableEq, Repr

namespace ScanState

def is_at_end (st : ScanState) : Bool :=
  st.source_graphemes.length ≤ st.current

/-- source_graphemes[current] (guarded by is_at_end at all call sites). -/
def peek (st : ScanState) : String :=
  if st.is_at_end then "\x00" else st.source_graphemes.getD st.current ""

def advance (st : ScanState) : ScanState :=
  { st with current := st.current + 1 }

end ScanState

/-- source_graphemes[a..b].join(""), none on a slice-bounds panic. -/
def sliceJoin (g : List String) (a b : Nat) : Option String :=
  if a ≤ b ∧ b ≤ g.length then
    some (((g.drop a).take (b - a)).foldl (fun acc s => acc ++ s) "")
  else none

/-- One step per unit of the remaining grapheme count (the loop advances
current by one each iteration, so g.length − current steps always
suffice). -/
def stringScanLoopAux : Nat → List String → Nat → Nat → Nat × Nat
  | 0, _, current, line => (current, line)
  | remaining + 1, g, current, line =>
      if current < g.length then
        let c := g.getD current ""
        if c = "\"" then (current, line)
        else stringScanLoopAux remaining g (current + 1)
          (if c = "\n" then line + 1 else line)
      else (current, line)

/-- The while loop of string_litral: consume until a closing quote or end
of input, incrementing line on embedded newlines.  Returns the final
(current, line). -/
def stringScanLoop (g : List String) (current line : Nat) : Nat × Nat :=
  stringScanLoopAux (g.length - current) g current line

/-- Outcome of Scanner::string_litral: reported errors, the token pushed by
add_token (none when the interior slice panics), and the final state. -/
structure StrLitOutcome where
  errors : List (Nat × String)
  token : Option Token
  panicked : Bool
  state : ScanState
deriving DecidableEq, Repr

/-- Scanner::string_litral (scanner.rs 196–212).  After the loop, an
unterminated string reports an error but still falls through to the slice
source_graphemes[start+1 .. current-1] and add_token; when terminated, the
closing quote is consumed first. -/
def string_litral (st : ScanState) : StrLitOutcome :=
  let (cur1, line1) := stringScanLoop st.source_graphemes st.current st.line
  let st1 : ScanState := { st with current := cur1, line := line1 }
  let unterminated := st1.is_at_end
  let errors := if unterminated then [(st1.line, "Unterminated string.")] else []
  let st2 := if unterminated then st1 else st1.advance
  match sliceJoin st2.source_graphemes (st2.start + 1) (st2.current - 1) with
  | none => { errors := errors, token := none, panicked := true, state := st2 }
  | some value =>
      let lexeme := (sliceJoin st2.source_graphemes st2.start st2.current).getD ""
      { errors := errors
        token := some ⟨.STRING value, lexeme, st2.line⟩
        panicked := false
        state := st2 }

/-- Spec-side helper: the interior text the claim expects for an
unterminated string — all grapheme clusters strictly between the opening
quote and end of input. -/
def claimedInterior (g : List String) (start : Nat) : String :=
  (g.drop (start + 1)).foldl (fun acc s => acc ++ s) ""

/-! ## Parser, from src/src/parser.rs.

The recursive-descent expression cascade is embedded with explicit state
threading and a fuel bound for the mutual recursion; the fuel-exhaustion
error is never reached at the fuel used in the theorems below.  error()
prints to stderr and increments num_of_parser_errs; only the count is
modelled. -/

structure ParserError where
  token_type : TokenType
  line : Nat
  message : String
deriving DecidableEq, Repr

def ParserError.ofToken (t : Token) (message : String) : ParserError :=
  ⟨t.token_type, t.line, message⟩

structure ParserState where
  tokens : List Token
  current : Nat
  num_of_parser_errs : Nat
deriving DecidableEq, Repr

namespace Parser

def eofDefault : Token := ⟨.EOF, "", 0⟩

/-- self.tokens[self.current].  Indexing past the end cannot occur for
EOF-terminated token vectors (scan_tokens always appends EOF and advance
stops at it); the default records that invariant. -/
def peek (st : ParserState) : Token :=
  st.tokens.getD st.current eofDefault

def previous (st : ParserState) : Token :=
  st.tokens.getD (st.current - 1) eofDefault

def is_at_end (st : ParserState) : Bool :=
  (peek st).token_type = .EOF

def advance (st : ParserState) : Token × ParserState :=
  let st1 := if is_at_end st then st else { st with current := st.current + 1 }
  (previous st1, st1)

def check (st : ParserState) (tt : TokenType) : Bool :=
  if is_at_end st then false else (peek st).token_type = tt

def matchTs (st : ParserState) (tts : List TokenType) : Bool × ParserState :=
  match tts with
  | [] => (false, st)
  | tt :: rest =>
      if check st tt then (true, (advance st).2) else matchTs st rest

def errorP (st : ParserState) (_err : ParserError) : ParserState :=
  { st with num_of_parser_errs := st.num_of_parser_errs + 1 }

abbrev PResult (α : Type) := Except ParserError (α × ParserState)

def consume (st : ParserState) (tt : TokenType) (message : String) :
    Except ParserError (Token × ParserState) :=
  if check st tt then .ok (advance st)
  else .error (ParserError.ofToken (peek st) message)

def fuelErr {α : Type} (_st : ParserState) : PResult α :=
  .error ⟨.EOF, 0, "fuel exhausted"⟩

mutual

def expression : Nat → ParserState → PResult Expr
  | 0, st => fuelErr st
  | f + 1, st => assignment f st

def assignment : Nat → ParserState → PResult Expr
  | 0, st => fuelErr st
  | f + 1, st =>
      match orP f st with
      | .error e => .error e
      | .ok (expr, st1) =>
          let (m, st2) := matchTs st1 [.EQUAL]
          if m then
            let equals := previous st2
            match assignment f st2 with
            | .error e => .error e
            | .ok (value, st3) =>
                match expr with
                | .Variable tok _ => .ok (.Assign tok none value, st3)
                | .Get object name => .ok (.Set object name value, st3)
                | _ =>
                    -- "Invalid assignment target": reported, then the
                    -- function falls through to return Ok(expr)
                    .ok (expr, errorP st3
                      (ParserError.ofToken equals "Invalid assignment target"))
          else .ok (expr, st1)

def orP : Nat → ParserState → PResult Expr
  | 0, st => fuelErr st
  | f + 1, st =>
      match andP f st with
      | .error e => .error e
      | .ok (left, st1) =>
          let (m, st2) := matchTs st1 [.OR]
          if m then
            let operator := previous st2
            match andP f st2 with
            | .error e => .error e
            | .ok (right, st3) => .ok (.Logical left operator right, st3)
          else .ok (left, st1)

def andP : Nat → ParserState → PResult Expr
  | 0, st => fuelErr st
  | f + 1, st =>
      match equality f st with
      | .error e => .error e
      | .ok (left, st1) =>
          let (m, st2) := matchTs st1 [.AND]
          if m then
            let operator := previous st2
            match equality f st2 with
            | .error e => .error e
            | .ok (right, st3) => .ok (.Logical left operator right, st3)
          else .ok (left, st1)

def equality : Nat → ParserState → PResult Expr
  | 0, st => fuelErr st
  | f + 1, st =>
      match comparison f st with
      | .error e => .error e
      | .ok (expr, st1) => equalityRest f expr st1

def equalityRest : Nat → Expr → ParserState → PResult Expr
  | 0, _, st => fuelErr st
  | f + 1, expr, st =>
      let (m, st1) := matchTs st [.BANG_EQUAL, .EQUAL_EQUAL]
      if m then
        let operator := previous st1
        match comparison f st1 with
        | .error e => .error e
        | .ok (right, st2) => equalityRest f (.Binary expr operator right) st2
      else .ok (expr, st)

def comparison : Nat → ParserState → PResult Expr
  | 0, st => fuelErr st
  | f + 1, st =>
      match term f st with
      | .error e => .error e
      | .ok (expr, st1) => comparisonRest f expr st1

def comparisonRest : Nat → Expr → ParserState → PResult Expr
  | 0, _, st => fuelErr st
  | f + 1, expr, st =>
      let (m, st1) := matchTs st [.GREATER, .GREATER_EQUAL, .LESS, .LESS_EQUAL]
      if m then
        let operator := previous st1
        match term f st1 with
        | .error e => .error e
        | .ok (right, st2) => comparisonRest f (.Binary expr operator right) st2
      else .ok (expr, st)

def term : Nat → ParserState → PResult Expr
  | 0, st => fuelErr st
  | f + 1, st =>
      match factor f st with
      | .error e => .error e
      | .ok (expr, st1) => termRest f expr st1

def termRest : Nat → Expr → ParserState → PResult Expr
  | 0, _, st => fuelErr st
  | f + 1, expr, st =>
      let (m, st1) := matchTs st [.MINUS, .PLUS]
      if m then
        let operator := previous st1
        match factor f st1 with
        | .error e => .error e
        | .ok (right, st2) => termRest f (.Binary expr operator right) st2
      else .ok (expr, st)

def factor : Nat → ParserState → PResult Expr
  | 0, st => fuelErr st
  | f + 1, st =>
      match unary f st with
      | .error e => .error e
      | .ok (expr, st1) => factorRest f expr st1

def factorRest : Nat → Expr → ParserState → PResult Expr
  | 0, _, st => fuelErr st
  | f + 1, expr, st =>
      let (m, st1) := matchTs st [.STAR, .SLASH]
      if m then
        let operator := previous st1
        match unary f st1 with
        | .error e => .error e
        | .ok (right, st2) => factorRest f (.Binary expr operator right) st2
      else .ok (expr, st)

def unary : Nat → ParserState → PResult Expr
  | 0, st => fuelErr st
  | f + 1, st =>
      let (m, st1) := matchTs st [.BANG, .MINUS]
      if m then
        let operator := previous st1
        match unary f st1 with
        | .error e => .error e
        | .ok (right, st2) => .ok (.Unary operator right, st2)
      else callP f st

def callP : Nat → ParserState → PResult Expr
  | 0, st => fuelErr st
  | f + 1, st =>
      match primary f st with
      | .error e => .error e
      | .ok (expr, st1) => callRest f expr st1

def callRest : Nat → Expr → ParserState → PResult Expr
  | 0, _, st => fuelErr st
  | f + 1, expr, st =>
      let (m1, st1) := matchTs st [.LEFT_PARAN]
      if m1 then
        match finish_call f expr st1 with
        | .error e => .error e
        | .ok (expr2, st2) => callRest f expr2 st2
      else
        let (m2, st2) := matchTs st [.DOT]
        if m2 then
          match consume st2 .IDENTIFIER "Expect property name after \x27.\x27" with
          | .error e => .error e
          | .ok (name, st3) => callRest f (.Get expr name) st3
        else .ok (expr, st)

def finish_call : Nat → Expr → ParserState → PResult Expr
  | 0, _, st => fuelErr st
  | f + 1, callee, st =>
      let argsRes : PResult (List Expr) :=
        if check st .RIGHT_PARAN then .ok ([], st)
        else finishCallArgs f st []
      match argsRes with
      | .error e => .error e
      | .ok (args, st1) =>
          match consume st1 .RIGHT_PARAN
              "Expect \x27)\x27 at the end of function call" with
          | .error e => .error e
          | .ok (_, st2) => .ok (.Call callee (previous st2) args, st2)

def finishCallArgs : Nat → ParserState → List Expr → PResult (List Expr)
  | 0, st, _ => fuelErr st
  | f + 1, st, args =>
      let st0 :=
        if args.length ≥ 255 then
          errorP st (ParserError.ofToken (peek st)
            "Function can\x27t have more than 255 arguments")
        else st
      match expression f st0 with
      | .error e => .error e
      | .ok (e, st1) =>
          let (m, st2) := matchTs st1 [.COMMA]
          if m then finishCallArgs f st2 (args ++ [e])
          else .ok (args ++ [e], st2)

def primary : Nat → ParserState → PResult Expr
  | 0, st => fuelErr st
  | f + 1, st =>
      let pk := peek st
      match pk.token_type with
      | .FALSE => .ok (.Litral .False, (advance st).2)
      | .TRUE => .ok (.Litral .True, (advance st).2)
      | .NIL => .ok (.Litral .Nil, (advance st).2)
      | .NUMBER litral => .ok (.Litral (.NUMBER litral), (advance st).2)
      | .STRING litral => .ok (.Litral (.STRING litral), (advance st).2)
      | .IDENTIFIER => .ok (.Variable pk none, (advance st).2)
      | .THIS => .ok (.This pk none, (advance st).2)
      | _ =>
          let (m, st1) := matchTs st [.SUPER]
          if m then
            let keyword := previous st1
            match consume st1 .DOT "Expect \x27.\x27 after \x27super\x27 keyword" with
            | .error e => .error e
            | .ok (_, st2) =>
                match consume st2 .IDENTIFIER
                    "Expect super class method name after \x27.\x27" with
                | .error e => .error e
                | .ok (_, st3) => .ok (.Super keyword (previous st3) none, st3)
          else if pk.token_type = .LEFT_PARAN then
            let st2 := (advance st).2
            match expression f st2 with
            | .error e1 => .error e1
            | .ok (e, st3) =>
                match consume st3 .RIGHT_PARAN "Expect ) after expression" with
                | .error e1 => .error e1
                | .ok (_, st4) => .ok (.Grouping e, st4)
          else
            let (_, st2) := advance st
            .error (ParserError.ofToken (previous st2) "Unsupported primary token")

end

/-- Parser::expression_statement. -/
def expression_statement (f : Nat) (st : ParserState) :
    Except ParserError (Stmt × ParserState) :=
  match expression f st with
  | .error e1 => .error e1
  | .ok (e, st1) =>
      match consume st1 .SEMICOLON "Expect ; after expression" with
      | .error e1 => .error e1
      | .ok (_, st2) => .ok (.ExpressionStmt e, st2)

end Parser

/-! ## Resolver, from src/src/resolver.rs.

The full resolver is embedded as a state-passing function over the AST of
src/src/ast.rs (which has no Extension statement).  scopes is kept
innermost-first (the reverse of the Rust Vec, whose last element is the
innermost scope), so resolve_local_depth is a scan from the head.
Reported errors are only counted, as the driver only reads the count.
The mutual recursion is fuel-bounded; running out of fuel counts an error,
so a run whose final error count is zero never exhausted its fuel (the
resolver itself is total: fuel one larger than the AST size suffices). -/

inductive ClassType where
  | Class
  | SubClass
deriving DecidableEq, Repr

/-- ClassData: per-class bookkeeping for duplicate-method errors (and for
the extension mechanism, which this AST cannot express). -/
structure ClassData where
  class_name : String
  super_class : Option Token
  methods : List (String × Bool)
deriving DecidableEq, Repr

structure RState where
  scopes : List (List (String × Bool))
  class_scopes : List ClassData
  current_function : Option FunctionType
  current_class : Option ClassType
  num_of_resolver_errs : Nat
deriving Repr

def Fun.name : Fun → Token
  | .mk n _ _ => n

def Fun.params : Fun → List Token
  | .mk _ p _ => p

def Fun.body : Fun → List Stmt
  | .mk _ _ b => b

namespace Resolver

/-- Resolver::error — report and count. -/
def rerror (st : RState) : RState :=
  { st with num_of_resolver_errs := st.num_of_resolver_errs + 1 }

def begin_scope (st : RState) : RState :=
  { st with scopes := [] :: st.scopes }

def end_scope (st : RState) : RState :=
  { st with scopes := st.scopes.tail }

/-- Resolver::declare — no-op on empty scopes; error on redeclaration in
the innermost scope, else insert with defined = false. -/
def declare (st : RState) (name : Token) : RState :=
  match st.scopes with
  | [] => st
  | scope :: rest =>
      if alistContains scope name.lexeme then rerror st
      else { st with scopes := ((name.lexeme, false) :: scope) :: rest }

/-- Resolver::define — no-op on empty scopes; insert defined = true. -/
def define (st : RState) (name : Token) : RState :=
  match st.scopes with
  | [] => st
  | scope :: rest =>
      { st with scopes := alistInsert scope name.lexeme true :: rest }

/-- scopes.last_mut().unwrap().insert(name, true), used by
resolve_methods for the synthesized super and this scopes. -/
def insert_top (st : RState) (n : String) : RState :=
  match st.scopes with
  | [] => st
  | scope :: rest => { st with scopes := alistInsert scope n true :: rest }

/-- Resolver::resolve_local_depth — hop count of the first scope,
innermost outward, containing the name; None means global. -/
def resolve_local_depth_aux (name : String) : List (List (String × Bool)) → Option Nat
  | [] => none
  | scope :: rest =>
      if alistContains scope name then some 0
      else (resolve_local_depth_aux name rest).map (· + 1)

def resolve_local_depth (st : RState) (name : Token) : Option Nat :=
  resolve_local_depth_aux name.lexeme st.scopes

def begin_class_scope (st : RState) (name : Token) (super_class : Option Expr) : RState :=
  let sc : Option Token :=
    match super_class with
    | some (.Variable n _) => some n
    | _ => none
  { st with class_scopes := ⟨name.lexeme, sc, []⟩ :: st.class_scopes }

def end_class_scope (st : RState) : RState :=
  { st with class_scopes := st.class_scopes.tail }

/-- Resolver::define_method — duplicate method names are errors. -/
def define_method (st : RState) (name : Token) : RState :=
  match st.class_scopes with
  | [] => st -- guarded by an assert in the source; unreachable from resolve_methods
  | cd :: rest =>
      if alistContains cd.methods name.lexeme then rerror st
      else { st with class_scopes :=
        { cd with methods := (name.lexeme, true) :: cd.methods } :: rest }

mutual

/-- Resolver::resolve_expr — returns the depth-patched expression. -/
def resolve_expr : Nat → RState → Expr → Expr × RState
  | 0, st, e => (e, rerror st)
  | _ + 1, st, .Variable name _ =>
      let st1 :=
        match st.scopes with
        | [] => st
        | scope :: _ =>
            if alistGet scope name.lexeme = some false then rerror st else st
      (.Variable name (resolve_local_depth st1 name), st1)
  | _ + 1, st, .Super keyword method _ =>
      match st.current_class with
      | none => (.Super keyword method none, rerror st)
      | some .Class => (.Super keyword method none, rerror st)
      | some .SubClass =>
          (.Super keyword method (resolve_local_depth st keyword), st)
  | _ + 1, st, .This keyword _ =>
      match st.current_class with
      | some _ => (.This keyword (resolve_local_depth st keyword), st)
      | none => (.This keyword none, rerror st)
  | f + 1, st, .Assign name _ value =>
      let (value1, st1) := resolve_expr f st value
      (.Assign name (resolve_local_depth st1 name) value1, st1)
  | _ + 1, st, .Litral l => (.Litral l, st)
  | f + 1, st, .Unary operator right =>
      let (right1, st1) := resolve_expr f st right
      (.Unary operator right1, st1)
  | f + 1, st, .Binary left operator right =>
      let (left1, st1) := resolve_expr f st left
      let (right1, st2) := resolve_expr f st1 right
      (.Binary left1 operator right1, st2)
  | f + 1, st, .Logical left operator right =>
      let (left1, st1) := resolve_expr f st left
      let (right1, st2) := resolve_expr f st1 right
      (.Logical left1 operator right1, st2)
  | f + 1, st, .Grouping expression =>
      let (e1, st1) := resolve_expr f st expression
      (.Grouping e1, st1)
  | f + 1, st, .Call callee paran arguments =>
      let (callee1, st1) := resolve_expr f st callee
      let (args1, st2) := resolve_exprs f st1 arguments
      (.Call callee1 paran args1, st2)
  | f + 1, st, .Get object name =>
      let (object1, st1) := resolve_expr f st object
      (.Get object1 name, st1)
  | f + 1, st, .Set object name value =>
      let (object1, st1) := resolve_expr f st object
      let (value1, st2) := resolve_expr f st1 value
      (.Set object1 name value1, st2)

def resolve_exprs : Nat → RState → List Expr → List Expr × RState
  | 0, st, es => (es, rerror st)
  | f + 1, st, [] =>
      let _ := f
      ([], st)
  | f + 1, st, e :: rest =>
      let (e1, st1) := resolve_expr f st e
      let (rest1, st2) := resolve_exprs f st1 rest
      (e1 :: rest1, st2)

def resolve_stmt : Nat → RState → Stmt → Stmt × RState
  | 0, st, s => (s, rerror st)
  | f + 1, st, .Class name super_class methods =>
      let st1 := define (declare st name) name
      let st2 := begin_class_scope st1 name super_class
      let st3 :=
        match super_class with
        | some (.Variable super_class_name _) =>
            if super_class_name.lexeme = name.lexeme then rerror st2 else st2
        | _ => st2
      let (sc1, methods1, st4) := resolve_methods f st3 super_class methods
      (.Class name sc1 methods1, end_class_scope st4)
  | f + 1, st, .Function fn =>
      let st1 := define (declare st fn.name) fn.name
      let (fn1, st2) := resolve_function f st1 fn .Function
      (.Function fn1, st2)
  | f + 1, st, .Var name expression =>
      let st1 := declare st name
      let (expression1, st2) :=
        match expression with
        | some e =>
            let (e1, st2) := resolve_expr f st1 e
            (some e1, st2)
        | none => (none, st1)
      (.Var name expression1, define st2 name)
  | f + 1, st, .Block statements =>
      let (statements1, st1) := resolve_stmts f (begin_scope st) statements
      (.Block statements1, end_scope st1)
  | f + 1, st, .PrintStmt expression =>
      let (e1, st1) := resolve_expr f st expression
      (.PrintStmt e1, st1)
  | f + 1, st, .ExpressionStmt expression =>
      let (e1, st1) := resolve_expr f st expression
      (.ExpressionStmt e1, st1)
  | f + 1, st, .IfStmt condition then_branch else_branch =>
      let (c1, st1) := resolve_expr f st condition
      let (t1, st2) := resolve_stmt f st1 then_branch
      match else_branch with
      | some e =>
          let (e1, st3) := resolve_stmt f st2 e
          (.IfStmt c1 t1 (some e1), st3)
      | none => (.IfStmt c1 t1 none, st2)
  | f + 1, st, .WhileStmt condition body =>
      let (c1, st1) := resolve_expr f st condition
      let (b1, st2) := resolve_stmt f st1 body
      (.WhileStmt c1 b1, st2)
  | f + 1, st, .Return keyword value =>
      match st.current_function with
      | some fun_type =>
          match value with
          | some v =>
              if fun_type = FunctionType.Initializer then
                (.Return keyword (some v), rerror st)
              else
                let (v1, st1) := resolve_expr f st v
                (.Return keyword (some v1), st1)
          | none => (.Return keyword none, st)
      | none => (.Return keyword value, rerror st)

def resolve_stmts : Nat → RState → List Stmt → List Stmt × RState
  | 0, st, ss => (ss, rerror st)
  | f + 1, st, [] =>
      let _ := f
      ([], st)
  | f + 1, st, s :: rest =>
      let (s1, st1) := resolve_stmt f st s
      let (rest1, st2) := resolve_stmts f st1 rest
      (s1 :: rest1, st2)

/-- Resolver::resolve_function — new scope holding the parameters, body
resolved inside it, current_function swapped for the duration. -/
def resolve_function : Nat → RState → Fun → FunctionType → Fun × RState
  | 0, st, fn, _ => (fn, rerror st)
  | f + 1, st, .mk name params body, fun_type =>
      let enclosing_function := st.current_function
      let st1 := { st with current_function := some fun_type }
      let st2 := params.foldl (fun acc p => define (declare acc p) p) (begin_scope st1)
      let (body1, st3) := resolve_stmts f st2 body
      let st4 := end_scope st3
      (.mk name params body1, { st4 with current_function := enclosing_function })

/-- Resolver::resolve_methods — superclass expression resolved under
current_class = SubClass, then the synthesized super scope (when a
superclass is present) and this scope, then each method as a function with
Method / Initializer context. -/
def resolve_methods : Nat → RState → Option Expr → List Fun →
    Option Expr × List Fun × RState
  | 0, st, sc, ms => (sc, ms, rerror st)
  | f + 1, st, super_class, methods =>
      let enclosing_class := st.current_class
      let st1 := { st with current_class := some .Class }
      let (super_class1, st2) :=
        match super_class with
        | some sc =>
            let st1a := { st1 with current_class := some .SubClass }
            let (sc1, st1b) := resolve_expr f st1a sc
            (some sc1, insert_top (begin_scope st1b) "super")
        | none => (none, st1)
      let st3 := insert_top (begin_scope st2) "this"
      let (methods1, st4) := resolve_method_list f st3 methods
      let st5 := end_scope st4
      let st6 :=
        match super_class with
        | some _ => end_scope st5
        | none => st5
      (super_class1, methods1, { st6 with current_class := enclosing_class })

def resolve_method_list : Nat → RState → List Fun → List Fun × RState
  | 0, st, ms => (ms, rerror st)
  | f + 1, st, [] =>
      let _ := f
      ([], st)
  | f + 1, st, m :: rest =>
      let declaration :=
        if m.name.lexeme = "init" then FunctionType.Initializer
        else FunctionType.Method
      let st1 := define_method st m.name
      let (m1, st2) := resolve_function f st1 m declaration
      let (rest1, st3) := resolve_method_list f st2 rest
      (m1 :: rest1, st3)

end

/-- Resolver::new. -/
def initial : RState :=
  ⟨[], [], none, none, 0⟩

end Resolver

/-! ## Heap-modelled interpreter, from src/src/interpreter.rs together with
environment.rs, lox_function.rs and lox_class.rs.

Rc<RefCell<Environment>> handles are modelled by indices into a frame
heap, so shared mutation (definitions seen through captured closures,
take_enclosing severing the super frame) is represented faithfully.
Classes and instances live in their own heaps.  The native clock returns a
fixed number (its value never flows into an environment lookup).  The
mutual recursion is fuel-bounded with an explicit timeout outcome.

Outcomes separate the two panic families: panicEnv is exactly the panics
the C3 claim is about (Environment::get_at's expect and ancestor's unwrap,
modelled as a failed heap lookup on those paths), while panicOther covers
the remaining panics in the source (downcast expects, the
resolved-depth-None panics for this / super, the parameter-index
out-of-bounds, and the assert in an initializer's return). -/

abbrev EnvId := Nat
abbrev ClassId := Nat
abbrev InstId := Nat

inductive HVal where
  | hNil
  | hBool (b : Bool)
  | hNum (q : F64)
  | hStr (s : String)
  | hClock
  | hFun (decl : Fun) (closure : EnvId) (is_initializer : Bool)
  | hClass (c : ClassId)
  | hInstance (i : InstId)
deriving Repr

structure HFrame where
  values : List (String × HVal)
  enclosing : Option EnvId
deriving Repr

structure ClassObj where
  name : String
  super_class : Option ClassId
  methods : List (String × (Fun × EnvId × Bool))
deriving Repr

structure InstObj where
  kclass : ClassId
  fields : List (String × HVal)
deriving Repr

structure Heap where
  frames : List HFrame
  classes : List ClassObj
  instances : List InstObj
deriving Repr

structure IState where
  heap : Heap
  globals : EnvId
  environment : EnvId
deriving Repr

inductive HInterpErr where
  | runtimeError (message : String)
  | earlyReturn (return_value : HVal)
deriving Repr

inductive HRes (α : Type) where
  | ok (a : α) (s : IState)
  | err (e : HInterpErr) (s : IState)
  | panicEnv
  | panicOther
  | timeout
deriving Repr

namespace Heap

def frame (h : Heap) (i : EnvId) : Option HFrame :=
  h.frames.get? i

def setFrame (h : Heap) (i : EnvId) (f : HFrame) : Heap :=
  { h with frames := h.frames.set i f }

def allocFrame (h : Heap) (f : HFrame) : Heap × EnvId :=
  ({ h with frames := h.frames ++ [f] }, h.frames.length)

def classObj (h : Heap) (i : ClassId) : Option ClassObj :=
  h.classes.get? i

def allocClass (h : Heap) (c : ClassObj) : Heap × ClassId :=
  ({ h with classes := h.classes ++ [c] }, h.classes.length)

def instObj (h : Heap) (i : InstId) : Option InstObj :=
  h.instances.get? i

def setInst (h : Heap) (i : InstId) (o : InstObj) : Heap :=
  { h with instances := h.instances.set i o }

def allocInst (h : Heap) (o : InstObj) : Heap × InstId :=
  ({ h with instances := h.instances ++ [o] }, h.instances.length)

/-- The trailing hops of Environment::ancestor (i runs from 1 to depth). -/
def hops (h : Heap) : EnvId → Nat → Option EnvId
  | e, 0 => some e
  | e, n + 1 =>
      match h.frame e with
      | none => none
      | some fr =>
          match fr.enclosing with
          | none => none
          | some t => hops h t n

/-- Environment::ancestor — one unconditional unwrap of enclosing, then
depth − 1 further hops; none models the unwrap panic. -/
def ancestor (h : Heap) (e : EnvId) (depth : Nat) : Option EnvId :=
  match h.frame e with
  | none => none
  | some fr =>
      match fr.enclosing with
      | none => none
      | some t => hops h t (depth - 1)

def env_at_depth (h : Heap) (e : EnvId) (depth : Nat) : Option EnvId :=
  if depth = 0 then some e else ancestor h e depth

/-- Environment::get_at — none models the expect panic (or the ancestor
unwrap). -/
def get_at (h : Heap) (e : EnvId) (name : String) (depth : Nat) : Option HVal :=
  (env_at_depth h e depth).bind fun i =>
    (h.frame i).bind fun fr => alistGet fr.values name

/-- Environment::define on the frame with the given id. -/
def defineAt (h : Heap) (e : EnvId) (name : String) (v : HVal) : Heap :=
  match h.frame e with
  | none => h
  | some fr => h.setFrame e { fr with values := alistInsert fr.values name v }

/-- Environment::assign_at — insert into the frame at depth; none models
the ancestor unwrap panic. -/
def assign_at (h : Heap) (e : EnvId) (name : String) (v : HVal) (depth : Nat) :
    Option Heap :=
  (env_at_depth h e depth).map fun i => h.defineAt i name v

/-- Environment::get — by-name search outward.  The go fuel only bounds the
model; chains reachable in a run are acyclic and shorter than the frame
count, so the fuel never runs out (go 0 is dead code). -/
def getByName (h : Heap) (e : EnvId) (name : String) : Except HInterpErr HVal :=
  go (h.frames.length + 1) e
where
  go : Nat → EnvId → Except HInterpErr HVal
    | 0, _ => .error (.runtimeError "unreachable: cyclic environment chain")
    | fuel + 1, i =>
        match h.frame i with
        | none => .error (.runtimeError "unreachable: dangling environment id")
        | some fr =>
            match alistGet fr.values name with
            | some v => .ok v
            | none =>
                match fr.enclosing with
                | none => .error (.runtimeError ("Undefined variable \"" ++ name ++ "\"."))
                | some enc => go fuel enc

/-- Environment::assign — by-name search outward, mutating on hit. -/
def assignByName (h : Heap) (e : EnvId) (name : String) (v : HVal) :
    Except HInterpErr Heap :=
  go (h.frames.length + 1) e
where
  go : Nat → EnvId → Except HInterpErr Heap
    | 0, _ => .error (.runtimeError "unreachable: cyclic environment chain")
    | fuel + 1, i =>
        match h.frame i with
        | none => .error (.runtimeError "unreachable: dangling environment id")
        | some fr =>
            if (alistGet fr.values name).isSome then
              .ok (h.setFrame i { fr with values := alistInsert fr.values name v })
            else
              match fr.enclosing with
              | none => .error (.runtimeError ("Variable " ++ name ++ " is not declared"))
              | some enc => go fuel enc

/-- LoxClassDefinition::find_method over the class heap: with a superclass
present only the superclass chain is consulted (see the pure model above),
so only the root ancestor's table is ever read.  Fuel bounds the model;
superclass chains are acyclic by construction. -/
def find_method (h : Heap) (c : ClassId) (m : String) : Option (Fun × EnvId × Bool) :=
  go (h.classes.length + 1) c
where
  go : Nat → ClassId → Option (Fun × EnvId × Bool)
    | 0, _ => none
    | fuel + 1, i =>
        match h.classObj i with
        | none => none
        | some co =>
            match co.super_class with
            | some sc => go fuel sc
            | none => alistGet co.methods m

/-- LoxFunction::bind — a fresh environment binding this to the instance,
enclosing the method's closure; is_initializer preserved. -/
def bind (h : Heap) (fn : Fun) (closure : EnvId) (is_initializer : Bool)
    (receiver : HVal) : Heap × HVal :=
  let (h1, fid) := h.allocFrame ⟨[("this", receiver)], some closure⟩
  (h1, .hFun fn fid is_initializer)

end Heap

namespace HVal

/-- impl PartialEq for RuntimeValue at the heap value type: structural on
primitives, the catch-all (callables, instances, mixed) is false. -/
def eqRV : HVal → HVal → Bool
  | hStr l, hStr r => l = r
  | hNum l, hNum r => l = r
  | hBool l, hBool r => l = r
  | hNil, hNil => true
  | _, _ => false

def ltRV : HVal → HVal → Bool
  | hStr l, hStr r => l < r
  | hNum l, hNum r => l < r
  | hBool l, hBool r => l < r
  | _, _ => false

def leRV : HVal → HVal → Bool
  | hStr l, hStr r => l ≤ r
  | hNum l, hNum r => l ≤ r
  | hBool l, hBool r => l ≤ r
  | hNil, hNil => true
  | _, _ => false

def gtRV : HVal → HVal → Bool
  | hStr l, hStr r => l > r
  | hNum l, hNum r => l > r
  | hBool l, hBool r => l > r
  | _, _ => false

def geRV : HVal → HVal → Bool
  | hStr l, hStr r => l ≥ r
  | hNum l, hNum r => l ≥ r
  | hBool l, hBool r => l ≥ r
  | hNil, hNil => true
  | _, _ => false

def is_truthy : HVal → HVal
  | hNil => hBool false
  | hBool false => hBool false
  | _ => hBool true

def toBool (v : HVal) : Bool :=
  match v.is_truthy with
  | hBool true => true
  | _ => false

/-- Is the value a RuntimeValue::Callable (native, function or class)? -/
def isCallable : HVal → Bool
  | hClock => true
  | hFun _ _ _ => true
  | hClass _ => true
  | _ => false

end HVal

/-- The Binary arm of Interpreter::evaluate at the heap value type
(operator dispatch plus the Neg / Add / Sub / Mul / Div / Not impls). -/
def evalBinaryOpH (op : TokenType) (l r : HVal) : Except HInterpErr HVal :=
  match op with
  | .MINUS =>
      match l, r with
      | .hNum a, .hNum b => .ok (.hNum (a - b))
      | _, _ => .error (.runtimeError "subtraction is allowed only between numbers")
  | .PLUS =>
      match l, r with
      | .hNum a, .hNum b => .ok (.hNum (a + b))
      | .hStr a, .hStr b => .ok (.hStr (a ++ b))
      | _, _ => .error (.runtimeError "addition is allowed only between numbers")
  | .STAR =>
      match l, r with
      | .hNum a, .hNum b => .ok (.hNum (a * b))
      | _, _ => .error (.runtimeError "Multiplication is allowed only between numbers")
  | .SLASH =>
      match l, r with
      | .hNum a, .hNum b =>
          if b = 0 then .error (.runtimeError "divide by zero error")
          else .ok (.hNum (a / b))
      | _, _ => .error (.runtimeError "division is allowed only between numbers")
  | .GREATER => .ok (.hBool (l.gtRV r))
  | .GREATER_EQUAL => .ok (.hBool (l.geRV r))
  | .LESS => .ok (.hBool (l.ltRV r))
  | .LESS_EQUAL => .ok (.hBool (l.leRV r))
  | .BANG_EQUAL => .ok (.hBool (!(l.eqRV r)))
  | .EQUAL_EQUAL => .ok (.hBool (l.eqRV r))
  | _ => .error (.runtimeError "Unsupported operator")

def LitralValue.toHVal : LitralValue → HVal
  | .NUMBER v => .hNum v
  | .STRING v => .hStr v
  | .True => .hBool true
  | .False => .hBool false
  | .Nil => .hNil

/-- LoxCallable::arity: parameter count for functions, the arity of the
init method (found through find_method) for classes, 0 for the native
clock. -/
def arityH (h : Heap) : HVal → Nat
  | .hClock => 0
  | .hFun fn _ _ => fn.params.length
  | .hClass cid =>
      match Heap.find_method h cid "init" with
      | some (fn, _, _) => fn.params.length
      | none => 0
  | _ => 0

mutual

/-- Interpreter::execute. -/
def executeH : Nat → IState → Stmt → HRes Unit
  | 0, _, _ => .timeout
  | f + 1, s, .Class name super_class methods =>
      match super_class with
      | some scExpr =>
          match evaluateH f s scExpr with
          | .ok v s1 =>
              if v.isCallable then
                match v with
                | .hClass cid => classBodyH f s1 name (some cid) methods
                | _ => .panicOther -- downcast::<LoxClass>().expect
              else .err (.runtimeError "Super class must be a class") s1
          | .err e s1 => .err e s1
          | .panicEnv => .panicEnv
          | .panicOther => .panicOther
          | .timeout => .timeout
      | none => classBodyH f s name none methods
  | f + 1, s, .Var name expression =>
      match expression with
      | some e =>
          match evaluateH f s e with
          | .ok v s1 =>
              .ok () { s1 with heap := s1.heap.defineAt s1.environment name.lexeme v }
          | .err e1 s1 => .err e1 s1
          | .panicEnv => .panicEnv
          | .panicOther => .panicOther
          | .timeout => .timeout
      | none =>
          .ok () { s with heap := s.heap.defineAt s.environment name.lexeme .hNil }
  | f + 1, s, .ExpressionStmt e =>
      match evaluateH f s e with
      | .ok _ s1 => .ok () s1
      | .err e1 s1 => .err e1 s1
      | .panicEnv => .panicEnv
      | .panicOther => .panicOther
      | .timeout => .timeout
  | f + 1, s, .IfStmt condition then_branch else_branch =>
      match evaluateH f s condition with
      | .ok cv s1 =>
          if cv.toBool then executeH f s1 then_branch
          else
            match else_branch with
            | some e => executeH f s1 e
            | none => .ok () s1
      | .err e1 s1 => .err e1 s1
      | .panicEnv => .panicEnv
      | .panicOther => .panicOther
      | .timeout => .timeout
  | f + 1, s, .WhileStmt condition body =>
      match evaluateH f s condition with
      | .ok cv s1 =>
          if cv.toBool then
            match executeH f s1 body with
            | .ok () s2 => executeH f s2 (.WhileStmt condition body)
            | .err e1 s2 => .err e1 s2
            | .panicEnv => .panicEnv
            | .panicOther => .panicOther
            | .timeout => .timeout
          else .ok () s1
      | .err e1 s1 => .err e1 s1
      | .panicEnv => .panicEnv
      | .panicOther => .panicOther
      | .timeout => .timeout
  | f + 1, s, .PrintStmt e =>
      match evaluateH f s e with
      | .ok _ s1 => .ok () s1 -- println! writes to stdout, no heap effect
      | .err e1 s1 => .err e1 s1
      | .panicEnv => .panicEnv
      | .panicOther => .panicOther
      | .timeout => .timeout
  | f + 1, s, .Return _keyword value =>
      match value with
      | some e =>
          match evaluateH f s e with
          | .ok v s1 => .err (.earlyReturn v) s1
          | .err e1 s1 => .err e1 s1
          | .panicEnv => .panicEnv
          | .panicOther => .panicOther
          | .timeout => .timeout
      | none => .err (.earlyReturn .hNil) s
  | f + 1, s, .Block statements =>
      let (h1, fid) := s.heap.allocFrame ⟨[], some s.environment⟩
      executeBlockH f { s with heap := h1 } fid statements
  | f + 1, s, .Function fn =>
      let _ := f
      .ok () { s with heap :=
        s.heap.defineAt s.environment fn.name.lexeme (.hFun fn s.environment false) }

/-- The body of Stmt::Class after the superclass value is known:
pre-define the name as Nil, push the super frame when a superclass is
present, build the method table over the then-current environment, pop the
super frame via take_enclosing (which severs the frame's enclosing link),
construct the class and assign it by name. -/
def classBodyH : Nat → IState → Token → Option ClassId → List Fun → HRes Unit
  | 0, _, _, _, _ => .timeout
  | _ + 1, s, name, scOpt, methods =>
      let h1 := s.heap.defineAt s.environment name.lexeme .hNil
      let (h2, envM) :=
        match scOpt with
        | some cid => h1.allocFrame ⟨[("super", .hClass cid)], some s.environment⟩
        | none => (h1, s.environment)
      let msMap := methods.foldl
        (fun acc m => alistInsert acc m.name.lexeme (m, envM, decide (m.name.lexeme = "init"))) []
      let (h3, envAfter) :=
        match scOpt with
        | some _ =>
            match h2.frame envM with
            | some fr =>
                (h2.setFrame envM { fr with enclosing := none },
                 match fr.enclosing with
                 | some e => e
                 | none => envM)
            | none => (h2, envM) -- unreachable: envM was just allocated
        | none => (h2, s.environment)
      let (h4, cid) := h3.allocClass ⟨name.lexeme, scOpt, msMap⟩
      match h4.assignByName envAfter name.lexeme (.hClass cid) with
      | .ok h5 => .ok () { s with heap := h5, environment := envAfter }
      | .error e => .err e { s with heap := h4, environment := envAfter }

/-- Interpreter::execute_block — swap in the block environment, run, and
restore the caller's environment on every exit path. -/
def executeBlockH : Nat → IState → EnvId → List Stmt → HRes Unit
  | 0, _, _, _ => .timeout
  | f + 1, s, newEnv, stmts =>
      match executeStmtsH f { s with environment := newEnv } stmts with
      | .ok () s1 => .ok () { s1 with environment := s.environment }
      | .err e s1 => .err e { s1 with environment := s.environment }
      | .panicEnv => .panicEnv
      | .panicOther => .panicOther
      | .timeout => .timeout

/-- Interpreter::interpret / the try_for_each over statements. -/
def executeStmtsH : Nat → IState → List Stmt → HRes Unit
  | 0, _, _ => .timeout
  | _ + 1, s, [] => .ok () s
  | f + 1, s, st :: rest =>
      match executeH f s st with
      | .ok () s1 => executeStmtsH f s1 rest
      | .err e s1 => .err e s1
      | .panicEnv => .panicEnv
      | .panicOther => .panicOther
      | .timeout => .timeout

/-- Interpreter::evaluate. -/
def evaluateH : Nat → IState → Expr → HRes HVal
  | 0, _, _ => .timeout
  | f + 1, s, .Grouping e => evaluateH f s e
  | _ + 1, s, .Litral l => .ok l.toHVal s
  | f + 1, s, .Unary operator right =>
      match evaluateH f s right with
      | .ok r s1 =>
          match operator.token_type with
          | .MINUS =>
              match r with
              | .hNum q => .ok (.hNum (q * (-1))) s1
              | _ => .err (.runtimeError "Can't negate anything other than number") s1
          | .BANG =>
              match r.is_truthy with
              | .hBool b => .ok (.hBool (!b)) s1
              | _ => .err (.runtimeError "Not is allowed only on booleans") s1
          | _ => .err (.runtimeError "Only - and ! are supported as a unary operator!") s1
      | .err e1 s1 => .err e1 s1
      | .panicEnv => .panicEnv
      | .panicOther => .panicOther
      | .timeout => .timeout
  | f + 1, s, .Binary left operator right =>
      match evaluateH f s left with
      | .ok lv s1 =>
          match evaluateH f s1 right with
          | .ok rv s2 =>
              -- the map_err rewrap only changes the reported token / line
              match evalBinaryOpH operator.token_type lv rv with
              | .ok v => .ok v s2
              | .error e => .err e s2
          | .err e1 s2 => .err e1 s2
          | .panicEnv => .panicEnv
          | .panicOther => .panicOther
          | .timeout => .timeout
      | .err e1 s1 => .err e1 s1
      | .panicEnv => .panicEnv
      | .panicOther => .panicOther
      | .timeout => .timeout
  | f + 1, s, .Logical left operator right =>
      match evaluateH f s left with
      | .ok lv s1 =>
          match operator.token_type, lv.toBool with
          | .OR, true => .ok lv s1
          | .AND, false => .ok lv s1
          | _, _ => evaluateH f s1 right
      | .err e1 s1 => .err e1 s1
      | .panicEnv => .panicEnv
      | .panicOther => .panicOther
      | .timeout => .timeout
  | _ + 1, s, .Variable name depth =>
      match depth with
      | some d =>
          match Heap.get_at s.heap s.environment name.lexeme d with
          | some v => .ok v s
          | none => .panicEnv
      | none =>
          match Heap.getByName s.heap s.globals name.lexeme with
          | .ok v => .ok v s
          | .error e => .err e s
  | _ + 1, s, .This keyword depth =>
      match depth with
      | some d =>
          match Heap.get_at s.heap s.environment keyword.lexeme d with
          | some v => .ok v s
          | none => .panicEnv
      | none => .panicOther -- panic: this cannot be in global scope
  | _ + 1, s, .Super keyword method depth =>
      match depth with
      | some d =>
          match Heap.get_at s.heap s.environment keyword.lexeme d with
          | none => .panicEnv
          | some v =>
              if v.isCallable then
                match v with
                | .hClass cid =>
                    match Heap.find_method s.heap cid method.lexeme with
                    | some (fn, env, isInit) =>
                        match Heap.get_at s.heap s.environment "this" (d - 1) with
                        | none => .panicEnv
                        | some thisV =>
                            match thisV with
                            | .hInstance _ =>
                                let (h1, bound) := s.heap.bind fn env isInit thisV
                                .ok bound { s with heap := h1 }
                            | _ => .err (.runtimeError "'super' is used outside the class") s
                    | none =>
                        .err (.runtimeError ("Unable to find property " ++ method.lexeme)) s
                | _ => .panicOther -- downcast::<LoxClass>().expect
              else .err (.runtimeError "'super' is invalid") s
      | none => .panicOther -- panic: super cannot be in global scope
  | f + 1, s, .Assign name depth value =>
      match evaluateH f s value with
      | .ok v s1 =>
          match depth with
          | some d =>
              match Heap.assign_at s1.heap s1.environment name.lexeme v d with
              | some h2 => .ok v { s1 with heap := h2 }
              | none => .panicEnv
          | none =>
              match Heap.assignByName s1.heap s1.globals name.lexeme v with
              | .ok h2 => .ok v { s1 with heap := h2 }
              | .error e => .err e s1
      | .err e1 s1 => .err e1 s1
      | .panicEnv => .panicEnv
      | .panicOther => .panicOther
      | .timeout => .timeout
  | f + 1, s, .Call callee _paran arguments =>
      match evaluateH f s callee with
      | .ok fv s1 =>
          if fv.isCallable then
            if arityH s1.heap fv ≠ arguments.length then
              .err (.runtimeError "arity mismatch in call") s1
            else
              match evaluateArgsH f s1 arguments with
              | .ok vs s2 => callH f s2 fv vs
              | .err e1 s2 => .err e1 s2
              | .panicEnv => .panicEnv
              | .panicOther => .panicOther
              | .timeout => .timeout
          else .err (.runtimeError "Only functions and classes are callable") s1
      | .err e1 s1 => .err e1 s1
      | .panicEnv => .panicEnv
      | .panicOther => .panicOther
      | .timeout => .timeout
  | f + 1, s, .Get object name =>
      match evaluateH f s object with
      | .ok ov s1 =>
          match ov with
          | .hInstance iid =>
              match s1.heap.instObj iid with
              | none => .panicOther -- unreachable: dangling instance id
              | some io =>
                  match alistGet io.fields name.lexeme with
                  | some v => .ok v s1
                  | none =>
                      match Heap.find_method s1.heap io.kclass name.lexeme with
                      | some (fn, env, isInit) =>
                          let (h1, bound) := s1.heap.bind fn env isInit (.hInstance iid)
                          .ok bound { s1 with heap := h1 }
                      | none =>
                          .err (.runtimeError
                            ("Property " ++ name.lexeme ++ " not found in the object")) s1
          | _ => .err (.runtimeError "Only instance can have properties") s1
      | .err e1 s1 => .err e1 s1
      | .panicEnv => .panicEnv
      | .panicOther => .panicOther
      | .timeout => .timeout
  | f + 1, s, .Set object name value =>
      match evaluateH f s object with
      | .ok ov s1 =>
          match ov with
          | .hInstance iid =>
              match evaluateH f s1 value with
              | .ok v s2 =>
                  match s2.heap.instObj iid with
                  | none => .panicOther -- unreachable: dangling instance id
                  | some io =>
                      let io2 := { io with fields := alistInsert io.fields name.lexeme v }
                      .ok v { s2 with heap := s2.heap.setInst iid io2 }
              | .err e1 s2 => .err e1 s2
              | .panicEnv => .panicEnv
              | .panicOther => .panicOther
              | .timeout => .timeout
          | _ => .err (.runtimeError "Left of a '.' expression should be an instance") s1
      | .err e1 s1 => .err e1 s1
      | .panicEnv => .panicEnv
      | .panicOther => .panicOther
      | .timeout => .timeout

/-- Argument evaluation, left to right (the try_for_each in
evaluate_function_call). -/
def evaluateArgsH : Nat → IState → List Expr → HRes (List HVal)
  | 0, _, _ => .timeout
  | _ + 1, s, [] => .ok [] s
  | f + 1, s, e :: rest =>
      match evaluateH f s e with
      | .ok v s1 =>
          match evaluateArgsH f s1 rest with
          | .ok vs s2 => .ok (v :: vs) s2
          | .err e1 s2 => .err e1 s2
          | .panicEnv => .panicEnv
          | .panicOther => .panicOther
          | .timeout => .timeout
      | .err e1 s1 => .err e1 s1
      | .panicEnv => .panicEnv
      | .panicOther => .panicOther
      | .timeout => .timeout

/-- LoxCallable::call for the three callable kinds.  For LoxFunction the
parameter loop indexes declaration.params[i] for each argument, so more
arguments than parameters is a panic (panicOther — the arity check at the
call site prevents it); the initializer result paths read this at depth 0
from the closure via get_at.  For LoxClass a fresh instance is allocated
and a present init method is bound and called. -/
def callH : Nat → IState → HVal → List HVal → HRes HVal
  | 0, _, _, _ => .timeout
  | _ + 1, s, .hClock, args =>
      if args.length ≠ 0 then
        .err (.runtimeError "calling native clock requires zero arguments") s
      else .ok (.hNum 0) s
  | f + 1, s, .hFun fn closure isInit, args =>
      if fn.params.length < args.length then .panicOther
      else
        let frameVals := (List.zip (fn.params.map (fun p => p.lexeme)) args).foldl
          (fun acc pa => alistInsert acc pa.1 pa.2) []
        let (h1, fid) := s.heap.allocFrame ⟨frameVals, some closure⟩
        match executeBlockH f { s with heap := h1 } fid fn.body with
        | .ok () s2 =>
            if isInit then
              match Heap.get_at s2.heap closure "this" 0 with
              | some v => .ok v s2
              | none => .panicEnv
            else .ok .hNil s2
        | .err e s2 =>
            match e with
            | .earlyReturn rv =>
                if isInit then
                  if HVal.eqRV .hNil rv then
                    match Heap.get_at s2.heap closure "this" 0 with
                    | some v => .ok v s2
                    | none => .panicEnv
                  else .panicOther -- assert: return in constructor carries no value
                else .ok rv s2
            | .runtimeError _ => .err e s2
        | .panicEnv => .panicEnv
        | .panicOther => .panicOther
        | .timeout => .timeout
  | f + 1, s, .hClass cid, args =>
      let (h1, iid) := s.heap.allocInst ⟨cid, []⟩
      match Heap.find_method h1 cid "init" with
      | some (fn, env, isInit) =>
          let (h2, bound) := h1.bind fn env isInit (.hInstance iid)
          callH f { s with heap := h2 } bound args
      | none => .ok (.hInstance iid) { s with heap := h1 }
  | _ + 1, _, _, _ => .panicOther -- unreachable: the call site checked isCallable

end

/-- Interpreter::new — globals holding the native clock; environment
starts at globals. -/
def initialIState : IState :=
  ⟨⟨[⟨[("clock", .hClock)], none⟩], [], []⟩, 0, 0⟩

def interpretH (fuel : Nat) (prog : List Stmt) : HRes Unit :=
  executeStmtsH fuel initialIState prog

/-! ## Output-instrumented full interpreter, for the stdout claim.

The same interpreter as executeH / evaluateH above, additionally carrying
the text the run writes to stdout: the only stdout write in the
interpreter is the PrintStmt arm's println!("{}", value), which appends
the display form of the value and a newline.  Alongside the faithful text
the family records the sequence of print events (the printed value with
the heap current at the print, which the Display impl borrows), so that
"stdout is exactly the rendering of the executed prints, and nothing
else" is a provable relation rather than a definition.  The number
rendering (write!("{}", f64)) is a parameter, as in displayRuntimeValue
above; every other Display arm is rendered concretely. -/

/-- impl fmt::Display for RuntimeValue at the heap value type, together
with the Display impls it delegates to: NativeFnClock ("<native fn
clock>"), LoxFunction ("<fn NAME>"), LoxClass ("<class NAME>" through
LoxClassDefinition's name), ClassInstance ("<instance of NAME>" through
the instance's kclass).  The dangling-id fallbacks are unreachable in a
run. -/
def displayHV (numFmt : F64 → String) (h : Heap) : HVal → String
  | .hNil => "Nil"
  | .hNum q => numFmt q
  | .hStr v => v
  | .hBool b => if b then "true" else "false"
  | .hClock => "<native fn clock>"
  | .hFun fn _ _ => "<fn " ++ fn.name.lexeme ++ ">"
  | .hClass cid =>
      match h.classObj cid with
      | some co => "<class " ++ co.name ++ ">"
      | none => "<class >"
  | .hInstance iid =>
      match h.instObj iid with
      | some io =>
          match h.classObj io.kclass with
          | some co => "<instance of " ++ co.name ++ ">"
          | none => "<instance of >"
      | none => "<instance of >"

/-- One executed print statement: the printed value and the heap at the
moment of printing (which its display form reads). -/
structure PrintEvent where
  heap : Heap
  value : HVal
deriving Repr

/-- Rendering of a print-event sequence: each value in display form
followed by one newline. -/
def renderEvents (numFmt : F64 → String) : List PrintEvent → String
  | [] => ""
  | ev :: rest => displayHV numFmt ev.heap ev.value ++ "\n" ++ renderEvents numFmt rest

mutual

/-- Interpreter::execute with the stdout text written during the call (and
the print events behind it) in the second component.  Statement for
statement the first component is executeH; text already written is kept
on every non-ok outcome (stdout is not rolled back). -/
def executeHO (numF : F64 → String) : Nat → IState → Stmt → HRes Unit × String × List PrintEvent
  | 0, _, _ => (.timeout, "", [])
  | f + 1, s, .Class name super_class methods =>
      match super_class with
      | some scExpr =>
          match evaluateHO numF f s scExpr with
          | (.ok v s1, o, g) =>
              if v.isCallable then
                match v with
                | .hClass cid => (classBodyH f s1 name (some cid) methods, o, g)
                | _ => (.panicOther, o, g)
              else (.err (.runtimeError "Super class must be a class") s1, o, g)
          | (.err e s1, o, g) => (.err e s1, o, g)
          | (.panicEnv, o, g) => (.panicEnv, o, g)
          | (.panicOther, o, g) => (.panicOther, o, g)
          | (.timeout, o, g) => (.timeout, o, g)
      | none => (classBodyH f s name none methods, "", [])
  | f + 1, s, .Var name expression =>
      match expression with
      | some e =>
          match evaluateHO numF f s e with
          | (.ok v s1, o, g) =>
              (.ok () { s1 with heap := s1.heap.defineAt s1.environment name.lexeme v }, o, g)
          | (.err e1 s1, o, g) => (.err e1 s1, o, g)
          | (.panicEnv, o, g) => (.panicEnv, o, g)
          | (.panicOther, o, g) => (.panicOther, o, g)
          | (.timeout, o, g) => (.timeout, o, g)
      | none =>
          (.ok () { s with heap := s.heap.defineAt s.environment name.lexeme .hNil }, "", [])
  | f + 1, s, .ExpressionStmt e =>
      match evaluateHO numF f s e with
      | (.ok _ s1, o, g) => (.ok () s1, o, g)
      | (.err e1 s1, o, g) => (.err e1 s1, o, g)
      | (.panicEnv, o, g) => (.panicEnv, o, g)
      | (.panicOther, o, g) => (.panicOther, o, g)
      | (.timeout, o, g) => (.timeout, o, g)
  | f + 1, s, .IfStmt condition then_branch else_branch =>
      match evaluateHO numF f s condition with
      | (.ok cv s1, o, g) =>
          if cv.toBool then
            match executeHO numF f s1 then_branch with
            | (r, o2, g2) => (r, o ++ o2, g ++ g2)
          else
            match else_branch with
            | some e =>
                match executeHO numF f s1 e with
                | (r, o2, g2) => (r, o ++ o2, g ++ g2)
            | none => (.ok () s1, o, g)
      | (.err e1 s1, o, g) => (.err e1 s1, o, g)
      | (.panicEnv, o, g) => (.panicEnv, o, g)
      | (.panicOther, o, g) => (.panicOther, o, g)
      | (.timeout, o, g) => (.timeout, o, g)
  | f + 1, s, .WhileStmt condition body =>
      match evaluateHO numF f s condition with
      | (.ok cv s1, o, g) =>
          if cv.toBool then
            match executeHO numF f s1 body with
            | (.ok () s2, o2, g2) =>
                match executeHO numF f s2 (.WhileStmt condition body) with
                | (r, o3, g3) => (r, o ++ o2 ++ o3, g ++ g2 ++ g3)
            | (.err e1 s2, o2, g2) => (.err e1 s2, o ++ o2, g ++ g2)
            | (.panicEnv, o2, g2) => (.panicEnv, o ++ o2, g ++ g2)
            | (.panicOther, o2, g2) => (.panicOther, o ++ o2, g ++ g2)
            | (.timeout, o2, g2) => (.timeout, o ++ o2, g ++ g2)
          else (.ok () s1, o, g)
      | (.err e1 s1, o, g) => (.err e1 s1, o, g)
      | (.panicEnv, o, g) => (.panicEnv, o, g)
      | (.panicOther, o, g) => (.panicOther, o, g)
      | (.timeout, o, g) => (.timeout, o, g)
  | f + 1, s, .PrintStmt e =>
      match evaluateHO numF f s e with
      | (.ok v s1, o, g) =>
          (.ok () s1, o ++ (displayHV numF s1.heap v ++ "\n"), g ++ [⟨s1.heap, v⟩])
      | (.err e1 s1, o, g) => (.err e1 s1, o, g)
      | (.panicEnv, o, g) => (.panicEnv, o, g)
      | (.panicOther, o, g) => (.panicOther, o, g)
      | (.timeout, o, g) => (.timeout, o, g)
  | f + 1, s, .Return _keyword value =>
      match value with
      | some e =>
          match evaluateHO numF f s e with
          | (.ok v s1, o, g) => (.err (.earlyReturn v) s1, o, g)
          | (.err e1 s1, o, g) => (.err e1 s1, o, g)
          | (.panicEnv, o, g) => (.panicEnv, o, g)
          | (.panicOther, o, g) => (.panicOther, o, g)
          | (.timeout, o, g) => (.timeout, o, g)
      | none => (.err (.earlyReturn .hNil) s, "", [])
  | f + 1, s, .Block statements =>
      let (h1, fid) := s.heap.allocFrame ⟨[], some s.environment⟩
      executeBlockHO numF f { s with heap := h1 } fid statements
  | f + 1, s, .Function fn =>
      let _ := f
      (.ok () { s with heap :=
        s.heap.defineAt s.environment fn.name.lexeme (.hFun fn s.environment false) }, "", [])

/-- Interpreter::execute_block, instrumented. -/
def executeBlockHO (numF : F64 → String) : Nat → IState → EnvId → List Stmt →
    HRes Unit × String × List PrintEvent
  | 0, _, _, _ => (.timeout, "", [])
  | f + 1, s, newEnv, stmts =>
      match executeStmtsHO numF f { s with environment := newEnv } stmts with
      | (.ok () s1, o, g) => (.ok () { s1 with environment := s.environment }, o, g)
      | (.err e s1, o, g) => (.err e { s1 with environment := s.environment }, o, g)
      | (.panicEnv, o, g) => (.panicEnv, o, g)
      | (.panicOther, o, g) => (.panicOther, o, g)
      | (.timeout, o, g) => (.timeout, o, g)

/-- Interpreter::interpret over a statement list, instrumented. -/
def executeStmtsHO (numF : F64 → String) : Nat → IState → List Stmt →
    HRes Unit × String × List PrintEvent
  | 0, _, _ => (.timeout, "", [])
  | _ + 1, s, [] => (.ok () s, "", [])
  | f + 1, s, st :: rest =>
      match executeHO numF f s st with
      | (.ok () s1, o, g) =>
          match executeStmtsHO numF f s1 rest with
          | (r, o2, g2) => (r, o ++ o2, g ++ g2)
      | (.err e s1, o, g) => (.err e s1, o, g)
      | (.panicEnv, o, g) => (.panicEnv, o, g)
      | (.panicOther, o, g) => (.panicOther, o, g)
      | (.timeout, o, g) => (.timeout, o, g)

/-- Interpreter::evaluate, instrumented (expressions print through calls). -/
def evaluateHO (numF : F64 → String) : Nat → IState → Expr → HRes HVal × String × List PrintEvent
  | 0, _, _ => (.timeout, "", [])
  | f + 1, s, .Grouping e => evaluateHO numF f s e
  | _ + 1, s, .Litral l => (.ok l.toHVal s, "", [])
  | f + 1, s, .Unary operator right =>
      match evaluateHO numF f s right with
      | (.ok r s1, o, g) =>
          match operator.token_type with
          | .MINUS =>
              match r with
              | .hNum q => (.ok (.hNum (q * (-1))) s1, o, g)
              | _ => (.err (.runtimeError "Can't negate anything other than number") s1, o, g)
          | .BANG =>
              match r.is_truthy with
              | .hBool b => (.ok (.hBool (!b)) s1, o, g)
              | _ => (.err (.runtimeError "Not is allowed only on booleans") s1, o, g)
          | _ => (.err (.runtimeError "Only - and ! are supported as a unary operator!") s1, o, g)
      | (.err e1 s1, o, g) => (.err e1 s1, o, g)
      | (.panicEnv, o, g) => (.panicEnv, o, g)
      | (.panicOther, o, g) => (.panicOther, o, g)
      | (.timeout, o, g) => (.timeout, o, g)
  | f + 1, s, .Binary left operator right =>
      match evaluateHO numF f s left with
      | (.ok lv s1, o, g) =>
          match evaluateHO numF f s1 right with
          | (.ok rv s2, o2, g2) =>
              match evalBinaryOpH operator.token_type lv rv with
              | .ok v => (.ok v s2, o ++ o2, g ++ g2)
              | .error e => (.err e s2, o ++ o2, g ++ g2)
          | (.err e1 s2, o2, g2) => (.err e1 s2, o ++ o2, g ++ g2)
          | (.panicEnv, o2, g2) => (.panicEnv, o ++ o2, g ++ g2)
          | (.panicOther, o2, g2) => (.panicOther, o ++ o2, g ++ g2)
          | (.timeout, o2, g2) => (.timeout, o ++ o2, g ++ g2)
      | (.err e1 s1, o, g) => (.err e1 s1, o, g)
      | (.panicEnv, o, g) => (.panicEnv, o, g)
      | (.panicOther, o, g) => (.panicOther, o, g)
      | (.timeout, o, g) => (.timeout, o, g)
  | f + 1, s, .Logical left operator right =>
      match evaluateHO numF f s left with
      | (.ok lv s1, o, g) =>
          match operator.token_type, lv.toBool with
          | .OR, true => (.ok lv s1, o, g)
          | .AND, false => (.ok lv s1, o, g)
          | _, _ =>
              match evaluateHO numF f s1 right with
              | (r, o2, g2) => (r, o ++ o2, g ++ g2)
      | (.err e1 s1, o, g) => (.err e1 s1, o, g)
      | (.panicEnv, o, g) => (.panicEnv, o, g)
      | (.panicOther, o, g) => (.panicOther, o, g)
      | (.timeout, o, g) => (.timeout, o, g)
  | _ + 1, s, .Variable name depth =>
      match depth with
      | some d =>
          match Heap.get_at s.heap s.environment name.lexeme d with
          | some v => (.ok v s, "", [])
          | none => (.panicEnv, "", [])
      | none =>
          match Heap.getByName s.heap s.globals name.lexeme with
          | .ok v => (.ok v s, "", [])
          | .error e => (.err e s, "", [])
  | _ + 1, s, .This keyword depth =>
      match depth with
      | some d =>
          match Heap.get_at s.heap s.environment keyword.lexeme d with
          | some v => (.ok v s, "", [])
          | none => (.panicEnv, "", [])
      | none => (.panicOther, "", [])
  | _ + 1, s, .Super keyword method depth =>
      match depth with
      | some d =>
          match Heap.get_at s.heap s.environment keyword.lexeme d with
          | none => (.panicEnv, "", [])
          | some v =>
              if v.isCallable then
                match v with
                | .hClass cid =>
                    match Heap.find_method s.heap cid method.lexeme with
                    | some (fn, env, isInit) =>
                        match Heap.get_at s.heap s.environment "this" (d - 1) with
                        | none => (.panicEnv, "", [])
                        | some thisV =>
                            match thisV with
                            | .hInstance _ =>
                                let (h1, bound) := s.heap.bind fn env isInit thisV
                                (.ok bound { s with heap := h1 }, "", [])
                            | _ => (.err (.runtimeError "'super' is used outside the class") s, "", [])
                    | none =>
                        (.err (.runtimeError ("Unable to find property " ++ method.lexeme)) s, "", [])
                | _ => (.panicOther, "", [])
              else (.err (.runtimeError "'super' is invalid") s, "", [])
      | none => (.panicOther, "", [])
  | f + 1, s, .Assign name depth value =>
      match evaluateHO numF f s value with
      | (.ok v s1, o, g) =>
          match depth with
          | some d =>
              match Heap.assign_at s1.heap s1.environment name.lexeme v d with
              | some h2 => (.ok v { s1 with heap := h2 }, o, g)
              | none => (.panicEnv, o, g)
          | none =>
              match Heap.assignByName s1.heap s1.globals name.lexeme v with
              | .ok h2 => (.ok v { s1 with heap := h2 }, o, g)
              | .error e => (.err e s1, o, g)
      | (.err e1 s1, o, g) => (.err e1 s1, o, g)
      | (.panicEnv, o, g) => (.panicEnv, o, g)
      | (.panicOther, o, g) => (.panicOther, o, g)
      | (.timeout, o, g) => (.timeout, o, g)
  | f + 1, s, .Call callee _paran arguments =>
      match evaluateHO numF f s callee with
      | (.ok fv s1, o, g) =>
          if fv.isCallable then
            if arityH s1.heap fv ≠ arguments.length then
              (.err (.runtimeError "arity mismatch in call") s1, o, g)
            else
              match evaluateArgsHO numF f s1 arguments with
              | (.ok vs s2, o2, g2) =>
                  match callHO numF f s2 fv vs with
                  | (r, o3, g3) => (r, o ++ o2 ++ o3, g ++ g2 ++ g3)
              | (.err e1 s2, o2, g2) => (.err e1 s2, o ++ o2, g ++ g2)
              | (.panicEnv, o2, g2) => (.panicEnv, o ++ o2, g ++ g2)
              | (.panicOther, o2, g2) => (.panicOther, o ++ o2, g ++ g2)
              | (.timeout, o2, g2) => (.timeout, o ++ o2, g ++ g2)
          else (.err (.runtimeError "Only functions and classes are callable") s1, o, g)
      | (.err e1 s1, o, g) => (.err e1 s1, o, g)
      | (.panicEnv, o, g) => (.panicEnv, o, g)
      | (.panicOther, o, g) => (.panicOther, o, g)
      | (.timeout, o, g) => (.timeout, o, g)
  | f + 1, s, .Get object name =>
      match evaluateHO numF f s object with
      | (.ok ov s1, o, g) =>
          match ov with
          | .hInstance iid =>
              match s1.heap.instObj iid with
              | none => (.panicOther, o, g)
              | some io =>
                  match alistGet io.fields name.lexeme with
                  | some v => (.ok v s1, o, g)
                  | none =>
                      match Heap.find_method s1.heap io.kclass name.lexeme with
                      | some (fn, env, isInit) =>
                          let (h1, bound) := s1.heap.bind fn env isInit (.hInstance iid)
                          (.ok bound { s1 with heap := h1 }, o, g)
                      | none =>
                          (.err (.runtimeError
                            ("Property " ++ name.lexeme ++ " not found in the object")) s1, o, g)
          | _ => (.err (.runtimeError "Only instance can have properties") s1, o, g)
      | (.err e1 s1, o, g) => (.err e1 s1, o, g)
      | (.panicEnv, o, g) => (.panicEnv, o, g)
      | (.panicOther, o, g) => (.panicOther, o, g)
      | (.timeout, o, g) => (.timeout, o, g)
  | f + 1, s, .Set object name value =>
      match evaluateHO numF f s object with
      | (.ok ov s1, o, g) =>
          match ov with
          | .hInstance iid =>
              match evaluateHO numF f s1 value with
              | (.ok v s2, o2, g2) =>
                  match s2.heap.instObj iid with
                  | none => (.panicOther, o ++ o2, g ++ g2)
                  | some io =>
                      let io2 := { io with fields := alistInsert io.fields name.lexeme v }
                      (.ok v { s2 with heap := s2.heap.setInst iid io2 }, o ++ o2, g ++ g2)
              | (.err e1 s2, o2, g2) => (.err e1 s2, o ++ o2, g ++ g2)
              | (.panicEnv, o2, g2) => (.panicEnv, o ++ o2, g ++ g2)
              | (.panicOther, o2, g2) => (.panicOther, o ++ o2, g ++ g2)
              | (.timeout, o2, g2) => (.timeout, o ++ o2, g ++ g2)
          | _ => (.err (.runtimeError "Left of a '.' expression should be an instance") s1, o, g)
      | (.err e1 s1, o, g) => (.err e1 s1, o, g)
      | (.panicEnv, o, g) => (.panicEnv, o, g)
      | (.panicOther, o, g) => (.panicOther, o, g)
      | (.timeout, o, g) => (.timeout, o, g)

/-- Argument evaluation, instrumented. -/
def evaluateArgsHO (numF : F64 → String) : Nat → IState → List Expr →
    HRes (List HVal) × String × List PrintEvent
  | 0, _, _ => (.timeout, "", [])
  | _ + 1, s, [] => (.ok [] s, "", [])
  | f + 1, s, e :: rest =>
      match evaluateHO numF f s e with
      | (.ok v s1, o, g) =>
          match evaluateArgsHO numF f s1 rest with
          | (.ok vs s2, o2, g2) => (.ok (v :: vs) s2, o ++ o2, g ++ g2)
          | (.err e1 s2, o2, g2) => (.err e1 s2, o ++ o2, g ++ g2)
          | (.panicEnv, o2, g2) => (.panicEnv, o ++ o2, g ++ g2)
          | (.panicOther, o2, g2) => (.panicOther, o ++ o2, g ++ g2)
          | (.timeout, o2, g2) => (.timeout, o ++ o2, g ++ g2)
      | (.err e1 s1, o, g) => (.err e1 s1, o, g)
      | (.panicEnv, o, g) => (.panicEnv, o, g)
      | (.panicOther, o, g) => (.panicOther, o, g)
      | (.timeout, o, g) => (.timeout, o, g)

/-- LoxCallable::call, instrumented (function bodies print). -/
def callHO (numF : F64 → String) : Nat → IState → HVal → List HVal →
    HRes HVal × String × List PrintEvent
  | 0, _, _, _ => (.timeout, "", [])
  | _ + 1, s, .hClock, args =>
      if args.length ≠ 0 then
        (.err (.runtimeError "calling native clock requires zero arguments") s, "", [])
      else (.ok (.hNum 0) s, "", [])
  | f + 1, s, .hFun fn closure isInit, args =>
      if fn.params.length < args.length then (.panicOther, "", [])
      else
        let frameVals := (List.zip (fn.params.map (fun p => p.lexeme)) args).foldl
          (fun acc pa => alistInsert acc pa.1 pa.2) []
        let (h1, fid) := s.heap.allocFrame ⟨frameVals, some closure⟩
        match executeBlockHO numF f { s with heap := h1 } fid fn.body with
        | (.ok () s2, o, g) =>
            if isInit then
              match Heap.get_at s2.heap closure "this" 0 with
              | some v => (.ok v s2, o, g)
              | none => (.panicEnv, o, g)
            else (.ok .hNil s2, o, g)
        | (.err e s2, o, g) =>
            match e with
            | .earlyReturn rv =>
                if isInit then
                  if HVal.eqRV .hNil rv then
                    match Heap.get_at s2.heap closure "this" 0 with
                    | some v => (.ok v s2, o, g)
                    | none => (.panicEnv, o, g)
                  else (.panicOther, o, g)
                else (.ok rv s2, o, g)
            | .runtimeError _ => (.err e s2, o, g)
        | (.panicEnv, o, g) => (.panicEnv, o, g)
        | (.panicOther, o, g) => (.panicOther, o, g)
        | (.timeout, o, g) => (.timeout, o, g)
  | f + 1, s, .hClass cid, args =>
      let (h1, iid) := s.heap.allocInst ⟨cid, []⟩
      match Heap.find_method h1 cid "init" with
      | some (fn, env, isInit) =>
          let (h2, bound) := h1.bind fn env isInit (.hInstance iid)
          callHO numF f { s with heap := h2 } bound args
      | none => (.ok (.hInstance iid) { s with heap := h1 }, "", [])
  | _ + 1, _, _, _ => (.panicOther, "", [])

end

/-- The instrumented run from the initial interpreter state. -/
def interpretHO (numF : F64 → String) (fuel : Nat) (prog : List Stmt) :
    HRes Unit × String × List PrintEvent :=
  executeStmtsHO numF fuel initialIState prog

/-- The instrumented interpreter projects onto the plain one (first
conjunct of each component) and its stdout text is exactly the rendering
of its print events (second conjunct), for every function of the mutual
family at fuel f. -/
def HOAll (numF : F64 → String) (f : Nat) : Prop :=
  (∀ s e, (evaluateHO numF f s e).1 = evaluateH f s e ∧
      (evaluateHO numF f s e).2.1 = renderEvents numF (evaluateHO numF f s e).2.2) ∧
  (∀ s es, (evaluateArgsHO numF f s es).1 = evaluateArgsH f s es ∧
      (evaluateArgsHO numF f s es).2.1 = renderEvents numF (evaluateArgsHO numF f s es).2.2) ∧
  (∀ s fv args, (callHO numF f s fv args).1 = callH f s fv args ∧
      (callHO numF f s fv args).2.1 = renderEvents numF (callHO numF f s fv args).2.2) ∧
  (∀ s st, (executeHO numF f s st).1 = executeH f s st ∧
      (executeHO numF f s st).2.1 = renderEvents numF (executeHO numF f s st).2.2) ∧
  (∀ s newEnv stmts, (executeBlockHO numF f s newEnv stmts).1 = executeBlockH f s newEnv stmts ∧
      (executeBlockHO numF f s newEnv stmts).2.1 =
        renderEvents numF (executeBlockHO numF f s newEnv stmts).2.2) ∧
  (∀ s l, (executeStmtsHO numF f s l).1 = executeStmtsH f s l ∧
      (executeStmtsHO numF f s l).2.1 = renderEvents numF (executeStmtsHO numF f s l).2.2)

/-! ## Static contexts and well-formedness of resolved programs.

A context is the shape of the resolver's scope stack, innermost first,
with the defined flags.  WfExpr / WfStmt state exactly the facts the
resolver establishes about the depth annotations of a program it accepted
without errors, in the code regions that can ever execute: depths equal
the innermost-scope scan, the binding found is defined, and no Super
expression occurs (the resolver rejects super outside subclass methods,
and methods of classes with a superclass — the only home of super — are
unreachable at runtime because find_method consults only the root class).
-/

abbrev Ctx := List (List (String × Bool))

/-- The first scope (innermost outward) containing the name must carry
defined = true; no local hit means a global reference, which never uses
get_at. -/
def FoundTrue (n : String) : Ctx → Prop
  | [] => True
  | scope :: rest =>
      match alistGet scope n with
      | some b => b = true
      | none => FoundTrue n rest

/-- Net effect of declare-then-define on the context (no-op at global
scope, where the resolver tracks nothing). -/
def ctxDefine (Γ : Ctx) (n : String) : Ctx :=
  match Γ with
  | [] => []
  | scope :: rest => alistInsert scope n true :: rest

/-- The context in force while a Var initializer is resolved: the name is
declared (present, defined = false) in the innermost scope. -/
def declCtx (Γ : Ctx) (n : String) : Ctx :=
  match Γ with
  | [] => []
  | scope :: rest => ((n, false) :: scope) :: rest

/-- Net effect of declare+define for each parameter on a fresh scope. -/
def bindParams (scope : List (String × Bool)) : List Token → List (String × Bool)
  | [] => scope
  | p :: rest => bindParams (alistInsert scope p.lexeme true) rest

/-- Context change a statement leaves behind in the resolver's scopes.
If or while branches that are themselves declarations (which the parser
cannot produce, but the AST can express) mutate the enclosing scope
persistently, so the branches are traversed. -/
def postCtx : Ctx → Stmt → Ctx
  | Γ, .Var n _ => ctxDefine Γ n.lexeme
  | Γ, .Function fn => ctxDefine Γ fn.name.lexeme
  | Γ, .Class n _ _ => ctxDefine Γ n.lexeme
  | Γ, .IfStmt _ t none => postCtx Γ t
  | Γ, .IfStmt _ t (some e) => postCtx (postCtx Γ t) e
  | Γ, .WhileStmt _ b => postCtx Γ b
  | Γ, _ => Γ

/-- The scope synthesized for this by resolve_methods. -/
def thisScope : List (String × Bool) := [("this", true)]

abbrev rld := Resolver.resolve_local_depth_aux

inductive WfExpr : Ctx → Expr → Prop where
  | litral {Γ l} : WfExpr Γ (.Litral l)
  | variableE {Γ n depth} :
      depth = rld n.lexeme Γ → FoundTrue n.lexeme Γ →
      WfExpr Γ (.Variable n depth)
  | thisE {Γ k depth} :
      k.lexeme = "this" → depth = rld "this" Γ → FoundTrue "this" Γ →
      WfExpr Γ (.This k depth)
  | assignE {Γ n depth v} :
      depth = rld n.lexeme Γ → WfExpr Γ v →
      WfExpr Γ (.Assign n depth v)
  | unaryE {Γ op r} : WfExpr Γ r → WfExpr Γ (.Unary op r)
  | binaryE {Γ l op r} : WfExpr Γ l → WfExpr Γ r → WfExpr Γ (.Binary l op r)
  | logicalE {Γ l op r} : WfExpr Γ l → WfExpr Γ r → WfExpr Γ (.Logical l op r)
  | groupingE {Γ e} : WfExpr Γ e → WfExpr Γ (.Grouping e)
  | callE {Γ c p args} :
      WfExpr Γ c → (∀ a ∈ args, WfExpr Γ a) →
      WfExpr Γ (.Call c p args)
  | getE {Γ o n} : WfExpr Γ o → WfExpr Γ (.Get o n)
  | setE {Γ o n v} : WfExpr Γ o → WfExpr Γ v → WfExpr Γ (.Set o n v)

mutual

inductive WfStmt : Ctx → Stmt → Prop where
  | var_none {Γ n} : WfStmt Γ (.Var n none)
  | var_some {Γ n e} :
      WfExpr (declCtx Γ n.lexeme) e → WfStmt Γ (.Var n (some e))
  | exprS {Γ e} : WfExpr Γ e → WfStmt Γ (.ExpressionStmt e)
  | printS {Γ e} : WfExpr Γ e → WfStmt Γ (.PrintStmt e)
  | if_none {Γ c t} :
      WfExpr Γ c → WfStmt Γ t → postCtx Γ t = Γ → WfStmt Γ (.IfStmt c t none)
  | if_some {Γ c t e} :
      WfExpr Γ c → WfStmt Γ t → WfStmt Γ e → postCtx Γ t = Γ → postCtx Γ e = Γ →
      WfStmt Γ (.IfStmt c t (some e))
  | whileS {Γ c b} :
      WfExpr Γ c → WfStmt Γ b → postCtx Γ b = Γ → WfStmt Γ (.WhileStmt c b)
  | return_none {Γ k} : WfStmt Γ (.Return k none)
  | return_some {Γ k v} : WfExpr Γ v → WfStmt Γ (.Return k (some v))
  | blockS {Γ ss} : WfStmts ([] :: Γ) ss → WfStmt Γ (.Block ss)
  | functionS {Γ nm ps body} :
      WfStmts (bindParams [] ps :: ctxDefine Γ nm.lexeme) body →
      WfStmt Γ (.Function (.mk nm ps body))
  | class_root {Γ name methods} :
      (∀ m ∈ methods,
        WfStmts (bindParams [] m.params :: thisScope :: ctxDefine Γ name.lexeme)
          m.body) →
      WfStmt Γ (.Class name none methods)
  | class_sub {Γ name scTok d methods} :
      scTok.lexeme ≠ name.lexeme →
      d = rld scTok.lexeme (ctxDefine Γ name.lexeme) →
      FoundTrue scTok.lexeme (ctxDefine Γ name.lexeme) →
      WfStmt Γ (.Class name (some (.Variable scTok d)) methods)

inductive WfStmts : Ctx → List Stmt → Prop where
  | nil {Γ} : WfStmts Γ []
  | cons {Γ s l} : WfStmt Γ s → WfStmts (postCtx Γ s) l → WfStmts Γ (s :: l)

end

/-! Parser-shaped statements.  The statement soundness theorem is about
programs the parser can produce, and three of its grammar guarantees
matter for depth soundness: the superclass clause of a class declaration
is always a bare Variable (Parser::class_declaration), declarations (var,
fun, class) cannot appear as the direct branch of an if or the direct body
of a while (Parser::statement does not dispatch to the declaration rules,
so the resolver's persistent scope effects of a branch can never be
skipped at runtime), and every declared name is an IDENTIFIER token, whose
lexeme is never the keyword "this" (the scanner maps "this" to the THIS
token).  PSb is the branch position (statement rule), PS the declaration
position. -/

/-- Parser-shaped expressions: the keyword token of a this expression is
always the scanned THIS token, whose lexeme is the word this (the scanner
maps that word to the keyword, so no IDENTIFIER ever carries it). -/
inductive PSE : Expr → Prop where
  | litral {l} : PSE (.Litral l)
  | variableE {n d} : PSE (.Variable n d)
  | thisE {k d} : k.lexeme = "this" → PSE (.This k d)
  | superE {k m d} : PSE (.Super k m d)
  | assignE {n d v} : PSE v → PSE (.Assign n d v)
  | unaryE {op r} : PSE r → PSE (.Unary op r)
  | binaryE {l op r} : PSE l → PSE r → PSE (.Binary l op r)
  | logicalE {l op r} : PSE l → PSE r → PSE (.Logical l op r)
  | groupingE {e} : PSE e → PSE (.Grouping e)
  | callE {c p args} : PSE c → (∀ a ∈ args, PSE a) → PSE (.Call c p args)
  | getE {o n} : PSE o → PSE (.Get o n)
  | setE {o n v} : PSE o → PSE v → PSE (.Set o n v)

mutual

inductive PSb : Stmt → Prop where
  | exprS {e} : PSE e → PSb (.ExpressionStmt e)
  | printS {e} : PSE e → PSb (.PrintStmt e)
  | return_none {k} : PSb (.Return k none)
  | return_some {k v} : PSE v → PSb (.Return k (some v))
  | if_none {c t} : PSE c → PSb t → PSb (.IfStmt c t none)
  | if_some {c t e} : PSE c → PSb t → PSb e → PSb (.IfStmt c t (some e))
  | whileS {c b} : PSE c → PSb b → PSb (.WhileStmt c b)
  | blockS {ss} : PSList ss → PSb (.Block ss)

inductive PS : Stmt → Prop where
  | ofBranch {s} : PSb s → PS s
  | var_none {n} : n.lexeme ≠ "this" → PS (.Var n none)
  | var_some {n e} : n.lexeme ≠ "this" → PSE e → PS (.Var n (some e))
  | functionS {nm ps body} : PSList body → PS (.Function (.mk nm ps body))
  | class_none {name methods} :
      (∀ m ∈ methods, PSList m.body) →
      PS (.Class name none methods)
  | class_var {name scTok d methods} :
      (∀ m ∈ methods, PSList m.body) →
      PS (.Class name (some (.Variable scTok d)) methods)

inductive PSList : List Stmt → Prop where
  | nil : PSList []
  | cons {s l} : PS s → PSList l → PSList (s :: l)

end

/-! ## Runtime invariants for the heap interpreter. -/

/-- Every name the static scope marks defined is bound in the frame. -/
def scopeDom (scope : List (String × Bool)) (vals : List (String × HVal)) : Prop :=
  ∀ n, alistGet scope n = some true → (alistGet vals n).isSome

/-- The runtime chain from the given environment realizes the static
context frame by frame; deeper frames (globals and whatever lies below the
outermost scope) are unconstrained. -/
def Corresponds (h : Heap) : EnvId → Ctx → Prop
  | _, [] => True
  | e, scope :: rest =>
      ∃ fr, h.frame e = some fr ∧ scopeDom scope fr.values ∧
        ∃ enc, fr.enclosing = some enc ∧ Corresponds h enc rest

/-- Well-formedness of a single runtime value.  A function value carries a
closure that realizes some context in which its body is well formed; an
initializer's closure additionally binds this directly (bind always
creates it so).  This predicate does not recurse through stored values:
the store invariant quantifies over them separately. -/
def ValWF (h : Heap) : HVal → Prop
  | .hFun fn env isInit =>
      (∃ Γc, Corresponds h env Γc ∧
        WfStmts (bindParams [] fn.params :: Γc) fn.body) ∧
      (isInit = true →
        ∃ fr, h.frame env = some fr ∧ (alistGet fr.values "this").isSome)
  | .hClass c => c < h.classes.length
  | .hInstance i => i < h.instances.length
  | _ => True

/-- A method table entry of a root class: its closure realizes the class
declaration context and its body is well formed in the method context
(params, then the synthesized this scope, then the declaration context). -/
def MethodWF (h : Heap) (fn : Fun) (env : EnvId) : Prop :=
  ∃ Γd, Corresponds h env Γd ∧
    WfStmts (bindParams [] fn.params :: thisScope :: Γd) fn.body

/-- Class objects: superclass indices are valid and smaller than the
class's own index (chains are acyclic and rooted); every method of a
class without a superclass is well formed.  Methods of classes with a
superclass are unconstrained: find_method never returns them, and their
closures were severed by take_enclosing. -/
def ClassWF (h : Heap) (idx : ClassId) (c : ClassObj) : Prop :=
  (∀ sc, c.super_class = some sc → sc < idx) ∧
  (c.super_class = none →
    ∀ mn fn env isInit, (mn, (fn, env, isInit)) ∈ c.methods → MethodWF h fn env)

/-- The store invariant. -/
def StoreWF (h : Heap) : Prop :=
  (∀ i fr, h.frame i = some fr →
    ∀ n v, (n, v) ∈ fr.values → ValWF h v) ∧
  (∀ i c, h.classObj i = some c →
    c.super_class.all (fun sc => decide (sc < h.classes.length)) = true ∧
    ClassWF h i c) ∧
  (∀ i io, h.instObj i = some io →
    io.kclass < h.classes.length ∧
    ∀ n v, (n, v) ∈ io.fields → ValWF h v)

/-- Monotone heap extension: frames persist with only their value domains
growing and their enclosing links unchanged; classes are append-only;
instances persist (their fields may change). -/
def HeapExtends (h h' : Heap) : Prop :=
  (∀ i fr, h.frame i = some fr →
    ∃ fr', h'.frame i = some fr' ∧ fr'.enclosing = fr.enclosing ∧
      ∀ n, (alistGet fr.values n).isSome → (alistGet fr'.values n).isSome) ∧
  (∀ i, i < h.classes.length → h'.classObj i = h.classObj i) ∧
  h.classes.length ≤ h'.classes.length ∧
  h.instances.length ≤ h'.instances.length

/-- The bundle carried through execution. -/
def GoodState (s : IState) (Γ : Ctx) : Prop :=
  StoreWF s.heap ∧ s.globals = 0 ∧ Corresponds s.heap s.environment Γ

/-- Accumulated context change of a statement list. -/
def postCtxs : Ctx → List Stmt → Ctx
  | Γ, [] => Γ
  | Γ, s :: l => postCtxs (postCtx Γ s) l

/-- Every entry of every scope is marked defined — the resolver's state at
every statement boundary (the only declared-but-undefined window is a Var
initializer, which closes before the statement ends). -/
def AllTrue (Γ : Ctx) : Prop :=
  ∀ sc ∈ Γ, ∀ p ∈ sc, (p : String × Bool).2 = true

/-! Bookkeeping facts about a resolver run, used to chain the
per-construct analyses: error counts are monotone; the class-scope stack,
current function and current class are restored; scopes are modified only
in the innermost frame apart from balanced push/pops; and — whenever no
error was reported — the scope stack ends up exactly postCtx of the
returned statement. -/

def RFieldsEq (st' st : RState) : Prop :=
  st'.class_scopes = st.class_scopes ∧
  st'.current_function = st.current_function ∧
  st'.current_class = st.current_class

def ScTailLen (st' st : RState) : Prop :=
  st'.scopes.tail = st.scopes.tail ∧ st'.scopes.length = st.scopes.length

def PExpr (f : Nat) : Prop :=
  ∀ st e, ∃ k, (Resolver.resolve_expr f st e).2 =
    { st with num_of_resolver_errs := st.num_of_resolver_errs + k }

def PExprs (f : Nat) : Prop :=
  ∀ st es, ∃ k, (Resolver.resolve_exprs f st es).2 =
    { st with num_of_resolver_errs := st.num_of_resolver_errs + k }

def PStmt (f : Nat) : Prop :=
  ∀ st s,
    st.num_of_resolver_errs ≤
      (Resolver.resolve_stmt f st s).2.num_of_resolver_errs ∧
    RFieldsEq (Resolver.resolve_stmt f st s).2 st ∧
    ScTailLen (Resolver.resolve_stmt f st s).2 st ∧
    ((Resolver.resolve_stmt f st s).2.num_of_resolver_errs =
        st.num_of_resolver_errs →
      (Resolver.resolve_stmt f st s).2.scopes =
        postCtx st.scopes (Resolver.resolve_stmt f st s).1)

def PStmts (f : Nat) : Prop :=
  ∀ st l,
    st.num_of_resolver_errs ≤
      (Resolver.resolve_stmts f st l).2.num_of_resolver_errs ∧
    RFieldsEq (Resolver.resolve_stmts f st l).2 st ∧
    ScTailLen (Resolver.resolve_stmts f st l).2 st ∧
    ((Resolver.resolve_stmts f st l).2.num_of_resolver_errs =
        st.num_of_resolver_errs →
      (Resolver.resolve_stmts f st l).2.scopes =
        postCtxs st.scopes (Resolver.resolve_stmts f st l).1)

def PFun (f : Nat) : Prop :=
  ∀ st fn ft,
    (∃ k, (Resolver.resolve_function f st fn ft).2 =
      { st with num_of_resolver_errs := st.num_of_resolver_errs + k }) ∧
    ∃ body', (Resolver.resolve_function f st fn ft).1 =
      .mk fn.name fn.params body'

def PMethods (f : Nat) : Prop :=
  ∀ st sc ms, ∃ k cs2,
    (Resolver.resolve_methods f st sc ms).2.2 =
      { st with num_of_resolver_errs := st.num_of_resolver_errs + k,
                class_scopes := cs2 } ∧
    cs2.tail = st.class_scopes.tail

def PMList (f : Nat) : Prop :=
  ∀ st ms, ∃ k cs2,
    (Resolver.resolve_method_list f st ms).2 =
      { st with num_of_resolver_errs := st.num_of_resolver_errs + k,
                class_scopes := cs2 } ∧
    cs2.tail = st.class_scopes.tail

def PAll (f : Nat) : Prop :=
  PExpr f ∧ PExprs f ∧ PStmt f ∧ PStmts f ∧ PFun f ∧ PMethods f ∧ PMList f

/-! Soundness properties of the resolver: a run that reports no error
produces well-formed output (in the sense of WfExpr / WfStmt) on
parser-shaped input.  Each property quantifies over the resolver state,
carrying the invariants that hold at the corresponding call sites. -/

def AExpr (f : Nat) : Prop :=
  ∀ st e, st.current_class ≠ some ClassType.SubClass →
    AllTrue st.scopes.tail → FoundTrue "this" st.scopes → PSE e →
    (Resolver.resolve_expr f st e).2.num_of_resolver_errs =
      st.num_of_resolver_errs →
    WfExpr st.scopes (Resolver.resolve_expr f st e).1

def AExprs (f : Nat) : Prop :=
  ∀ st es, st.current_class ≠ some ClassType.SubClass →
    AllTrue st.scopes.tail → FoundTrue "this" st.scopes →
    (∀ a ∈ es, PSE a) →
    (Resolver.resolve_exprs f st es).2.num_of_resolver_errs =
      st.num_of_resolver_errs →
    ∀ a ∈ (Resolver.resolve_exprs f st es).1, WfExpr st.scopes a

def AStmt (f : Nat) : Prop :=
  ∀ st s, st.current_class ≠ some ClassType.SubClass →
    AllTrue st.scopes → PS s →
    (Resolver.resolve_stmt f st s).2.num_of_resolver_errs =
      st.num_of_resolver_errs →
    WfStmt st.scopes (Resolver.resolve_stmt f st s).1

def AStmts (f : Nat) : Prop :=
  ∀ st l, st.current_class ≠ some ClassType.SubClass →
    AllTrue st.scopes → PSList l →
    (Resolver.resolve_stmts f st l).2.num_of_resolver_errs =
      st.num_of_resolver_errs →
    WfStmts st.scopes (Resolver.resolve_stmts f st l).1

def AFun (f : Nat) : Prop :=
  ∀ st fn ft, st.current_class ≠ some ClassType.SubClass →
    AllTrue st.scopes → PSList fn.body →
    (Resolver.resolve_function f st fn ft).2.num_of_resolver_errs =
      st.num_of_resolver_errs →
    ∃ body1, (Resolver.resolve_function f st fn ft).1 =
        .mk fn.name fn.params body1 ∧
      WfStmts (bindParams [] fn.params :: st.scopes) body1

def AMList (f : Nat) : Prop :=
  ∀ st ms, st.current_class ≠ some ClassType.SubClass →
    AllTrue st.scopes → (∀ m ∈ ms, PSList m.body) →
    (Resolver.resolve_method_list f st ms).2.num_of_resolver_errs =
      st.num_of_resolver_errs →
    ∀ m2 ∈ (Resolver.resolve_method_list f st ms).1,
      WfStmts (bindParams [] m2.params :: st.scopes) m2.body

def AMethodsNone (f : Nat) : Prop :=
  ∀ st ms, AllTrue st.scopes → (∀ m ∈ ms, PSList m.body) →
    (Resolver.resolve_methods f st none ms).2.2.num_of_resolver_errs =
      st.num_of_resolver_errs →
    (Resolver.resolve_methods f st none ms).1 = none ∧
    ∀ m2 ∈ (Resolver.resolve_methods f st none ms).2.1,
      WfStmts (bindParams [] m2.params :: thisScope :: st.scopes) m2.body

def AMethodsVar (f : Nat) : Prop :=
  ∀ st sctok d ms, AllTrue st.scopes →
    ((Resolver.resolve_methods f st
        (some (.Variable sctok d)) ms).2.2).num_of_resolver_errs =
      st.num_of_resolver_errs →
    (Resolver.resolve_methods f st (some (.Variable sctok d)) ms).1 =
      some (.Variable sctok (rld sctok.lexeme st.scopes)) ∧
    FoundTrue sctok.lexeme st.scopes

def AAll (f : Nat) : Prop :=
  AExpr f ∧ AExprs f ∧ AStmt f ∧ AStmts f ∧ AFun f ∧ AMList f ∧
  AMethodsNone f ∧ AMethodsVar f

/-- The resolver preserves parser shape: it rewrites depth annotations but
keeps every constructor, token and list skeleton, so its output satisfies
the same PSE / PS / PSb / PSList predicates as its input. -/
def ShapeAll (f : Nat) : Prop :=
  (∀ st e, PSE e → PSE (Resolver.resolve_expr f st e).1) ∧
  (∀ st es, (∀ a ∈ es, PSE a) →
    ∀ a ∈ (Resolver.resolve_exprs f st es).1, PSE a) ∧
  (∀ st s, PSb s → PSb (Resolver.resolve_stmt f st s).1) ∧
  (∀ st s, PS s → PS (Resolver.resolve_stmt f st s).1) ∧
  (∀ st l, PSList l → PSList (Resolver.resolve_stmts f st l).1) ∧
  (∀ st fn ft, PSList fn.body →
    PSList ((Resolver.resolve_function f st fn ft).1).body) ∧
  (∀ st ms, (∀ m ∈ ms, PSList m.body) →
    ∀ m1 ∈ (Resolver.resolve_method_list f st ms).1, PSList m1.body) ∧
  (∀ st sc ms, (∀ m ∈ ms, PSList m.body) →
    ∀ m1 ∈ (Resolver.resolve_methods f st sc ms).2.1, PSList m1.body)

/-! ## Result conditions for the heap interpreter soundness proof. -/

/-- Facts every interpreter call preserves: the store invariant, the
globals id, the caller's environment id, and monotone heap growth. -/
def OkBase (s s2 : IState) : Prop :=
  StoreWF s2.heap ∧ s2.globals = s.globals ∧ s2.environment = s.environment ∧
  HeapExtends s.heap s2.heap

/-- An error value carrying an early return carries a well-formed value
(callH resumes execution with it). -/
def RetWF (s2 : IState) (e : HInterpErr) : Prop :=
  ∀ rv, e = .earlyReturn rv → ValWF s2.heap rv

def ECond (s : IState) : HRes HVal → Prop
  | .ok v s2 => ValWF s2.heap v ∧ OkBase s s2
  | .err e s2 => OkBase s s2 ∧ RetWF s2 e
  | .panicEnv => False
  | .panicOther => True
  | .timeout => True

def ACond (es : List Expr) (s : IState) : HRes (List HVal) → Prop
  | .ok vs s2 => (∀ v ∈ vs, ValWF s2.heap v) ∧ vs.length = es.length ∧
      OkBase s s2
  | .err e s2 => OkBase s s2 ∧ RetWF s2 e
  | .panicEnv => False
  | .panicOther => True
  | .timeout => True

def UCond (s : IState) : HRes Unit → Prop
  | .ok _ s2 => OkBase s s2
  | .err e s2 => OkBase s s2 ∧ RetWF s2 e
  | .panicEnv => False
  | .panicOther => True
  | .timeout => True

/-- Statement condition: on success the final environment additionally
realizes the given (post) context. -/
def SCond (Γ2 : Ctx) (s : IState) : HRes Unit → Prop
  | .ok _ s2 => OkBase s s2 ∧ Corresponds s2.heap s2.environment Γ2
  | .err e s2 => OkBase s s2 ∧ RetWF s2 e
  | .panicEnv => False
  | .panicOther => True
  | .timeout => True

/-- The combined soundness property of the seven interpreter functions at
one fuel value. -/
def RunAll (f : Nat) : Prop :=
  (∀ s e Γ, GoodState s Γ → WfExpr Γ e → ECond s (evaluateH f s e)) ∧
  (∀ s es Γ, GoodState s Γ → (∀ a ∈ es, WfExpr Γ a) →
    ACond es s (evaluateArgsH f s es)) ∧
  (∀ s fv args, StoreWF s.heap → s.globals = 0 → ValWF s.heap fv →
    (∀ v ∈ args, ValWF s.heap v) → arityH s.heap fv = args.length →
    ECond s (callH f s fv args)) ∧
  (∀ s st Γ, GoodState s Γ → WfStmt Γ st →
    SCond (postCtx Γ st) s (executeH f s st)) ∧
  (∀ s l Γ, GoodState s Γ → WfStmts Γ l →
    SCond (postCtxs Γ l) s (executeStmtsH f s l)) ∧
  (∀ s newEnv l Γb, StoreWF s.heap → s.globals = 0 →
    Corresponds s.heap newEnv Γb → WfStmts Γb l →
    UCond s (executeBlockH f s newEnv l)) ∧
  (∀ s name scOpt methods Γ, GoodState s Γ →
    (scOpt = none → ∀ m ∈ methods,
      WfStmts (bindParams [] m.params :: thisScope :: ctxDefine Γ name.lexeme)
        m.body) →
    (∀ cid, scOpt = some cid → cid < s.heap.classes.length) →
    SCond (ctxDefine Γ name.lexeme) s (classBodyH f s name scOpt methods))

/-! ## Concrete examples used by the theorems below. -/

/-- A root class with a method "say" (function identity 0). -/
def exA : LoxClassDefinition := .root "A" [("say", 0)]

/-- A subclass of exA overriding "say" (identity 1) and defining its own
method "own" (identity 2). -/
def exB : LoxClassDefinition := .sub "B" exA [("say", 1), ("own", 2)]

def tokIdent (s : String) : Token := ⟨.IDENTIFIER, s, 1⟩

/-- { var x = 1; print x; } — a concrete parser-shaped program for the
depth-soundness theorem. -/
def C3exProg : List Stmt :=
  [.Block [.Var (tokIdent "x") (some (.Litral (.NUMBER 1))),
           .PrintStmt (.Variable (tokIdent "x") none)]]

def tokOr : Token := ⟨.OR, "or", 1⟩

def tokAnd : Token := ⟨.AND, "and", 1⟩

def tokSemi : Token := ⟨.SEMICOLON, ";", 1⟩

def tokEOF : Token := ⟨.EOF, "", 1⟩

/-- Grapheme vector of the source text: a double quote followed by the
letters a and b, with no closing quote before end of input. -/
def unterminatedSrc : List String := ["\"", "a", "b"]

/-! ## Supporting lemmas -/

theorem alistGet_insert_self {V : Type} (l : List (String × V)) (k : String) (v : V) :
    alistGet (alistInsert l k v) k = some v := by
  simp [alistInsert, alistGet]

theorem hops_eq_env_at_depth (n : Nat) (e : Environment) :
    Environment.ancestor.hops e n = e.env_at_depth n := by
  cases n <;> cases e <;> rfl

theorem env_at_depth_child (vals : List (String × RuntimeValue))
    (enc : Environment) (n : Nat) :
    Environment.env_at_depth (.child vals enc) (n + 1) = enc.env_at_depth n := by
  have h1 : Environment.env_at_depth (.child vals enc) (n + 1) =
      Environment.ancestor.hops enc n := rfl
  rw [h1, hops_eq_env_at_depth]

theorem get_at_child (vals : List (String × RuntimeValue)) (enc : Environment)
    (name : String) (n : Nat) :
    Environment.get_at (.child vals enc) name (n + 1) = enc.get_at name n := by
  simp [Environment.get_at, env_at_depth_child]

theorem mutAt_get_at (d : Nat) :
    ∀ (e : Environment) (name : String) (v : RuntimeValue),
      d < e.chainLength →
      ∃ e2, Environment.env_mut_at_depth e d (fun env => env.define name v) = some e2 ∧
        e2.get_at name d = some v := by
  induction d with
  | zero =>
      intro e name v _h
      refine ⟨e.define name v, by simp [Environment.env_mut_at_depth], ?_⟩
      cases e <;>
        simp [Environment.get_at, Environment.env_at_depth, Environment.define,
          Environment.values, alistGet_insert_self]
  | succ n ih =>
      intro e name v h
      cases e with
      | global vals =>
          exfalso
          simp [Environment.chainLength] at h
      | child vals enc =>
          obtain ⟨e2, h1, h2⟩ := ih enc name v (by
            simp [Environment.chainLength] at h
            omega)
          refine ⟨.child vals e2, ?_, ?_⟩
          · simp [Environment.env_mut_at_depth, h1]
          · rw [get_at_child]
            exact h2

/-! ## Theorems settling the claims -/

/-- C1 is false on the code: for exB = class B < A, where B overrides
"say" (identity 1, A's copy has identity 0) and defines its own method
"own" (identity 2), find_method returns A's "say" and misses "own"
entirely, and ClassInstance::get on a fieldless instance of B behaves
accordingly — the subclass's own method table is not searched first. -/
theorem C1_counterexample :
    LoxClassDefinition.find_method exB "say" = some 0 ∧
    LoxClassDefinition.find_method exB "own" = none ∧
    ClassInstance.get ⟨exB, []⟩ "say" = some (.boundMethod 0) ∧
    ClassInstance.get ⟨exB, []⟩ "own" = none ∧
    alistGet (LoxClassDefinition.methods exB) "say" = some 1 ∧
    alistGet (LoxClassDefinition.methods exB) "own" = some 2 := by
  decide

/-- C1 (amended): method lookup consults only the method table of the
topmost class of the superclass chain: LoxClassDefinition::find_method on
any class equals a direct lookup in the root ancestor's table (so methods
defined on a class that has a superclass, overrides included, are never
returned), and ClassInstance::get falls back to exactly that root-table
lookup when the field map misses. -/
theorem C1_amended_root_only_lookup :
    ∀ (c : LoxClassDefinition) (m : String),
      c.find_method m = alistGet (LoxClassDefinition.rootOf c).methods m ∧
      ∀ (fields : List (String × RuntimeValue)),
        alistGet fields m = none →
        ClassInstance.get ⟨c, fields⟩ m =
          (alistGet (LoxClassDefinition.rootOf c).methods m).map PropValue.boundMethod := by
  intro c m
  induction c with
  | root n ms =>
      refine ⟨rfl, ?_⟩
      intro fields h
      simp [ClassInstance.get, h, LoxClassDefinition.find_method,
        LoxClassDefinition.rootOf, LoxClassDefinition.methods]
  | sub n sc ms ih =>
      refine ⟨?_, ?_⟩
      · simpa [LoxClassDefinition.find_method, LoxClassDefinition.rootOf] using ih.1
      · intro fields h
        simp [ClassInstance.get, h, LoxClassDefinition.find_method,
          LoxClassDefinition.rootOf, ih.1]

theorem C1_amended_witness :
    LoxClassDefinition.find_method exB "say" =
      alistGet (LoxClassDefinition.rootOf exB).methods "say" ∧
    ClassInstance.get ⟨exB, []⟩ "say" =
      (alistGet (LoxClassDefinition.rootOf exB).methods "say").map PropValue.boundMethod :=
  ⟨(C1_amended_root_only_lookup exB "say").1,
   (C1_amended_root_only_lookup exB "say").2 [] rfl⟩

/-- C2: a LoxFunction call with is_initializer = true returns the value
bound to "this" at depth 0 of its closure, both when the body completes
normally and when it raises a return signal (which the Resolver has
already constrained to carry no value, i.e. Nil); and the Resolver reports
an error for a value-carrying return inside an initializer, so such a
return never reaches the interpreter. -/
theorem C2_initializer_returns_this :
    (∀ (closure : Environment) (inst : RuntimeValue) (result : BodyResult),
      closure.get_at "this" 0 = some inst →
      (result = BodyResult.ok ∨ ∃ line, result = .err (.earlyReturn line .Nil)) →
      LoxFunction.call true closure result = .ok inst) ∧
    0 < resolverReturnErrs (some .Initializer) true := by
  refine ⟨?_, by decide⟩
  rintro closure inst result hthis (rfl | ⟨line, rfl⟩) <;>
    simp [LoxFunction.call, hthis, InterpErr.early_return_reason, RuntimeValue.eqRV]

theorem C2_witness :
    LoxFunction.call true (.global [("this", .Instance 7)]) .ok = .ok (.Instance 7) ∧
    LoxFunction.call true (.global [("this", .Instance 7)])
      (.err (.earlyReturn 3 .Nil)) = .ok (.Instance 7) ∧
    0 < resolverReturnErrs (some .Initializer) true :=
  ⟨C2_initializer_returns_this.1 _ _ _ (by decide) (Or.inl rfl),
   C2_initializer_returns_this.1 _ _ _ (by decide) (Or.inr ⟨3, rfl⟩),
   C2_initializer_returns_this.2⟩

/-- C4 is false on the code: with 'prog file' (argc = 2) and no I/O error,
the exit code is 0 even when the run produced a runtime error, parse
errors, or resolver errors — run_file discards the pipeline outcome. -/
theorem C4_counterexample :
    mainExit 2 false ⟨0, 0, true⟩ false = 0 ∧
    mainExit 2 false ⟨5, 0, false⟩ false = 0 ∧
    mainExit 2 false ⟨0, 3, false⟩ false = 0 := by
  decide

/-- C4 (amended): for 'prog file' the exit code depends only on I/O
success: it is 0 exactly when the file was opened and read, whatever the
parse / resolver / runtime outcome; more than one argument exits with
failure. -/
theorem C4_amended_exit_codes :
    ∀ (io : Bool) (p q : PipelineOutcome) (r : Bool),
      mainExit 2 io p r = mainExit 2 io q r ∧
      (mainExit 2 io p r = ExitSuccess ↔ io = false) ∧
      (∀ argc, argc > 2 → mainExit argc io p r = ExitFailure) := by
  intro io p q r
  refine ⟨?_, ?_, ?_⟩
  · cases io <;> rfl
  · cases io <;> simp [mainExit, run_file, run, ExitSuccess, ExitFailure]
  · intro argc h
    unfold mainExit
    rw [if_pos h]

theorem C4_amended_witness :
    mainExit 3 false ⟨1, 2, true⟩ true = ExitFailure :=
  (C4_amended_exit_codes false ⟨1, 2, true⟩ ⟨0, 0, false⟩ true).2.2 3 (by decide)

/-- C6 is false on the code: '==' on a Callable (resp. Instance) value and
itself — the same underlying object — evaluates to false, and '!=' to
true, because PartialEq for RuntimeValue has no identity arm and the
catch-all returns false. -/
theorem C6_counterexample :
    evalBinaryOp .EQUAL_EQUAL (.Callable 0) (.Callable 0) = .ok (.Boolean false) ∧
    evalBinaryOp .EQUAL_EQUAL (.Instance 4) (.Instance 4) = .ok (.Boolean false) ∧
    evalBinaryOp .BANG_EQUAL (.Callable 0) (.Callable 0) = .ok (.Boolean true) :=
  ⟨rfl, rfl, rfl⟩

/-- C6 (amended): '==' on operands of which either is a Callable or an
Instance always yields false (identity comparison is not implemented), so
v == v is false for every callable or instance v; '!=' is the negation of
'==' on all values. -/
theorem C6_amended_never_equal :
    (∀ l r : RuntimeValue,
      ((∃ i, l = .Callable i) ∨ (∃ i, l = .Instance i) ∨
       (∃ i, r = .Callable i) ∨ (∃ i, r = .Instance i)) →
      evalBinaryOp .EQUAL_EQUAL l r = .ok (.Boolean false) ∧
      evalBinaryOp .BANG_EQUAL l r = .ok (.Boolean true)) ∧
    (∀ l r : RuntimeValue,
      evalBinaryOp .BANG_EQUAL l r = .ok (.Boolean (!(RuntimeValue.eqRV l r)))) := by
  constructor
  · intro l r h
    rcases h with ⟨i, rfl⟩ | ⟨i, rfl⟩ | ⟨i, rfl⟩ | ⟨i, rfl⟩
    · cases r <;> simp [evalBinaryOp, RuntimeValue.eqRV, RuntimeValue.notOp]
    · cases r <;> simp [evalBinaryOp, RuntimeValue.eqRV, RuntimeValue.notOp]
    · cases l <;> simp [evalBinaryOp, RuntimeValue.eqRV, RuntimeValue.notOp]
    · cases l <;> simp [evalBinaryOp, RuntimeValue.eqRV, RuntimeValue.notOp]
  · intro l r
    cases l <;> cases r <;>
      simp [evalBinaryOp, RuntimeValue.eqRV, RuntimeValue.notOp]

theorem C6_amended_witness :
    evalBinaryOp .EQUAL_EQUAL (.Instance 2) (.Instance 2) = .ok (.Boolean false) ∧
    evalBinaryOp .BANG_EQUAL (.Instance 2) (.Instance 2) = .ok (.Boolean true) :=
  C6_amended_never_equal.1 (.Instance 2) (.Instance 2) (Or.inr (Or.inl ⟨2, rfl⟩))

/-- C7 is false on the code: comparison operators never produce a runtime
error — strings and booleans compare by their own order, and mismatched
types (Nil against a Number here) quietly compare false. -/
theorem C7_counterexample :
    evalBinaryOp .LESS (.Str "a") (.Str "b") = .ok (.Boolean true) ∧
    evalBinaryOp .GREATER (.Boolean true) (.Boolean false) = .ok (.Boolean true) ∧
    evalBinaryOp .LESS .Nil (.Number 1) = .ok (.Boolean false) := by
  refine ⟨?_, rfl, rfl⟩
  simp [evalBinaryOp, RuntimeValue.ltRV]
  decide

/-- C7 (amended): when both operands are Numbers the comparison operators
return the Boolean of the numeric comparison; on every other operand pair
they still return Ok of some Boolean (same-typed strings and booleans by
their order, mixed types false) — never a runtime error. -/
theorem C7_amended_comparisons_total :
    (∀ a b : F64,
      evalBinaryOp .GREATER (.Number a) (.Number b) = .ok (.Boolean (decide (a > b))) ∧
      evalBinaryOp .GREATER_EQUAL (.Number a) (.Number b) = .ok (.Boolean (decide (a ≥ b))) ∧
      evalBinaryOp .LESS (.Number a) (.Number b) = .ok (.Boolean (decide (a < b))) ∧
      evalBinaryOp .LESS_EQUAL (.Number a) (.Number b) = .ok (.Boolean (decide (a ≤ b)))) ∧
    (∀ (l r : RuntimeValue) (op : TokenType),
      (op = .GREATER ∨ op = .GREATER_EQUAL ∨ op = .LESS ∨ op = .LESS_EQUAL) →
      ∃ b : Bool, evalBinaryOp op l r = .ok (.Boolean b)) := by
  constructor
  · intro a b
    refine ⟨?_, ?_, ?_, ?_⟩ <;>
      simp [evalBinaryOp, RuntimeValue.gtRV, RuntimeValue.geRV,
        RuntimeValue.ltRV, RuntimeValue.leRV]
  · rintro l r op (rfl | rfl | rfl | rfl) <;> exact ⟨_, rfl⟩

theorem C7_amended_witness :
    evalBinaryOp .GREATER (.Number 2) (.Number 1) = .ok (.Boolean (decide ((2:F64) > 1))) ∧
    ∃ b : Bool, evalBinaryOp .LESS (.Str "x") .Nil = .ok (.Boolean b) :=
  ⟨(C7_amended_comparisons_total.1 2 1).1,
   C7_amended_comparisons_total.2 (.Str "x") .Nil .LESS (Or.inr (Or.inr (Or.inl rfl)))⟩

/-- C10: for every depth reachable in the chain, assign_at succeeds and
returns the value, inserting a fresh binding into the frame at that depth
when the name was absent (so a subsequent get_at at the same depth finds
the value); by contrast, the by-name Environment::assign used for globals
reports an undefined-variable error when the name is bound nowhere. -/
theorem C10_assign_at_inserts :
    (∀ (e : Environment) (name : String) (v : RuntimeValue) (d : Nat),
      d < e.chainLength →
      ∃ e2 : Environment, e.assign_at name v d = some (e2, v) ∧
        e2.get_at name d = some v) ∧
    (∀ (e : Environment) (name : Token) (v : RuntimeValue),
      e.boundAnywhere name.lexeme = false →
      e.assign name v = .error (.runtimeError (some name.line)
        ("Variable " ++ name.lexeme ++ " is not declared"))) := by
  constructor
  · intro e name v d h
    obtain ⟨e2, h1, h2⟩ := mutAt_get_at d e name v h
    exact ⟨e2, by simp [Environment.assign_at, h1], h2⟩
  · intro e name v h
    induction e with
    | global vals =>
        simp [Environment.boundAnywhere, alistContains] at h
        simp [Environment.assign, h]
    | child vals enc ih =>
        simp [Environment.boundAnywhere, alistContains] at h
        simp [Environment.assign, h.1, ih (by simp [Environment.boundAnywhere,
          alistContains, h.2]), Except.map]

theorem C10_witness :
    (∃ e2 : Environment,
      Environment.assign_at (.child [] (.global [])) "y" (.Number 5) 1 =
        some (e2, .Number 5) ∧
      e2.get_at "y" 1 = some (.Number 5)) ∧
    Environment.assign (.global []) ⟨.IDENTIFIER, "z", 4⟩ .Nil =
      .error (.runtimeError (some 4) ("Variable " ++ "z" ++ " is not declared")) :=
  ⟨C10_assign_at_inserts.1 (.child [] (.global [])) "y" (.Number 5) 1 (by decide),
   C10_assign_at_inserts.2 (.global []) ⟨.IDENTIFIER, "z", 4⟩ .Nil rfl⟩

/-- C9: evaluating Scanner::string_litral at the unterminated source
consisting of a quote followed by the graphemes a and b: the error is
reported at the current line as the claim says, but the emitted STRING
literal is "a", not the full interior "ab" — the slice
start+1 .. current−1 drops the last grapheme because no closing quote was
consumed — and on a source whose quote is the final grapheme the slice
bounds (1 .. 0) panic. -/
theorem C9_unterminated_string_bug :
    string_litral ⟨unterminatedSrc, 0, 1, 1⟩ =
      { errors := [(1, "Unterminated string.")]
        token := some ⟨.STRING "a", "\"ab", 1⟩
        panicked := false
        state := ⟨unterminatedSrc, 0, 3, 1⟩ } ∧
    claimedInterior unterminatedSrc 0 = "ab" ∧
    TokenType.STRING "a" ≠ TokenType.STRING "ab" ∧
    (string_litral ⟨["\""], 0, 1, 1⟩).panicked = true := by
  refine ⟨?_, ?_, by decide, ?_⟩ <;> rfl

set_option maxHeartbeats 2000000 in
/-- C8 is false on the code: Parser::or and Parser::and use an if, not a
while, so after one operator the parser stops; parsing the statement
'a or b or c;' (three operands) fails with "Expect ; after expression" at
the second operator instead of being accepted, likewise for 'and'. -/
theorem C8_counterexample :
    Parser.expression_statement 20
      ⟨[tokIdent "a", tokOr, tokIdent "b", tokOr, tokIdent "c", tokSemi, tokEOF],
       0, 0⟩ = .error ⟨.OR, 1, "Expect ; after expression"⟩ ∧
    Parser.expression_statement 20
      ⟨[tokIdent "a", tokAnd, tokIdent "b", tokAnd, tokIdent "c", tokSemi, tokEOF],
       0, 0⟩ = .error ⟨.AND, 1, "Expect ; after expression"⟩ := by
  exact ⟨rfl, rfl⟩

set_option maxHeartbeats 2000000 in
/-- C8 (amended): the parser implements logic_or → logic_and ("or"
logic_and)? and logic_and → equality ("and" equality)?: a chain of exactly
two operands is accepted and yields one Logical node, while any continuation
with a second "or" (resp. "and") at the same level — in particular every
chain of three or more operands — fails with "Expect ; after expression"
at that operator, whatever tokens follow it. -/
theorem C8_amended_single_operator_only :
    (∀ a b : String,
      Parser.expression_statement 20
        ⟨[tokIdent a, tokOr, tokIdent b, tokSemi, tokEOF], 0, 0⟩ =
        .ok (.ExpressionStmt (.Logical (.Variable (tokIdent a) none) tokOr
              (.Variable (tokIdent b) none)),
             ⟨[tokIdent a, tokOr, tokIdent b, tokSemi, tokEOF], 4, 0⟩)) ∧
    (∀ a b : String,
      Parser.expression_statement 20
        ⟨[tokIdent a, tokAnd, tokIdent b, tokSemi, tokEOF], 0, 0⟩ =
        .ok (.ExpressionStmt (.Logical (.Variable (tokIdent a) none) tokAnd
              (.Variable (tokIdent b) none)),
             ⟨[tokIdent a, tokAnd, tokIdent b, tokSemi, tokEOF], 4, 0⟩)) ∧
    (∀ (a b : String) (rest : List Token),
      Parser.expression_statement 20
        ⟨[tokIdent a, tokOr, tokIdent b, tokOr] ++ rest, 0, 0⟩ =
        .error ⟨.OR, 1, "Expect ; after expression"⟩) ∧
    (∀ (a b : String) (rest : List Token),
      Parser.expression_statement 20
        ⟨[tokIdent a, tokAnd, tokIdent b, tokAnd] ++ rest, 0, 0⟩ =
        .error ⟨.AND, 1, "Expect ; after expression"⟩) := by
  refine ⟨fun a b => ?_, fun a b => ?_, fun a b rest => ?_, fun a b rest => ?_⟩ <;> rfl

theorem prodExt {α β : Type} {p q : α × β} (h1 : p.1 = q.1) (h2 : p.2 = q.2) :
    p = q := by
  cases p
  cases q
  simp_all

theorem renderPrinted_append (numF : F64 → String) (callF instF : Nat → String)
    (l1 l2 : List RuntimeValue) :
    renderPrinted numF callF instF (l1 ++ l2) =
      renderPrinted numF callF instF l1 ++ renderPrinted numF callF instF l2 := by
  induction l1 with
  | nil => rfl
  | cons v rest ih => simp [renderPrinted, ih, String.append_assoc]

theorem renderPrinted_single (numF : F64 → String) (callF instF : Nat → String)
    (v : RuntimeValue) :
    renderPrinted numF callF instF [v] =
      displayRuntimeValue numF callF instF v ++ "\n" := by
  simp [renderPrinted, String.append_empty]

/-- The faithful executor and the printed-values observer agree: the
outcome components are equal and the stdout text is exactly the rendering
of the printed-value sequence. -/
theorem execStmt_printed (numF : F64 → String) (callF instF : Nat → String) :
    ∀ fuel : Nat,
      (∀ (env : Environment) (s : Stmt),
        (execStmt numF callF instF fuel env s).1 = (printedStmt fuel env s).1 ∧
        (execStmt numF callF instF fuel env s).2 =
          renderPrinted numF callF instF (printedStmt fuel env s).2) ∧
      (∀ (env : Environment) (l : List Stmt),
        (execStmts numF callF instF fuel env l).1 = (printedStmts fuel env l).1 ∧
        (execStmts numF callF instF fuel env l).2 =
          renderPrinted numF callF instF (printedStmts fuel env l).2) := by
  intro fuel
  induction fuel with
  | zero =>
      constructor
      · intro env s
        simp [execStmt, printedStmt, renderPrinted]
      · intro env l
        cases l with
        | nil => simp [execStmts, printedStmts, renderPrinted]
        | cons s rest => simp [execStmts, printedStmts, execStmt, printedStmt, renderPrinted]
  | succ n ih =>
      obtain ⟨ihS, ihL⟩ := ih
      have hS : ∀ (env : Environment) (s : Stmt),
          (execStmt numF callF instF (n + 1) env s).1 = (printedStmt (n + 1) env s).1 ∧
          (execStmt numF callF instF (n + 1) env s).2 =
            renderPrinted numF callF instF (printedStmt (n + 1) env s).2 := by
        intro env s
        cases s with
        | Var name expression =>
            cases expression with
            | none => simp [execStmt, printedStmt, renderPrinted]
            | some e =>
                rcases h : evaluate env e with ⟨v, env1⟩ | e1 | _ | _ | _ <;>
                  simp [execStmt, printedStmt, h, renderPrinted]
        | ExpressionStmt e =>
            rcases h : evaluate env e with ⟨v, env1⟩ | e1 | _ | _ | _ <;>
              simp [execStmt, printedStmt, h, renderPrinted]
        | PrintStmt e =>
            rcases h : evaluate env e with ⟨v, env1⟩ | e1 | _ | _ | _ <;>
              simp [execStmt, printedStmt, h, renderPrinted, String.append_empty]
        | IfStmt c t els =>
            rcases h : evaluate env c with ⟨cv, env1⟩ | e1 | _ | _ | _ <;>
              simp [execStmt, printedStmt, h, renderPrinted]
            cases hb : cv.toBool with
            | true => simpa [hb] using ihS env1 t
            | false =>
                cases els with
                | none => simp [hb, renderPrinted]
                | some e2 => simpa [hb] using ihS env1 e2
        | WhileStmt c b =>
            rcases h : evaluate env c with ⟨cv, env1⟩ | e1 | _ | _ | _ <;>
              simp [execStmt, printedStmt, h, renderPrinted]
            cases hb : cv.toBool with
            | false => simp [hb, renderPrinted]
            | true =>
                simp only [hb, if_true]
                have he : execStmt numF callF instF n env1 b =
                    ((printedStmt n env1 b).1,
                     renderPrinted numF callF instF (printedStmt n env1 b).2) :=
                  prodExt (ihS env1 b).1 (ihS env1 b).2
                rcases hp : printedStmt n env1 b with ⟨r1, out1⟩
                rw [hp] at he
                cases r1 with
                | ok env2 =>
                    have he2 : execStmt numF callF instF n env2 (.WhileStmt c b) =
                        ((printedStmt n env2 (.WhileStmt c b)).1,
                         renderPrinted numF callF instF
                           (printedStmt n env2 (.WhileStmt c b)).2) :=
                      prodExt (ihS env2 (.WhileStmt c b)).1 (ihS env2 (.WhileStmt c b)).2
                    rcases hp2 : printedStmt n env2 (.WhileStmt c b) with ⟨r2, out2⟩
                    rw [hp2] at he2
                    simp [he, he2, hp, hp2, renderPrinted_append]
                | err e1 => simp [he]
                | panic => simp [he]
                | unmodelled => simp [he]
                | timeout => simp [he]
        | Block statements =>
            have he : execStmts numF callF instF n (.child [] env) statements =
                ((printedStmts n (.child [] env) statements).1,
                 renderPrinted numF callF instF
                   (printedStmts n (.child [] env) statements).2) :=
              prodExt (ihL (.child [] env) statements).1 (ihL (.child [] env) statements).2
            rcases hp : printedStmts n (.child [] env) statements with ⟨r1, out1⟩
            rw [hp] at he
            cases r1 with
            | ok env1 =>
                cases env1 with
                | global vals => simp [execStmt, printedStmt, he, hp]
                | child vals enc => simp [execStmt, printedStmt, he, hp]
            | err e1 => simp [execStmt, printedStmt, he, hp]
            | panic => simp [execStmt, printedStmt, he, hp]
            | unmodelled => simp [execStmt, printedStmt, he, hp]
            | timeout => simp [execStmt, printedStmt, he, hp]
        | Return keyword value =>
            cases value with
            | none => simp [execStmt, printedStmt, renderPrinted]
            | some e =>
                rcases h : evaluate env e with ⟨v, env1⟩ | e1 | _ | _ | _ <;>
                  simp [execStmt, printedStmt, h, renderPrinted]
        | Class name sc methods => simp [execStmt, printedStmt, renderPrinted]
        | Function fn => simp [execStmt, printedStmt, renderPrinted]
      refine ⟨hS, ?_⟩
      intro env l
      induction l generalizing env with
      | nil => simp [execStmts, printedStmts, renderPrinted]
      | cons s rest ihl =>
          have he : execStmt numF callF instF (n + 1) env s =
              ((printedStmt (n + 1) env s).1,
               renderPrinted numF callF instF (printedStmt (n + 1) env s).2) :=
            prodExt (hS env s).1 (hS env s).2
          rcases hp : printedStmt (n + 1) env s with ⟨r1, out1⟩
          rw [hp] at he
          cases r1 with
          | ok env1 =>
              have he2 : execStmts numF callF instF (n + 1) env1 rest =
                  ((printedStmts (n + 1) env1 rest).1,
                   renderPrinted numF callF instF (printedStmts (n + 1) env1 rest).2) :=
                prodExt (ihl env1).1 (ihl env1).2
              rcases hp2 : printedStmts (n + 1) env1 rest with ⟨r2, out2⟩
              rw [hp2] at he2
              simp [execStmts, printedStmts, he, hp, he2, hp2, renderPrinted_append]
          | err e1 => simp [execStmts, printedStmts, he, hp]
          | panic => simp [execStmts, printedStmts, he, hp]
          | unmodelled => simp [execStmts, printedStmts, he, hp]
          | timeout => simp [execStmts, printedStmts, he, hp]

/-- C5 is false on the code: the display form of Nil is "Nil", not "nil",
and even for the empty program (which parses and resolves cleanly and
prints nothing) run writes the debug dump of the statement list — "[]" and
a newline — to stdout, so stdout is not exclusively print output. -/
theorem C5_counterexample :
    displayRuntimeValue (fun _ => "") (fun _ => "") (fun _ => "") .Nil = "Nil" ∧
    "Nil" ≠ "nil" ∧
    runStdout (fun _ => "") [] "" = "[]\n" ∧
    "[]\n" ≠ "" := by
  exact ⟨rfl, by decide, rfl, by decide⟩

theorem renderEvents_append (numF : F64 → String) (l1 l2 : List PrintEvent) :
    renderEvents numF (l1 ++ l2) = renderEvents numF l1 ++ renderEvents numF l2 := by
  induction l1 with
  | nil => rfl
  | cons ev rest ih => simp [renderEvents, ih, String.append_assoc]

theorem HOAll_zero (numF : F64 → String) : HOAll numF 0 := by
  refine ⟨fun s e => ⟨rfl, rfl⟩, fun s es => ⟨rfl, rfl⟩, fun s fv args => ⟨rfl, rfl⟩,
    fun s st => ⟨rfl, rfl⟩, fun s ne l => ⟨rfl, rfl⟩, fun s l => ⟨rfl, rfl⟩⟩

theorem HOss_step (numF : F64 → String) (f : Nat) (ih : HOAll numF f) :
    ∀ s l, (executeStmtsHO numF (f + 1) s l).1 = executeStmtsH (f + 1) s l ∧
      (executeStmtsHO numF (f + 1) s l).2.1 =
        renderEvents numF (executeStmtsHO numF (f + 1) s l).2.2 := by
  obtain ⟨ihE, ihAs, ihC, ihS, ihB, ihSs⟩ := ih
  intro s l
  cases l with
  | nil => exact ⟨rfl, rfl⟩
  | cons st rest =>
      obtain ⟨h1, h2⟩ := ihS s st
      rcases hx : executeHO numF f s st with ⟨r, o, g⟩
      have hr : executeH f s st = r := by rw [← h1, hx]
      have ho : o = renderEvents numF g := by rw [hx] at h2; exact h2
      simp only [executeStmtsHO, executeStmtsH, hx, hr]
      cases r with
      | ok u s1 =>
          cases u
          dsimp only
          obtain ⟨h3, h4⟩ := ihSs s1 rest
          rcases hy : executeStmtsHO numF f s1 rest with ⟨r2, o2, g2⟩
          have hr2 : executeStmtsH f s1 rest = r2 := by rw [← h3, hy]
          have ho2 : o2 = renderEvents numF g2 := by rw [hy] at h4; exact h4
          simp only [hy, hr2]
          exact ⟨by trivial, by rw [ho, ho2, renderEvents_append]⟩
      | err e s1 => exact ⟨by trivial, ho⟩
      | panicEnv => exact ⟨by trivial, ho⟩
      | panicOther => exact ⟨by trivial, ho⟩
      | timeout => exact ⟨by trivial, ho⟩

theorem HOb_step (numF : F64 → String) (f : Nat) (ih : HOAll numF f) :
    ∀ s newEnv stmts,
      (executeBlockHO numF (f + 1) s newEnv stmts).1 = executeBlockH (f + 1) s newEnv stmts ∧
      (executeBlockHO numF (f + 1) s newEnv stmts).2.1 =
        renderEvents numF (executeBlockHO numF (f + 1) s newEnv stmts).2.2 := by
  obtain ⟨ihE, ihAs, ihC, ihS, ihB, ihSs⟩ := ih
  intro s newEnv stmts
  obtain ⟨h1, h2⟩ := ihSs { s with environment := newEnv } stmts
  rcases hx : executeStmtsHO numF f { s with environment := newEnv } stmts with ⟨r, o, g⟩
  have hr : executeStmtsH f { s with environment := newEnv } stmts = r := by rw [← h1, hx]
  have ho : o = renderEvents numF g := by rw [hx] at h2; exact h2
  simp only [executeBlockHO, executeBlockH, hx, hr]
  cases r with
  | ok u s1 => cases u; exact ⟨by trivial, ho⟩
  | err e s1 => exact ⟨by trivial, ho⟩
  | panicEnv => exact ⟨by trivial, ho⟩
  | panicOther => exact ⟨by trivial, ho⟩
  | timeout => exact ⟨by trivial, ho⟩

theorem HOas_step (numF : F64 → String) (f : Nat) (ih : HOAll numF f) :
    ∀ s es, (evaluateArgsHO numF (f + 1) s es).1 = evaluateArgsH (f + 1) s es ∧
      (evaluateArgsHO numF (f + 1) s es).2.1 =
        renderEvents numF (evaluateArgsHO numF (f + 1) s es).2.2 := by
  obtain ⟨ihE, ihAs, ihC, ihS, ihB, ihSs⟩ := ih
  intro s es
  cases es with
  | nil => exact ⟨rfl, rfl⟩
  | cons e rest =>
      obtain ⟨h1, h2⟩ := ihE s e
      rcases hx : evaluateHO numF f s e with ⟨r, o, g⟩
      have hr : evaluateH f s e = r := by rw [← h1, hx]
      have ho : o = renderEvents numF g := by rw [hx] at h2; exact h2
      simp only [evaluateArgsHO, evaluateArgsH, hx, hr]
      cases r with
      | ok v s1 =>
          dsimp only
          obtain ⟨h3, h4⟩ := ihAs s1 rest
          rcases hy : evaluateArgsHO numF f s1 rest with ⟨r2, o2, g2⟩
          have hr2 : evaluateArgsH f s1 rest = r2 := by rw [← h3, hy]
          have ho2 : o2 = renderEvents numF g2 := by rw [hy] at h4; exact h4
          simp only [hy, hr2]
          cases r2 with
          | ok vs s2 => exact ⟨by trivial, by rw [ho, ho2, renderEvents_append]⟩
          | err e1 s2 => exact ⟨by trivial, by rw [ho, ho2, renderEvents_append]⟩
          | panicEnv => exact ⟨by trivial, by rw [ho, ho2, renderEvents_append]⟩
          | panicOther => exact ⟨by trivial, by rw [ho, ho2, renderEvents_append]⟩
          | timeout => exact ⟨by trivial, by rw [ho, ho2, renderEvents_append]⟩
      | err e1 s1 => exact ⟨by trivial, ho⟩
      | panicEnv => exact ⟨by trivial, ho⟩
      | panicOther => exact ⟨by trivial, ho⟩
      | timeout => exact ⟨by trivial, ho⟩

theorem HOs_step (numF : F64 → String) (f : Nat) (ih : HOAll numF f) :
    ∀ s st, (executeHO numF (f + 1) s st).1 = executeH (f + 1) s st ∧
      (executeHO numF (f + 1) s st).2.1 =
        renderEvents numF (executeHO numF (f + 1) s st).2.2 := by
  obtain ⟨ihE, ihAs, ihC, ihS, ihB, ihSs⟩ := ih
  intro s st
  cases st with
  | Class name super_class methods =>
      cases super_class with
      | none => exact ⟨rfl, rfl⟩
      | some scExpr =>
          obtain ⟨h1, h2⟩ := ihE s scExpr
          rcases hx : evaluateHO numF f s scExpr with ⟨r, o, g⟩
          have hr : evaluateH f s scExpr = r := by rw [← h1, hx]
          have ho : o = renderEvents numF g := by rw [hx] at h2; exact h2
          simp only [executeHO, executeH, hx, hr]
          cases r with
          | ok v s1 =>
              dsimp only
              by_cases hic : v.isCallable = true
              · simp only [if_pos hic]
                cases v with
                | hClass cid => exact ⟨by trivial, ho⟩
                | hNil => exact ⟨by trivial, ho⟩
                | hBool b => exact ⟨by trivial, ho⟩
                | hNum q => exact ⟨by trivial, ho⟩
                | hStr sv => exact ⟨by trivial, ho⟩
                | hClock => exact ⟨by trivial, ho⟩
                | hFun fn c ii => exact ⟨by trivial, ho⟩
                | hInstance iid => exact ⟨by trivial, ho⟩
              · simp only [if_neg hic]
                exact ⟨by trivial, ho⟩
          | err e1 s1 => exact ⟨by trivial, ho⟩
          | panicEnv => exact ⟨by trivial, ho⟩
          | panicOther => exact ⟨by trivial, ho⟩
          | timeout => exact ⟨by trivial, ho⟩
  | Function fn => exact ⟨rfl, rfl⟩
  | Var name expression =>
      cases expression with
      | none => exact ⟨rfl, rfl⟩
      | some e =>
          obtain ⟨h1, h2⟩ := ihE s e
          rcases hx : evaluateHO numF f s e with ⟨r, o, g⟩
          have hr : evaluateH f s e = r := by rw [← h1, hx]
          have ho : o = renderEvents numF g := by rw [hx] at h2; exact h2
          simp only [executeHO, executeH, hx, hr]
          cases r with
          | ok v s1 => exact ⟨by trivial, ho⟩
          | err e1 s1 => exact ⟨by trivial, ho⟩
          | panicEnv => exact ⟨by trivial, ho⟩
          | panicOther => exact ⟨by trivial, ho⟩
          | timeout => exact ⟨by trivial, ho⟩
  | ExpressionStmt e =>
      obtain ⟨h1, h2⟩ := ihE s e
      rcases hx : evaluateHO numF f s e with ⟨r, o, g⟩
      have hr : evaluateH f s e = r := by rw [← h1, hx]
      have ho : o = renderEvents numF g := by rw [hx] at h2; exact h2
      simp only [executeHO, executeH, hx, hr]
      cases r with
      | ok v s1 => exact ⟨by trivial, ho⟩
      | err e1 s1 => exact ⟨by trivial, ho⟩
      | panicEnv => exact ⟨by trivial, ho⟩
      | panicOther => exact ⟨by trivial, ho⟩
      | timeout => exact ⟨by trivial, ho⟩
  | PrintStmt e =>
      obtain ⟨h1, h2⟩ := ihE s e
      rcases hx : evaluateHO numF f s e with ⟨r, o, g⟩
      have hr : evaluateH f s e = r := by rw [← h1, hx]
      have ho : o = renderEvents numF g := by rw [hx] at h2; exact h2
      simp only [executeHO, executeH, hx, hr]
      cases r with
      | ok v s1 =>
          refine ⟨rfl, ?_⟩
          dsimp only
          rw [ho, renderEvents_append]
          simp [renderEvents, String.append_empty]
      | err e1 s1 => exact ⟨by trivial, ho⟩
      | panicEnv => exact ⟨by trivial, ho⟩
      | panicOther => exact ⟨by trivial, ho⟩
      | timeout => exact ⟨by trivial, ho⟩
  | Return keyword value =>
      cases value with
      | none => exact ⟨rfl, rfl⟩
      | some e =>
          obtain ⟨h1, h2⟩ := ihE s e
          rcases hx : evaluateHO numF f s e with ⟨r, o, g⟩
          have hr : evaluateH f s e = r := by rw [← h1, hx]
          have ho : o = renderEvents numF g := by rw [hx] at h2; exact h2
          simp only [executeHO, executeH, hx, hr]
          cases r with
          | ok v s1 => exact ⟨by trivial, ho⟩
          | err e1 s1 => exact ⟨by trivial, ho⟩
          | panicEnv => exact ⟨by trivial, ho⟩
          | panicOther => exact ⟨by trivial, ho⟩
          | timeout => exact ⟨by trivial, ho⟩
  | Block statements =>
      exact ihB { s with heap := (s.heap.allocFrame ⟨[], some s.environment⟩).1 }
        (s.heap.allocFrame ⟨[], some s.environment⟩).2 statements
  | IfStmt condition then_branch else_branch =>
      obtain ⟨h1, h2⟩ := ihE s condition
      rcases hx : evaluateHO numF f s condition with ⟨r, o, g⟩
      have hr : evaluateH f s condition = r := by rw [← h1, hx]
      have ho : o = renderEvents numF g := by rw [hx] at h2; exact h2
      simp only [executeHO, executeH, hx, hr]
      cases r with
      | ok cv s1 =>
          dsimp only
          by_cases hb : cv.toBool = true
          · simp only [if_pos hb]
            obtain ⟨h3, h4⟩ := ihS s1 then_branch
            rcases hy : executeHO numF f s1 then_branch with ⟨r2, o2, g2⟩
            have hr2 : executeH f s1 then_branch = r2 := by rw [← h3, hy]
            have ho2 : o2 = renderEvents numF g2 := by rw [hy] at h4; exact h4
            simp only [hy, hr2]
            exact ⟨by trivial, by rw [ho, ho2, renderEvents_append]⟩
          · simp only [if_neg hb]
            cases else_branch with
            | none => exact ⟨by trivial, ho⟩
            | some e2 =>
                obtain ⟨h3, h4⟩ := ihS s1 e2
                rcases hy : executeHO numF f s1 e2 with ⟨r2, o2, g2⟩
                have hr2 : executeH f s1 e2 = r2 := by rw [← h3, hy]
                have ho2 : o2 = renderEvents numF g2 := by rw [hy] at h4; exact h4
                simp only [hy, hr2]
                exact ⟨by trivial, by rw [ho, ho2, renderEvents_append]⟩
      | err e1 s1 => exact ⟨by trivial, ho⟩
      | panicEnv => exact ⟨by trivial, ho⟩
      | panicOther => exact ⟨by trivial, ho⟩
      | timeout => exact ⟨by trivial, ho⟩
  | WhileStmt condition body =>
      obtain ⟨h1, h2⟩ := ihE s condition
      rcases hx : evaluateHO numF f s condition with ⟨r, o, g⟩
      have hr : evaluateH f s condition = r := by rw [← h1, hx]
      have ho : o = renderEvents numF g := by rw [hx] at h2; exact h2
      simp only [executeHO, executeH, hx, hr]
      cases r with
      | ok cv s1 =>
          dsimp only
          by_cases hb : cv.toBool = true
          · simp only [if_pos hb]
            obtain ⟨h3, h4⟩ := ihS s1 body
            rcases hy : executeHO numF f s1 body with ⟨r2, o2, g2⟩
            have hr2 : executeH f s1 body = r2 := by rw [← h3, hy]
            have ho2 : o2 = renderEvents numF g2 := by rw [hy] at h4; exact h4
            simp only [hy, hr2]
            cases r2 with
            | ok u s2 =>
                cases u
                dsimp only
                obtain ⟨h5, h6⟩ := ihS s2 (.WhileStmt condition body)
                rcases hz : executeHO numF f s2 (.WhileStmt condition body) with ⟨r3, o3, g3⟩
                have hr3 : executeH f s2 (.WhileStmt condition body) = r3 := by rw [← h5, hz]
                have ho3 : o3 = renderEvents numF g3 := by rw [hz] at h6; exact h6
                simp only [hz, hr3]
                exact ⟨by trivial,
                  by rw [ho, ho2, ho3, renderEvents_append, renderEvents_append]⟩
            | err e1 s2 => exact ⟨by trivial, by rw [ho, ho2, renderEvents_append]⟩
            | panicEnv => exact ⟨by trivial, by rw [ho, ho2, renderEvents_append]⟩
            | panicOther => exact ⟨by trivial, by rw [ho, ho2, renderEvents_append]⟩
            | timeout => exact ⟨by trivial, by rw [ho, ho2, renderEvents_append]⟩
          · simp only [if_neg hb]
            exact ⟨by trivial, ho⟩
      | err e1 s1 => exact ⟨by trivial, ho⟩
      | panicEnv => exact ⟨by trivial, ho⟩
      | panicOther => exact ⟨by trivial, ho⟩
      | timeout => exact ⟨by trivial, ho⟩

theorem prefixHO {α : Type} (numF : F64 → String) (p : HRes α × String × List PrintEvent)
    (q : HRes α) (o : String) (g : List PrintEvent)
    (h1 : p.1 = q) (h2 : p.2.1 = renderEvents numF p.2.2) (ho : o = renderEvents numF g) :
    (p.1, o ++ p.2.1, g ++ p.2.2).1 = q ∧
    (p.1, o ++ p.2.1, g ++ p.2.2).2.1 =
      renderEvents numF (p.1, o ++ p.2.1, g ++ p.2.2).2.2 := by
  refine ⟨h1, ?_⟩
  dsimp only
  rw [h2, ho, renderEvents_append]

theorem prefixHO2 {α : Type} (numF : F64 → String) (p : HRes α × String × List PrintEvent)
    (q : HRes α) (o o2 : String) (g g2 : List PrintEvent)
    (h1 : p.1 = q) (h2 : p.2.1 = renderEvents numF p.2.2)
    (ho : o = renderEvents numF g) (ho2 : o2 = renderEvents numF g2) :
    (p.1, o ++ o2 ++ p.2.1, g ++ g2 ++ p.2.2).1 = q ∧
    (p.1, o ++ o2 ++ p.2.1, g ++ g2 ++ p.2.2).2.1 =
      renderEvents numF (p.1, o ++ o2 ++ p.2.1, g ++ g2 ++ p.2.2).2.2 := by
  refine ⟨h1, ?_⟩
  dsimp only
  rw [h2, ho, ho2, renderEvents_append, renderEvents_append]

theorem HOe_step (numF : F64 → String) (f : Nat) (ih : HOAll numF f) :
    ∀ s e, (evaluateHO numF (f + 1) s e).1 = evaluateH (f + 1) s e ∧
      (evaluateHO numF (f + 1) s e).2.1 =
        renderEvents numF (evaluateHO numF (f + 1) s e).2.2 := by
  obtain ⟨ihE, ihAs, ihC, ihS, ihB, ihSs⟩ := ih
  intro s e
  cases e with
  | Grouping e0 => exact ihE s e0
  | Litral l0 => exact ⟨rfl, rfl⟩
  | Unary operator right =>
      obtain ⟨h1, h2⟩ := ihE s right
      rcases hx : evaluateHO numF f s right with ⟨r, o, g⟩
      have hr : evaluateH f s right = r := by rw [← h1, hx]
      have ho : o = renderEvents numF g := by rw [hx] at h2; exact h2
      simp only [evaluateHO, evaluateH, hx, hr]
      cases r with
      | ok rv s1 =>
          dsimp only
          repeat' split
          all_goals exact ⟨by trivial, ho⟩
      | err e1 s1 => exact ⟨by trivial, ho⟩
      | panicEnv => exact ⟨by trivial, ho⟩
      | panicOther => exact ⟨by trivial, ho⟩
      | timeout => exact ⟨by trivial, ho⟩
  | Binary left operator right =>
      obtain ⟨h1, h2⟩ := ihE s left
      rcases hx : evaluateHO numF f s left with ⟨r, o, g⟩
      have hr : evaluateH f s left = r := by rw [← h1, hx]
      have ho : o = renderEvents numF g := by rw [hx] at h2; exact h2
      simp only [evaluateHO, evaluateH, hx, hr]
      cases r with
      | ok lv s1 =>
          dsimp only
          obtain ⟨h3, h4⟩ := ihE s1 right
          rcases hy : evaluateHO numF f s1 right with ⟨r2, o2, g2⟩
          have hr2 : evaluateH f s1 right = r2 := by rw [← h3, hy]
          have ho2 : o2 = renderEvents numF g2 := by rw [hy] at h4; exact h4
          simp only [hy, hr2]
          cases r2 with
          | ok rv s2 =>
              dsimp only
              repeat' split
              all_goals exact ⟨by trivial, by rw [ho, ho2, renderEvents_append]⟩
          | err e1 s2 => exact ⟨by trivial, by rw [ho, ho2, renderEvents_append]⟩
          | panicEnv => exact ⟨by trivial, by rw [ho, ho2, renderEvents_append]⟩
          | panicOther => exact ⟨by trivial, by rw [ho, ho2, renderEvents_append]⟩
          | timeout => exact ⟨by trivial, by rw [ho, ho2, renderEvents_append]⟩
      | err e1 s1 => exact ⟨by trivial, ho⟩
      | panicEnv => exact ⟨by trivial, ho⟩
      | panicOther => exact ⟨by trivial, ho⟩
      | timeout => exact ⟨by trivial, ho⟩
  | Logical left operator right =>
      obtain ⟨h1, h2⟩ := ihE s left
      rcases hx : evaluateHO numF f s left with ⟨r, o, g⟩
      have hr : evaluateH f s left = r := by rw [← h1, hx]
      have ho : o = renderEvents numF g := by rw [hx] at h2; exact h2
      simp only [evaluateHO, evaluateH, hx, hr]
      cases r with
      | ok lv s1 =>
          dsimp only
          cases hop : operator.token_type <;> cases hlb : lv.toBool <;>
            first
            | exact ⟨by trivial, ho⟩
            | exact prefixHO numF (evaluateHO numF f s1 right) (evaluateH f s1 right) o g
                (ihE s1 right).1 (ihE s1 right).2 ho
      | err e1 s1 => exact ⟨by trivial, ho⟩
      | panicEnv => exact ⟨by trivial, ho⟩
      | panicOther => exact ⟨by trivial, ho⟩
      | timeout => exact ⟨by trivial, ho⟩
  | Variable name depth =>
      simp only [evaluateHO, evaluateH]
      repeat' split
      all_goals exact ⟨by trivial, rfl⟩
  | This keyword depth =>
      simp only [evaluateHO, evaluateH]
      repeat' split
      all_goals exact ⟨by trivial, rfl⟩
  | Super keyword method depth =>
      simp only [evaluateHO, evaluateH]
      repeat' split
      all_goals exact ⟨by trivial, rfl⟩
  | Assign name depth value =>
      obtain ⟨h1, h2⟩ := ihE s value
      rcases hx : evaluateHO numF f s value with ⟨r, o, g⟩
      have hr : evaluateH f s value = r := by rw [← h1, hx]
      have ho : o = renderEvents numF g := by rw [hx] at h2; exact h2
      simp only [evaluateHO, evaluateH, hx, hr]
      cases r with
      | ok v s1 =>
          dsimp only
          repeat' split
          all_goals exact ⟨by trivial, ho⟩
      | err e1 s1 => exact ⟨by trivial, ho⟩
      | panicEnv => exact ⟨by trivial, ho⟩
      | panicOther => exact ⟨by trivial, ho⟩
      | timeout => exact ⟨by trivial, ho⟩
  | Call callee _paran arguments =>
      obtain ⟨h1, h2⟩ := ihE s callee
      rcases hx : evaluateHO numF f s callee with ⟨r, o, g⟩
      have hr : evaluateH f s callee = r := by rw [← h1, hx]
      have ho : o = renderEvents numF g := by rw [hx] at h2; exact h2
      simp only [evaluateHO, evaluateH, hx, hr]
      cases r with
      | ok fv s1 =>
          dsimp only
          by_cases hic : fv.isCallable = true
          · simp only [if_pos hic]
            by_cases har : arityH s1.heap fv ≠ arguments.length
            · simp only [if_pos har]
              exact ⟨by trivial, ho⟩
            · simp only [if_neg har]
              obtain ⟨h3, h4⟩ := ihAs s1 arguments
              rcases hy : evaluateArgsHO numF f s1 arguments with ⟨r2, o2, g2⟩
              have hr2 : evaluateArgsH f s1 arguments = r2 := by rw [← h3, hy]
              have ho2 : o2 = renderEvents numF g2 := by rw [hy] at h4; exact h4
              simp only [hy, hr2]
              cases r2 with
              | ok vs s2 =>
                  dsimp only
                  exact prefixHO2 numF (callHO numF f s2 fv vs) (callH f s2 fv vs) o o2 g g2
                    (ihC s2 fv vs).1 (ihC s2 fv vs).2 ho ho2
              | err e1 s2 => exact ⟨by trivial, by rw [ho, ho2, renderEvents_append]⟩
              | panicEnv => exact ⟨by trivial, by rw [ho, ho2, renderEvents_append]⟩
              | panicOther => exact ⟨by trivial, by rw [ho, ho2, renderEvents_append]⟩
              | timeout => exact ⟨by trivial, by rw [ho, ho2, renderEvents_append]⟩
          · simp only [if_neg hic]
            exact ⟨by trivial, ho⟩
      | err e1 s1 => exact ⟨by trivial, ho⟩
      | panicEnv => exact ⟨by trivial, ho⟩
      | panicOther => exact ⟨by trivial, ho⟩
      | timeout => exact ⟨by trivial, ho⟩
  | Get object name =>
      obtain ⟨h1, h2⟩ := ihE s object
      rcases hx : evaluateHO numF f s object with ⟨r, o, g⟩
      have hr : evaluateH f s object = r := by rw [← h1, hx]
      have ho : o = renderEvents numF g := by rw [hx] at h2; exact h2
      simp only [evaluateHO, evaluateH, hx, hr]
      cases r with
      | ok ov s1 =>
          dsimp only
          repeat' split
          all_goals exact ⟨by trivial, ho⟩
      | err e1 s1 => exact ⟨by trivial, ho⟩
      | panicEnv => exact ⟨by trivial, ho⟩
      | panicOther => exact ⟨by trivial, ho⟩
      | timeout => exact ⟨by trivial, ho⟩
  | Set object name value =>
      obtain ⟨h1, h2⟩ := ihE s object
      rcases hx : evaluateHO numF f s object with ⟨r, o, g⟩
      have hr : evaluateH f s object = r := by rw [← h1, hx]
      have ho : o = renderEvents numF g := by rw [hx] at h2; exact h2
      simp only [evaluateHO, evaluateH, hx, hr]
      cases r with
      | ok ov s1 =>
          dsimp only
          cases ov with
          | hInstance iid =>
              obtain ⟨h3, h4⟩ := ihE s1 value
              rcases hy : evaluateHO numF f s1 value with ⟨r2, o2, g2⟩
              have hr2 : evaluateH f s1 value = r2 := by rw [← h3, hy]
              have ho2 : o2 = renderEvents numF g2 := by rw [hy] at h4; exact h4
              simp only [hy, hr2]
              cases r2 with
              | ok v s2 =>
                  dsimp only
                  repeat' split
                  all_goals exact ⟨by trivial, by rw [ho, ho2, renderEvents_append]⟩
              | err e1 s2 => exact ⟨by trivial, by rw [ho, ho2, renderEvents_append]⟩
              | panicEnv => exact ⟨by trivial, by rw [ho, ho2, renderEvents_append]⟩
              | panicOther => exact ⟨by trivial, by rw [ho, ho2, renderEvents_append]⟩
              | timeout => exact ⟨by trivial, by rw [ho, ho2, renderEvents_append]⟩
          | hNil => exact ⟨by trivial, ho⟩
          | hBool b => exact ⟨by trivial, ho⟩
          | hNum q => exact ⟨by trivial, ho⟩
          | hStr sv => exact ⟨by trivial, ho⟩
          | hClock => exact ⟨by trivial, ho⟩
          | hFun fn c ii => exact ⟨by trivial, ho⟩
          | hClass cid => exact ⟨by trivial, ho⟩
      | err e1 s1 => exact ⟨by trivial, ho⟩
      | panicEnv => exact ⟨by trivial, ho⟩
      | panicOther => exact ⟨by trivial, ho⟩
      | timeout => exact ⟨by trivial, ho⟩

theorem HOc_step (numF : F64 → String) (f : Nat) (ih : HOAll numF f) :
    ∀ s fv args, (callHO numF (f + 1) s fv args).1 = callH (f + 1) s fv args ∧
      (callHO numF (f + 1) s fv args).2.1 =
        renderEvents numF (callHO numF (f + 1) s fv args).2.2 := by
  obtain ⟨ihE, ihAs, ihC, ihS, ihB, ihSs⟩ := ih
  intro s fv args
  cases fv with
  | hNil => exact ⟨rfl, rfl⟩
  | hBool b => exact ⟨rfl, rfl⟩
  | hNum q => exact ⟨rfl, rfl⟩
  | hStr sv => exact ⟨rfl, rfl⟩
  | hInstance iid => exact ⟨rfl, rfl⟩
  | hClock =>
      simp only [callHO, callH]
      by_cases hl : args.length ≠ 0
      · simp only [if_pos hl]
        exact ⟨by trivial, rfl⟩
      · simp only [if_neg hl]
        exact ⟨by trivial, rfl⟩
  | hClass cid =>
      simp only [callHO, callH]
      cases hfm : Heap.find_method (s.heap.allocInst ⟨cid, []⟩).1 cid "init" with
      | some tri =>
          obtain ⟨fn, env, isInit⟩ := tri
          dsimp only
          exact ihC _ _ _
      | none => exact ⟨by trivial, rfl⟩
  | hFun fn closure isInit =>
      simp only [callHO, callH]
      by_cases hlt : fn.params.length < args.length
      · simp only [if_pos hlt]
        exact ⟨by trivial, rfl⟩
      · simp only [if_neg hlt]
        set FV : List (String × HVal) :=
          (List.zip (fn.params.map (fun p => p.lexeme)) args).foldl
            (fun acc pa => alistInsert acc pa.1 pa.2) [] with hFV
        obtain ⟨hb1, hb2⟩ := ihB { s with heap := (s.heap.allocFrame ⟨FV, some closure⟩).1 }
          (s.heap.allocFrame ⟨FV, some closure⟩).2 fn.body
        rcases hy : executeBlockHO numF f
            { s with heap := (s.heap.allocFrame ⟨FV, some closure⟩).1 }
            (s.heap.allocFrame ⟨FV, some closure⟩).2 fn.body with ⟨r, o, g⟩
        have hr : executeBlockH f { s with heap := (s.heap.allocFrame ⟨FV, some closure⟩).1 }
            (s.heap.allocFrame ⟨FV, some closure⟩).2 fn.body = r := by rw [← hb1, hy]
        have ho : o = renderEvents numF g := by rw [hy] at hb2; exact hb2
        simp only [hy, hr]
        cases r with
        | ok u s2 =>
            cases u
            dsimp only
            repeat' split
            all_goals exact ⟨by trivial, ho⟩
        | err e s2 =>
            dsimp only
            repeat' split
            all_goals exact ⟨by trivial, ho⟩
        | panicEnv => exact ⟨by trivial, ho⟩
        | panicOther => exact ⟨by trivial, ho⟩
        | timeout => exact ⟨by trivial, ho⟩

theorem HOAll_all (numF : F64 → String) : ∀ f, HOAll numF f := by
  intro f
  induction f with
  | zero => exact HOAll_zero numF
  | succ n ih =>
      exact ⟨HOe_step numF n ih, HOas_step numF n ih, HOc_step numF n ih,
        HOs_step numF n ih, HOb_step numF n ih, HOss_step numF n ih⟩

/-- C5 (amended): stdout of a clean run is the pretty debug dump of the
resolved statements and a newline followed by the interpreter output; for
the full language (classes, functions, calls, property access included,
so also prints executed inside called function bodies) the interpreter
output is exactly the display form of each value printed by an executed
print statement followed by one newline — and nothing else; the
instrumented interpreter is the interpreter (its outcome component is
executeStmtsH / interpretH); the display form of Nil is the three
characters "Nil". -/
theorem C5_amended_stdout :
    (∀ (numF : F64 → String) (fuel : Nat) (s : IState) (stmts : List Stmt),
      (executeStmtsHO numF fuel s stmts).2.1 =
        renderEvents numF (executeStmtsHO numF fuel s stmts).2.2) ∧
    (∀ (numF : F64 → String) (fuel : Nat) (s : IState) (stmts : List Stmt),
      (executeStmtsHO numF fuel s stmts).1 = executeStmtsH fuel s stmts) ∧
    (∀ (numF : F64 → String) (fuel : Nat) (prog : List Stmt),
      (interpretHO numF fuel prog).2.1 = renderEvents numF (interpretHO numF fuel prog).2.2 ∧
      (interpretHO numF fuel prog).1 = interpretH fuel prog) ∧
    (∀ (numF : F64 → String) (h : Heap), displayHV numF h .hNil = "Nil") ∧
    (∀ (dumpF : List Stmt → String) (stmts : List Stmt) (iout : String),
      runStdout dumpF stmts iout = debugDump dumpF stmts ++ "\n" ++ iout) := by
  refine ⟨fun numF fuel s stmts => ((HOAll_all numF fuel).2.2.2.2.2 s stmts).2,
    fun numF fuel s stmts => ((HOAll_all numF fuel).2.2.2.2.2 s stmts).1,
    fun numF fuel prog => ⟨((HOAll_all numF fuel).2.2.2.2.2 initialIState prog).2,
      ((HOAll_all numF fuel).2.2.2.2.2 initialIState prog).1⟩,
    fun numF h => rfl, fun dumpF stmts iout => rfl⟩

/-! ## C3 development: supporting lemmas.

Association lists, heap primitive operations, monotone heap extension, and
transport of the runtime invariants along extension. -/

theorem alistGet_mem {V : Type} {l : List (String × V)} {k : String} {v : V}
    (h : alistGet l k = some v) : (k, v) ∈ l := by
  induction l with
  | nil => simp [alistGet] at h
  | cons p rest ih =>
      obtain ⟨k0, v0⟩ := p
      by_cases hk : k0 = k
      · subst hk
        simp only [alistGet, if_pos rfl] at h
        cases h
        exact List.mem_cons_self _ _
      · simp only [alistGet, if_neg hk] at h
        exact List.mem_cons_of_mem _ (ih h)

theorem alistGet_filter_ne {V : Type} (l : List (String × V)) (k n : String)
    (h : ¬ k = n) :
    alistGet (l.filter (fun kv => kv.1 ≠ k)) n = alistGet l n := by
  induction l with
  | nil => rfl
  | cons p rest ih =>
      obtain ⟨k0, v0⟩ := p
      rw [List.filter_cons]
      by_cases hk : k0 = k
      · rw [if_neg (by simp [hk]), ih]
        subst hk
        simp only [alistGet]
        rw [if_neg h]
      · rw [if_pos (by simp [hk])]
        simp only [alistGet]
        by_cases hn : k0 = n
        · rw [if_pos hn, if_pos hn]
        · rw [if_neg hn, if_neg hn, ih]

theorem alistGet_insert {V : Type} (l : List (String × V)) (k n : String)
    (v : V) :
    alistGet (alistInsert l k v) n = if k = n then some v else alistGet l n := by
  by_cases hk : k = n
  · simp [alistInsert, alistGet, hk]
  · simp only [alistInsert, alistGet, if_neg hk]
    exact alistGet_filter_ne l k n hk

theorem alistGet_insert_isSome {V : Type} {l : List (String × V)} {n : String}
    (k : String) (v : V) (h : (alistGet l n).isSome) :
    (alistGet (alistInsert l k v) n).isSome := by
  rw [alistGet_insert]
  by_cases hk : k = n <;> simp [hk, h]

theorem mem_alistInsert {V : Type} {l : List (String × V)} {k n : String}
    {v w : V} (h : (n, w) ∈ alistInsert l k v) :
    (n = k ∧ w = v) ∨ (n, w) ∈ l := by
  simp only [alistInsert] at h
  rcases List.mem_cons.mp h with h | h
  · cases h
    exact Or.inl ⟨rfl, rfl⟩
  · exact Or.inr (List.mem_filter.mp h).1

theorem alistInsert_cons_self {V : Type} (l : List (String × V)) (k : String)
    (b v : V) : alistInsert ((k, b) :: l) k v = alistInsert l k v := by
  simp [alistInsert, List.filter_cons]

theorem mem_foldl_insert {α V : Type} (key : α → String) (val : α → V) :
    ∀ (ms : List α) (init : List (String × V)) (k : String) (v : V),
      (k, v) ∈ ms.foldl (fun acc m => alistInsert acc (key m) (val m)) init →
      (k, v) ∈ init ∨ ∃ m ∈ ms, k = key m ∧ v = val m := by
  intro ms
  induction ms with
  | nil =>
      intro init k v h
      exact Or.inl h
  | cons m rest ih =>
      intro init k v h
      rcases ih _ k v h with h1 | h1
      · rcases mem_alistInsert h1 with ⟨hk, hv⟩ | h2
        · exact Or.inr ⟨m, List.mem_cons_self _ _, hk, hv⟩
        · exact Or.inl h2
      · obtain ⟨m', hm', hk, hv⟩ := h1
        exact Or.inr ⟨m', List.mem_cons_of_mem _ hm', hk, hv⟩

theorem alistGet_foldl_insert_isSome {α V : Type} (key : α → String)
    (val : α → V) :
    ∀ (ms : List α) (init : List (String × V)) (n : String),
      ((alistGet init n).isSome ∨ ∃ m ∈ ms, key m = n) →
      (alistGet (ms.foldl (fun acc m => alistInsert acc (key m) (val m)) init)
        n).isSome := by
  intro ms
  induction ms with
  | nil =>
      intro init n h
      rcases h with h | h
      · exact h
      · obtain ⟨m, hm, _⟩ := h
        exact absurd hm (List.not_mem_nil m)
  | cons m rest ih =>
      intro init n h
      apply ih
      rcases h with h | h
      · exact Or.inl (alistGet_insert_isSome _ _ h)
      · obtain ⟨m', hm', hk⟩ := h
        rcases List.mem_cons.mp hm' with hm2 | hm2
        · subst hm2
          refine Or.inl ?_
          rw [alistGet_insert, if_pos hk]
          rfl
        · exact Or.inr ⟨m', hm2, hk⟩

theorem zip_mem_of_mem_left {α : Type} {names : List String} {args : List α}
    (hlen : names.length = args.length) {n : String} (h : n ∈ names) :
    ∃ a, (n, a) ∈ names.zip args := by
  induction names generalizing args with
  | nil => exact absurd h (List.not_mem_nil n)
  | cons x rest ih =>
      cases args with
      | nil => simp at hlen
      | cons a as =>
          rcases List.mem_cons.mp h with h1 | h1
          · subst h1
            exact ⟨a, List.mem_cons_self _ _⟩
          · obtain ⟨b, hb⟩ := ih (by simpa using hlen) h1
            exact ⟨b, List.mem_cons_of_mem _ hb⟩

theorem list_get?_set_ne {α : Type} (l : List α) (i j : Nat) (a : α)
    (h : i ≠ j) : (l.set i a).get? j = l.get? j := by
  rw [List.get?_set]
  simp [h]

theorem list_get?_set_self {α : Type} (l : List α) (i : Nat) (a : α)
    (h : i < l.length) : (l.set i a).get? i = some a := by
  rw [List.get?_set, if_pos rfl]
  cases hx : l.get? i with
  | none =>
      rw [List.get?_eq_none] at hx
      omega
  | some b => rfl

theorem frame_some_lt {h : Heap} {i : EnvId} {fr : HFrame}
    (hf : h.frame i = some fr) : i < h.frames.length := by
  have := List.get?_eq_some.mp hf
  exact this.1

namespace HeapExtends

theorem refl (h : Heap) : HeapExtends h h := by
  refine ⟨fun i fr hf => ⟨fr, hf, rfl, fun n hn => hn⟩, fun i _ => rfl,
    le_refl _, le_refl _⟩

theorem trans {h1 h2 h3 : Heap} (a : HeapExtends h1 h2)
    (b : HeapExtends h2 h3) : HeapExtends h1 h3 := by
  obtain ⟨af, ac, acl, ail⟩ := a
  obtain ⟨bf, bc, bcl, bil⟩ := b
  refine ⟨?_, ?_, le_trans acl bcl, le_trans ail bil⟩
  · intro i fr hf
    obtain ⟨fr2, hf2, he2, hd2⟩ := af i fr hf
    obtain ⟨fr3, hf3, he3, hd3⟩ := bf i fr2 hf2
    exact ⟨fr3, hf3, he3.trans he2, fun n hn => hd3 n (hd2 n hn)⟩
  · intro i hi
    rw [bc i (lt_of_lt_of_le hi acl), ac i hi]

end HeapExtends

theorem extends_defineAt (h : Heap) (e : EnvId) (n : String) (v : HVal) :
    HeapExtends h (h.defineAt e n v) := by
  cases hf : h.frame e with
  | none =>
      have hD : h.defineAt e n v = h := by
        unfold Heap.defineAt
        rw [hf]
      rw [hD]
      exact HeapExtends.refl h
  | some fr =>
      have hD : h.defineAt e n v =
          h.setFrame e { fr with values := alistInsert fr.values n v } := by
        unfold Heap.defineAt
        rw [hf]
      rw [hD]
      refine ⟨?_, fun i _ => rfl, le_refl _, le_refl _⟩
      intro i fr' hf'
      by_cases hi : e = i
      · subst hi
        rw [hf] at hf'
        cases hf'
        refine ⟨_, list_get?_set_self _ _ _ (frame_some_lt hf), rfl, ?_⟩
        intro m hm
        exact alistGet_insert_isSome _ _ hm
      · refine ⟨fr', ?_, rfl, fun m hm => hm⟩
        show (h.frames.set e _).get? i = some fr'
        rw [list_get?_set_ne _ _ _ _ hi]
        exact hf'

theorem extends_allocFrame (h : Heap) (f : HFrame) :
    HeapExtends h (h.allocFrame f).1 := by
  refine ⟨?_, fun i _ => rfl, le_refl _, le_refl _⟩
  intro i fr hf
  refine ⟨fr, ?_, rfl, fun n hn => hn⟩
  show (h.frames ++ [f]).get? i = some fr
  rw [List.get?_append (frame_some_lt hf)]
  exact hf

theorem extends_allocClass (h : Heap) (c : ClassObj) :
    HeapExtends h (h.allocClass c).1 := by
  refine ⟨fun i fr hf => ⟨fr, hf, rfl, fun n hn => hn⟩, ?_, ?_, le_refl _⟩
  · intro i hi
    show (h.classes ++ [c]).get? i = h.classes.get? i
    exact List.get?_append hi
  · show h.classes.length ≤ (h.classes ++ [c]).length
    simp

theorem extends_allocInst (h : Heap) (o : InstObj) :
    HeapExtends h (h.allocInst o).1 := by
  refine ⟨fun i fr hf => ⟨fr, hf, rfl, fun n hn => hn⟩, fun i _ => rfl,
    le_refl _, ?_⟩
  show h.instances.length ≤ (h.instances ++ [o]).length
  simp

theorem extends_setInst (h : Heap) (i : InstId) (o : InstObj) :
    HeapExtends h (h.setInst i o) := by
  refine ⟨fun j fr hf => ⟨fr, hf, rfl, fun n hn => hn⟩, fun j _ => rfl,
    le_refl _, ?_⟩
  show h.instances.length ≤ (h.instances.set i o).length
  simp

theorem extends_setFrame_of_le {h h' : Heap} (f' : HFrame) {i : Nat}
    (hx : HeapExtends h h') (hi : h.frames.length ≤ i) :
    HeapExtends h (h'.setFrame i f') := by
  obtain ⟨hf, hc, hcl, hil⟩ := hx
  refine ⟨?_, hc, hcl, hil⟩
  intro j fr hj
  have hjl : j < h.frames.length := frame_some_lt hj
  obtain ⟨fr', hj', he', hd'⟩ := hf j fr hj
  refine ⟨fr', ?_, he', hd'⟩
  show (h'.frames.set i f').get? j = some fr'
  rw [list_get?_set_ne _ _ _ _ (Nat.ne_of_gt (lt_of_lt_of_le hjl hi))]
  exact hj'

theorem scopeDom_nil (vals : List (String × HVal)) : scopeDom [] vals := by
  intro n hn
  simp [alistGet] at hn

theorem Corresponds_extends {h h' : Heap} {e : EnvId} {Γ : Ctx}
    (hc : Corresponds h e Γ) (hx : HeapExtends h h') : Corresponds h' e Γ := by
  induction Γ generalizing e with
  | nil => trivial
  | cons sc rest ih =>
      obtain ⟨fr, hfr, hdom, enc, henc, hrest⟩ := hc
      obtain ⟨fr', hfr', he', hd'⟩ := hx.1 e fr hfr
      refine ⟨fr', hfr', fun n hn => hd' n (hdom n hn), enc, ?_, ih hrest⟩
      rw [he']
      exact henc

theorem ValWF_extends {h h' : Heap} {v : HVal} (hv : ValWF h v)
    (hx : HeapExtends h h') : ValWF h' v := by
  cases v with
  | hFun fn env isInit =>
      obtain ⟨⟨Γc, hc, hwf⟩, hinit⟩ := hv
      refine ⟨⟨Γc, Corresponds_extends hc hx, hwf⟩, ?_⟩
      intro hb
      obtain ⟨fr, hfr, hdom⟩ := hinit hb
      obtain ⟨fr', hfr', _, hd'⟩ := hx.1 env fr hfr
      exact ⟨fr', hfr', hd' _ hdom⟩
  | hClass c => exact lt_of_lt_of_le hv hx.2.2.1
  | hInstance i => exact lt_of_lt_of_le hv hx.2.2.2
  | hNil => trivial
  | hBool b => trivial
  | hNum q => trivial
  | hStr s => trivial
  | hClock => trivial

theorem MethodWF_extends {h h' : Heap} {fn : Fun} {env : EnvId}
    (hm : MethodWF h fn env) (hx : HeapExtends h h') : MethodWF h' fn env := by
  obtain ⟨Γd, hc, hwf⟩ := hm
  exact ⟨Γd, Corresponds_extends hc hx, hwf⟩

theorem ClassWF_extends {h h' : Heap} {i : ClassId} {c : ClassObj}
    (hc : ClassWF h i c) (hx : HeapExtends h h') : ClassWF h' i c := by
  obtain ⟨h1, h2⟩ := hc
  exact ⟨h1, fun hnone mn fn env b hm =>
    MethodWF_extends (h2 hnone mn fn env b hm) hx⟩

theorem get?_append_singleton {α : Type} {l : List α} {a b : α} {j : Nat}
    (h : (l ++ [a]).get? j = some b) :
    l.get? j = some b ∨ (j = l.length ∧ b = a) := by
  by_cases hj : j < l.length
  · rw [List.get?_append hj] at h
    exact Or.inl h
  · by_cases hj2 : j = l.length
    · subst hj2
      rw [List.get?_concat_length] at h
      cases h
      exact Or.inr ⟨rfl, rfl⟩
    · exfalso
      have hlen2 : (l ++ [a]).length ≤ j := by
        simp only [List.length_append, List.length_singleton]
        omega
      rw [List.get?_eq_none.mpr hlen2] at h
      cases h

theorem get?_set_cases {α : Type} {l : List α} {i j : Nat} {a b : α}
    (h : (l.set i a).get? j = some b) :
    (i = j ∧ b = a) ∨ l.get? j = some b := by
  by_cases hij : i = j
  · subst hij
    by_cases hlen : i < l.length
    · rw [list_get?_set_self _ _ _ hlen] at h
      cases h
      exact Or.inl ⟨rfl, rfl⟩
    · exfalso
      rw [List.get?_set, if_pos rfl, List.get?_eq_none.mpr (by omega)] at h
      simp at h
  · rw [list_get?_set_ne _ _ _ _ hij] at h
    exact Or.inr h

theorem frame_alloc_self (h : Heap) (f : HFrame) :
    ((h.allocFrame f).1).frame h.frames.length = some f := by
  show (h.frames ++ [f]).get? h.frames.length = some f
  exact List.get?_concat_length _ _

theorem StoreWF_defineAt {h : Heap} {e : EnvId} {n : String} {v : HVal}
    (hs : StoreWF h) (hv : ValWF (h.defineAt e n v) v) :
    StoreWF (h.defineAt e n v) := by
  have hx := extends_defineAt h e n v
  obtain ⟨hsf, hsc, hsi⟩ := hs
  cases hf : h.frame e with
  | none =>
      have hD : h.defineAt e n v = h := by
        unfold Heap.defineAt
        rw [hf]
      rw [hD]
      exact ⟨hsf, hsc, hsi⟩
  | some fr =>
      have hD : h.defineAt e n v =
          h.setFrame e { fr with values := alistInsert fr.values n v } := by
        unfold Heap.defineAt
        rw [hf]
      rw [hD] at hx hv ⊢
      refine ⟨?_, ?_, ?_⟩
      · intro i fr' hf' m w hm
        rcases get?_set_cases hf' with ⟨hie, hfr'⟩ | hold
        · subst hfr'
          rcases mem_alistInsert hm with ⟨hmn, hwv⟩ | hmem
          · subst hwv
            exact hv
          · exact ValWF_extends (hsf e fr hf m w hmem) hx
        · exact ValWF_extends (hsf i fr' hold m w hm) hx
      · intro i c hc
        obtain ⟨h1, h2⟩ := hsc i c hc
        exact ⟨h1, ClassWF_extends h2 hx⟩
      · intro i io hio
        obtain ⟨h1, h2⟩ := hsi i io hio
        exact ⟨h1, fun m w hm => ValWF_extends (h2 m w hm) hx⟩

theorem StoreWF_allocFrame {h : Heap} {f : HFrame} (hs : StoreWF h)
    (hf : ∀ n v, (n, v) ∈ f.values → ValWF h v) :
    StoreWF (h.allocFrame f).1 := by
  have hx := extends_allocFrame h f
  obtain ⟨hsf, hsc, hsi⟩ := hs
  refine ⟨?_, ?_, ?_⟩
  · intro i fr' hf' m w hm
    rcases get?_append_singleton (show (h.frames ++ [f]).get? i = some fr'
        from hf') with hold | ⟨hi, hfr⟩
    · exact ValWF_extends (hsf i fr' hold m w hm) hx
    · subst hfr
      exact ValWF_extends (hf m w hm) hx
  · intro i c hc
    obtain ⟨h1, h2⟩ := hsc i c hc
    exact ⟨h1, ClassWF_extends h2 hx⟩
  · intro i io hio
    obtain ⟨h1, h2⟩ := hsi i io hio
    exact ⟨h1, fun m w hm => ValWF_extends (h2 m w hm) hx⟩

theorem StoreWF_alloc_sever {h : Heap} {f f2 : HFrame} (hs : StoreWF h)
    (hf2 : ∀ n v, (n, v) ∈ f2.values → ValWF h v)
    (hf : ∀ n v, (n, v) ∈ f.values → ValWF h v) :
    StoreWF (((h.allocFrame f).1).setFrame h.frames.length f2) := by
  have hx : HeapExtends h (((h.allocFrame f).1).setFrame h.frames.length f2) :=
    extends_setFrame_of_le f2 (extends_allocFrame h f) (le_refl _)
  obtain ⟨hsf, hsc, hsi⟩ := hs
  refine ⟨?_, ?_, ?_⟩
  · intro i fr' hf' m w hm
    rcases get?_set_cases (show ((h.frames ++ [f]).set h.frames.length f2).get?
        i = some fr' from hf') with ⟨hi, hfr⟩ | hold
    · subst hfr
      exact ValWF_extends (hf2 m w hm) hx
    · rcases get?_append_singleton hold with hold2 | ⟨hi2, hfr2⟩
      · exact ValWF_extends (hsf i fr' hold2 m w hm) hx
      · subst hfr2
        exact ValWF_extends (hf m w hm) hx
  · intro i c hc
    obtain ⟨h1, h2⟩ := hsc i c hc
    exact ⟨h1, ClassWF_extends h2 hx⟩
  · intro i io hio
    obtain ⟨h1, h2⟩ := hsi i io hio
    exact ⟨h1, fun m w hm => ValWF_extends (h2 m w hm) hx⟩

theorem StoreWF_allocInst {h : Heap} {o : InstObj} (hs : StoreWF h)
    (hk : o.kclass < h.classes.length)
    (hfld : ∀ n v, (n, v) ∈ o.fields → ValWF h v) :
    StoreWF (h.allocInst o).1 := by
  have hx := extends_allocInst h o
  obtain ⟨hsf, hsc, hsi⟩ := hs
  refine ⟨?_, ?_, ?_⟩
  · intro i fr' hf' m w hm
    exact ValWF_extends (hsf i fr' hf' m w hm) hx
  · intro i c hc
    obtain ⟨h1, h2⟩ := hsc i c hc
    exact ⟨h1, ClassWF_extends h2 hx⟩
  · intro i io hio
    rcases get?_append_singleton (show (h.instances ++ [o]).get? i = some io
        from hio) with hold | ⟨hi, hoeq⟩
    · obtain ⟨h1, h2⟩ := hsi i io hold
      exact ⟨h1, fun m w hm => ValWF_extends (h2 m w hm) hx⟩
    · subst hoeq
      exact ⟨hk, fun m w hm => ValWF_extends (hfld m w hm) hx⟩

theorem StoreWF_setInst {h : Heap} {i : InstId} {o : InstObj} (hs : StoreWF h)
    (hk : o.kclass < h.classes.length)
    (hfld : ∀ n v, (n, v) ∈ o.fields → ValWF h v) :
    StoreWF (h.setInst i o) := by
  have hx := extends_setInst h i o
  obtain ⟨hsf, hsc, hsi⟩ := hs
  refine ⟨?_, ?_, ?_⟩
  · intro j fr' hf' m w hm
    exact ValWF_extends (hsf j fr' hf' m w hm) hx
  · intro j c hc
    obtain ⟨h1, h2⟩ := hsc j c hc
    exact ⟨h1, ClassWF_extends h2 hx⟩
  · intro j io hio
    rcases get?_set_cases (show (h.instances.set i o).get? j = some io
        from hio) with ⟨hij, hoeq⟩ | hold
    · subst hoeq
      exact ⟨hk, fun m w hm => ValWF_extends (hfld m w hm) hx⟩
    · obtain ⟨h1, h2⟩ := hsi j io hold
      exact ⟨h1, fun m w hm => ValWF_extends (h2 m w hm) hx⟩

theorem StoreWF_allocClass {h : Heap} {c : ClassObj} (hs : StoreWF h)
    (hsup : ∀ sc, c.super_class = some sc → sc < h.classes.length)
    (hm : c.super_class = none →
      ∀ mn fn env b, (mn, (fn, env, b)) ∈ c.methods → MethodWF h fn env) :
    StoreWF (h.allocClass c).1 := by
  have hx := extends_allocClass h c
  have hL : (h.allocClass c).1.classes.length = h.classes.length + 1 := by
    show (h.classes ++ [c]).length = h.classes.length + 1
    simp
  obtain ⟨hsf, hsc, hsi⟩ := hs
  refine ⟨?_, ?_, ?_⟩
  · intro i fr' hf' m w hmm
    exact ValWF_extends (hsf i fr' hf' m w hmm) hx
  · intro i c0 hc0
    rcases get?_append_singleton (show (h.classes ++ [c]).get? i = some c0
        from hc0) with hold | ⟨hi, hceq⟩
    · obtain ⟨h1, h2⟩ := hsc i c0 hold
      refine ⟨?_, ClassWF_extends h2 hx⟩
      cases hsup' : c0.super_class with
      | none => rfl
      | some sc =>
          rw [hsup'] at h1
          have h1' : decide (sc < h.classes.length) = true := h1
          have hsclt := of_decide_eq_true h1'
          show decide (sc < (h.allocClass c).1.classes.length) = true
          exact decide_eq_true (by rw [hL]; exact Nat.lt_succ_of_lt hsclt)
    · subst hi
      rw [hceq]
      refine ⟨?_, ?_, ?_⟩
      · cases hsup' : c.super_class with
        | none => rfl
        | some sc =>
            have hsclt := hsup sc hsup'
            show decide (sc < (h.allocClass c).1.classes.length) = true
            exact decide_eq_true (by rw [hL]; exact Nat.lt_succ_of_lt hsclt)
      · intro sc hsc2
        exact hsup sc hsc2
      · intro hnone mn fn env b hmem
        exact MethodWF_extends (hm hnone mn fn env b hmem) hx
  · intro i io hio
    obtain ⟨h1, h2⟩ := hsi i io hio
    refine ⟨?_, fun m w hmm => ValWF_extends (h2 m w hmm) hx⟩
    rw [hL]
    exact Nat.lt_succ_of_lt h1

theorem Corresponds_ctxDefine {h : Heap} {e : EnvId} {Γ : Ctx} {n : String}
    (v : HVal) (hc : Corresponds h e Γ) :
    Corresponds (h.defineAt e n v) e (ctxDefine Γ n) := by
  cases Γ with
  | nil => trivial
  | cons sc rest =>
      obtain ⟨fr, hfr, hdom, enc, henc, hrest⟩ := hc
      have hD : h.defineAt e n v =
          h.setFrame e { fr with values := alistInsert fr.values n v } := by
        unfold Heap.defineAt
        rw [hfr]
      have hx := extends_defineAt h e n v
      rw [hD] at hx ⊢
      refine ⟨{ fr with values := alistInsert fr.values n v }, ?_, ?_,
        enc, henc, Corresponds_extends hrest hx⟩
      · exact list_get?_set_self _ _ _ (frame_some_lt hfr)
      · intro m hm
        rw [alistGet_insert] at hm
        by_cases hmn : n = m
        · rw [alistGet_insert, if_pos hmn]
          rfl
        · rw [if_neg hmn] at hm
          rw [alistGet_insert, if_neg hmn]
          exact hdom m hm

theorem Corresponds_declCtx {h : Heap} {e : EnvId} {Γ : Ctx} {n : String}
    (hc : Corresponds h e Γ) : Corresponds h e (declCtx Γ n) := by
  cases Γ with
  | nil => trivial
  | cons sc rest =>
      obtain ⟨fr, hfr, hdom, enc, henc, hrest⟩ := hc
      refine ⟨fr, hfr, ?_, enc, henc, hrest⟩
      intro m hm
      by_cases hnm : n = m
      · rw [show alistGet ((n, false) :: sc) m =
            if n = m then some false else alistGet sc m from rfl,
          if_pos hnm] at hm
        simp at hm
      · rw [show alistGet ((n, false) :: sc) m =
            if n = m then some false else alistGet sc m from rfl,
          if_neg hnm] at hm
        exact hdom m hm

theorem Corresponds_defineAt_of_declCtx {h : Heap} {e : EnvId} {Γ : Ctx}
    {n : String} (v : HVal) (hc : Corresponds h e (declCtx Γ n)) :
    Corresponds (h.defineAt e n v) e (ctxDefine Γ n) := by
  cases Γ with
  | nil => trivial
  | cons sc rest =>
      obtain ⟨fr, hfr, hdom, enc, henc, hrest⟩ := hc
      have hD : h.defineAt e n v =
          h.setFrame e { fr with values := alistInsert fr.values n v } := by
        unfold Heap.defineAt
        rw [hfr]
      have hx := extends_defineAt h e n v
      rw [hD] at hx ⊢
      refine ⟨{ fr with values := alistInsert fr.values n v }, ?_, ?_,
        enc, henc, Corresponds_extends hrest hx⟩
      · exact list_get?_set_self _ _ _ (frame_some_lt hfr)
      · intro m hm
        rw [alistGet_insert] at hm
        by_cases hmn : n = m
        · rw [alistGet_insert, if_pos hmn]
          rfl
        · rw [if_neg hmn] at hm
          rw [alistGet_insert, if_neg hmn]
          refine hdom m ?_
          rw [show alistGet ((n, false) :: sc) m =
            if n = m then some false else alistGet sc m from rfl, if_neg hmn]
          exact hm

theorem heap_hops_walk {h : Heap} :
    ∀ (Γ : Ctx) (e : EnvId) (d : Nat), Corresponds h e Γ → d < Γ.length →
      ∃ i fr, Heap.hops h e d = some i ∧ h.frame i = some fr ∧
        scopeDom (Γ.getD d []) fr.values := by
  intro Γ
  induction Γ with
  | nil =>
      intro e d _ hd
      simp at hd
  | cons sc rest ih =>
      intro e d hc hd
      obtain ⟨fr, hfr, hdom, enc, henc, hrest⟩ := hc
      cases d with
      | zero => exact ⟨e, fr, rfl, hfr, hdom⟩
      | succ d =>
          have hstep : Heap.hops h e (d + 1) = Heap.hops h enc d := by
            simp only [Heap.hops, hfr, henc]
          rw [hstep]
          exact ih enc d hrest (by simpa using Nat.lt_of_succ_lt_succ hd)

theorem heap_env_at_depth_eq_hops (h : Heap) (e : EnvId) (d : Nat) :
    Heap.env_at_depth h e d = Heap.hops h e d := by
  cases d with
  | zero => simp [Heap.env_at_depth, Heap.hops]
  | succ d =>
      simp only [Heap.env_at_depth, Heap.ancestor, Heap.hops,
        Nat.succ_ne_zero, if_false]
      cases hf : h.frame e with
      | none => simp [hf]
      | some fr =>
          cases he : fr.enclosing with
          | none => simp [hf, he]
          | some t => simp [hf, he]

theorem rld_lt {n : String} :
    ∀ (Γ : Ctx) (d : Nat), rld n Γ = some d → d < Γ.length := by
  intro Γ
  induction Γ with
  | nil =>
      intro d hd
      simp [rld, Resolver.resolve_local_depth_aux] at hd
  | cons sc rest ih =>
      intro d hd
      by_cases hc : alistContains sc n
      · simp only [rld, Resolver.resolve_local_depth_aux, if_pos hc] at hd
        cases hd
        simp
  
      · simp only [rld, Resolver.resolve_local_depth_aux, if_neg hc] at hd
        cases hr : Resolver.resolve_local_depth_aux n rest with
        | none => rw [hr] at hd; simp at hd
        | some d' =>
            rw [hr] at hd
            simp only [Option.map_some'] at hd
            cases hd
            have := ih d' hr
            simp
            omega

theorem rld_getD {n : String} :
    ∀ (Γ : Ctx) (d : Nat), rld n Γ = some d → FoundTrue n Γ →
      alistGet (Γ.getD d []) n = some true := by
  intro Γ
  induction Γ with
  | nil =>
      intro d hd _
      simp [rld, Resolver.resolve_local_depth_aux] at hd
  | cons sc rest ih =>
      intro d hd hf
      by_cases hc : alistContains sc n
      · simp only [rld, Resolver.resolve_local_depth_aux, if_pos hc] at hd
        cases hd
        unfold alistContains at hc
        cases hg : alistGet sc n with
        | none =>
            rw [hg] at hc
            simp at hc
        | some b =>
            have hb : b = true := by
              simp only [FoundTrue, hg] at hf
              exact hf
            subst hb
            exact hg
      · simp only [rld, Resolver.resolve_local_depth_aux, if_neg hc] at hd
        cases hr : Resolver.resolve_local_depth_aux n rest with
        | none => rw [hr] at hd; simp at hd
        | some d' =>
            rw [hr] at hd
            simp only [Option.map_some'] at hd
            cases hd
            have hg : alistGet sc n = none := by
              unfold alistContains at hc
              cases hg2 : alistGet sc n
              · rfl
              · rw [hg2] at hc
                simp at hc
            have hfrest : FoundTrue n rest := by
              simp only [FoundTrue, hg] at hf
              exact hf
            exact ih d' hr hfrest

theorem corresponds_get_at {h : Heap} {e : EnvId} {Γ : Ctx} {n : String}
    {d : Nat} (hc : Corresponds h e Γ) (hd : rld n Γ = some d)
    (hf : FoundTrue n Γ) : ∃ v, Heap.get_at h e n d = some v := by
  have hlt := rld_lt Γ d hd
  have hget := rld_getD Γ d hd hf
  obtain ⟨i, fr, hhops, hfr, hdom⟩ := heap_hops_walk Γ e d hc hlt
  have hsome := hdom n hget
  obtain ⟨v, hv⟩ := Option.isSome_iff_exists.mp hsome
  refine ⟨v, ?_⟩
  unfold Heap.get_at
  rw [heap_env_at_depth_eq_hops, hhops, Option.some_bind, hfr,
    Option.some_bind]
  exact hv

theorem corresponds_env_at_depth {h : Heap} {e : EnvId} {Γ : Ctx} {d : Nat}
    (hc : Corresponds h e Γ) (hd : d < Γ.length) :
    ∃ i, Heap.env_at_depth h e d = some i := by
  obtain ⟨i, fr, hhops, _, _⟩ := heap_hops_walk Γ e d hc hd
  refine ⟨i, ?_⟩
  rw [heap_env_at_depth_eq_hops]
  exact hhops

theorem get_at_ValWF {h : Heap} {e : EnvId} {n : String} {d : Nat} {v : HVal}
    (hs : StoreWF h) (hg : Heap.get_at h e n d = some v) : ValWF h v := by
  unfold Heap.get_at at hg
  cases hm : Heap.env_at_depth h e d with
  | none =>
      rw [hm] at hg
      simp at hg
  | some i =>
      rw [hm, Option.some_bind] at hg
      cases hfr : h.frame i with
      | none =>
          rw [hfr] at hg
          simp at hg
      | some fr =>
          rw [hfr, Option.some_bind] at hg
          exact hs.1 i fr hfr n v (alistGet_mem hg)

theorem assign_at_facts {h : Heap} {e : EnvId} {n : String} {v : HVal}
    {d : Nat} {h' : Heap} (hs : StoreWF h) (hv : ValWF h v)
    (ha : Heap.assign_at h e n v d = some h') :
    StoreWF h' ∧ HeapExtends h h' := by
  unfold Heap.assign_at at ha
  cases hm : Heap.env_at_depth h e d with
  | none =>
      rw [hm] at ha
      simp at ha
  | some i =>
      rw [hm] at ha
      simp only [Option.map_some'] at ha
      cases ha
      have hx := extends_defineAt h i n v
      exact ⟨StoreWF_defineAt hs (ValWF_extends hv hx), hx⟩

theorem getByName_go_ValWF {h : Heap} {n : String} (hs : StoreWF h) :
    ∀ (fuel : Nat) (i : EnvId) (v : HVal),
      Heap.getByName.go h n fuel i = Except.ok v → ValWF h v := by
  intro fuel
  induction fuel with
  | zero =>
      intro i v hg
      simp [Heap.getByName.go] at hg
  | succ fuel ih =>
      intro i v hg
      simp only [Heap.getByName.go] at hg
      split at hg
      · simp at hg
      · rename_i fr hfr
        split at hg
        · rename_i v0 hv0
          cases hg
          exact hs.1 i fr hfr n _ (alistGet_mem hv0)
        · rename_i hv0
          split at hg
          · simp at hg
          · rename_i enc henc
            exact ih enc v hg

theorem getByName_ok_ValWF {h : Heap} {e : EnvId} {n : String} {v : HVal}
    (hs : StoreWF h) (hg : Heap.getByName h e n = Except.ok v) : ValWF h v := by
  unfold Heap.getByName at hg
  exact getByName_go_ValWF hs _ _ _ hg

theorem assignByName_go_facts {h : Heap} {n : String} {v : HVal}
    (hs : StoreWF h) (hv : ValWF h v) :
    ∀ (fuel : Nat) (i : EnvId) (h' : Heap),
      Heap.assignByName.go h n v fuel i = Except.ok h' →
      StoreWF h' ∧ HeapExtends h h' := by
  intro fuel
  induction fuel with
  | zero =>
      intro i h' hg
      simp [Heap.assignByName.go] at hg
  | succ fuel ih =>
      intro i h' hg
      simp only [Heap.assignByName.go] at hg
      split at hg
      · simp at hg
      · rename_i fr hfr
        split at hg
        · cases hg
          have hD : h.setFrame i { fr with values := alistInsert fr.values n v }
              = h.defineAt i n v := by
            unfold Heap.defineAt
            rw [hfr]
          rw [hD]
          have hx := extends_defineAt h i n v
          exact ⟨StoreWF_defineAt hs (ValWF_extends hv hx), hx⟩
        · split at hg
          · simp at hg
          · rename_i henc
            exact ih _ _ hg

theorem assignByName_ok_facts {h : Heap} {e : EnvId} {n : String} {v : HVal}
    {h' : Heap} (hs : StoreWF h) (hv : ValWF h v)
    (hg : Heap.assignByName h e n v = Except.ok h') :
    StoreWF h' ∧ HeapExtends h h' := by
  unfold Heap.assignByName at hg
  exact assignByName_go_facts hs hv _ _ _ hg

theorem find_method_go_MethodWF {h : Heap} {m : String} (hs : StoreWF h) :
    ∀ (fuel : Nat) (i : ClassId) (fn : Fun) (env : EnvId) (b : Bool),
      Heap.find_method.go h m fuel i = some (fn, env, b) → MethodWF h fn env := by
  intro fuel
  induction fuel with
  | zero =>
      intro i fn env b hg
      simp [Heap.find_method.go] at hg
  | succ fuel ih =>
      intro i fn env b hg
      simp only [Heap.find_method.go] at hg
      split at hg
      · simp at hg
      · rename_i co hco
        split at hg
        · rename_i sc hsc
          exact ih _ _ _ _ hg
        · rename_i hnone
          exact ((hs.2.1 i co hco).2).2 hnone m fn env b (alistGet_mem hg)

theorem find_method_MethodWF {h : Heap} {c : ClassId} {m : String} {fn : Fun}
    {env : EnvId} {b : Bool} (hs : StoreWF h)
    (hg : Heap.find_method h c m = some (fn, env, b)) : MethodWF h fn env := by
  unfold Heap.find_method at hg
  exact find_method_go_MethodWF hs _ _ _ _ _ hg

theorem find_go_mono {h : Heap} {m : String} (hs : StoreWF h) :
    ∀ (i : Nat), i < h.classes.length →
      ∀ (f1 f2 : Nat), i < f1 → i < f2 →
        Heap.find_method.go h m f1 i = Heap.find_method.go h m f2 i := by
  intro i
  induction i using Nat.strong_induction_on with
  | _ i ih =>
      intro hi f1 f2 h1 h2
      cases f1 with
      | zero => omega
      | succ f1 =>
          cases f2 with
          | zero => omega
          | succ f2 =>
              simp only [Heap.find_method.go]
              cases hco : h.classObj i with
              | none => simp [hco]
              | some co =>
                  cases hsc : co.super_class with
                  | some sc =>
                      have hsclt : (sc : Nat) < (i : Nat) :=
                        ((hs.2.1 i co hco).2).1 sc hsc
                      simp only [hco, hsc]
                      exact ih sc hsclt (lt_trans hsclt hi) f1 f2
                        (Nat.lt_of_lt_of_le hsclt (Nat.lt_succ_iff.mp h1))
                        (Nat.lt_of_lt_of_le hsclt (Nat.lt_succ_iff.mp h2))
                  | none => simp [hco, hsc]

theorem find_go_congr {h h' : Heap} {m : String} (hs : StoreWF h)
    (hcong : ∀ j, j < h.classes.length → h'.classObj j = h.classObj j) :
    ∀ (fuel : Nat) (i : Nat), i < h.classes.length →
      Heap.find_method.go h' m fuel i = Heap.find_method.go h m fuel i := by
  intro fuel
  induction fuel with
  | zero =>
      intro i hi
      rfl
  | succ fuel ih =>
      intro i hi
      simp only [Heap.find_method.go]
      rw [hcong i hi]
      cases hco : h.classObj i with
      | none => simp [hco]
      | some co =>
          cases hsc : co.super_class with
          | some sc =>
              have hsclt : (sc : Nat) < (i : Nat) :=
                ((hs.2.1 i co hco).2).1 sc hsc
              simp only [hco, hsc]
              exact ih sc (lt_trans hsclt hi)
          | none => simp [hco, hsc]

theorem find_method_stable {h h' : Heap} {c : ClassId} {m : String}
    (hs : StoreWF h) (hs' : StoreWF h')
    (hcong : ∀ j, j < h.classes.length → h'.classObj j = h.classObj j)
    (hlen : h.classes.length ≤ h'.classes.length)
    (hc : c < h.classes.length) :
    Heap.find_method h' c m = Heap.find_method h c m := by
  unfold Heap.find_method
  have h1 : Heap.find_method.go h' m (h'.classes.length + 1) c
      = Heap.find_method.go h' m (c + 1) c :=
    find_go_mono hs' c (lt_of_lt_of_le hc hlen) (h'.classes.length + 1)
      (c + 1) (Nat.lt_succ_of_lt (lt_of_lt_of_le hc hlen)) (Nat.lt_succ_self c)
  have h2 : Heap.find_method.go h m (h.classes.length + 1) c
      = Heap.find_method.go h m (c + 1) c :=
    find_go_mono hs c hc (h.classes.length + 1) (c + 1)
      (Nat.lt_succ_of_lt hc) (Nat.lt_succ_self c)
  rw [h1, h2]
  exact find_go_congr hs hcong _ c hc

theorem arityH_stable {h h' : Heap} {v : HVal} (hs : StoreWF h)
    (hs' : StoreWF h') (hx : HeapExtends h h') (hv : ValWF h v) :
    arityH h' v = arityH h v := by
  cases v with
  | hClass cid =>
      have hc : cid < h.classes.length := hv
      simp only [arityH]
      rw [find_method_stable hs hs' hx.2.1 hx.2.2.1 hc]
  | hClock => rfl
  | hFun fn c b => rfl
  | hNil => rfl
  | hBool b => rfl
  | hNum q => rfl
  | hStr s => rfl
  | hInstance i => rfl

theorem scopeDom_thisScope (v : HVal) :
    scopeDom thisScope [("this", v)] := by
  intro n hn
  simp only [thisScope] at hn
  by_cases h : "this" = n
  · simp [alistGet, h]
  · rw [show alistGet [("this", true)] n =
        if "this" = n then some true else alistGet ([] : List (String × Bool)) n
        from rfl, if_neg h] at hn
    simp [alistGet] at hn

/-! ## Resolver bookkeeping: proofs of the P-properties. -/

theorem ctxDefine_tail (Γ : Ctx) (n : String) : (ctxDefine Γ n).tail = Γ.tail := by
  cases Γ <;> rfl

theorem ctxDefine_length (Γ : Ctx) (n : String) :
    (ctxDefine Γ n).length = Γ.length := by
  cases Γ with
  | nil => rfl
  | cons sc rest => simp [ctxDefine, alistInsert]

theorem declare_define_eq (scs : Ctx) (cs0 : List ClassData)
    (cf0 : Option FunctionType) (cc0 : Option ClassType) (errs0 : Nat)
    (n : Token) :
    ∃ k, Resolver.define (Resolver.declare ⟨scs, cs0, cf0, cc0, errs0⟩ n) n =
      ⟨ctxDefine scs n.lexeme, cs0, cf0, cc0, errs0 + k⟩ := by
  cases scs with
  | nil => exact ⟨0, rfl⟩
  | cons sc rest =>
      cases hc : alistContains sc n.lexeme with
      | true =>
          refine ⟨1, ?_⟩
          simp only [Resolver.declare, Resolver.define, Resolver.rerror,
            ctxDefine, hc, if_true]
      | false =>
          refine ⟨0, ?_⟩
          simp only [Resolver.declare, Resolver.define, ctxDefine, hc,
            Bool.false_eq_true, if_false]
          rw [alistInsert_cons_self]
          rfl

theorem PAll_zero : PAll 0 := by
  refine ⟨?_, ?_, ?_, ?_, ?_, ?_, ?_⟩
  · intro st e
    exact ⟨1, rfl⟩
  · intro st es
    exact ⟨1, rfl⟩
  · intro st s
    refine ⟨Nat.le_succ _, ⟨rfl, rfl, rfl⟩, ⟨rfl, rfl⟩, ?_⟩
    intro heq
    simp only [Resolver.resolve_stmt, Resolver.rerror] at heq
    omega
  · intro st l
    refine ⟨Nat.le_succ _, ⟨rfl, rfl, rfl⟩, ⟨rfl, rfl⟩, ?_⟩
    intro heq
    simp only [Resolver.resolve_stmts, Resolver.rerror] at heq
    omega
  · intro st fn ft
    obtain ⟨nm, ps, body⟩ := fn
    exact ⟨⟨1, rfl⟩, body, rfl⟩
  · intro st sc ms
    exact ⟨1, st.class_scopes, rfl, rfl⟩
  · intro st ms
    exact ⟨1, st.class_scopes, rfl, rfl⟩

theorem PExpr_step (f : Nat) (ih : PAll f) : PExpr (f + 1) := by
  obtain ⟨ihE, ihEs, _, _, _, _, _⟩ := ih
  intro st e
  cases e with
  | Litral l => exact ⟨0, rfl⟩
  | Variable name d =>
      obtain ⟨scs, cs0, cf0, cc0, errs0⟩ := st
      cases scs with
      | nil => exact ⟨0, rfl⟩
      | cons sc rest =>
          simp only [Resolver.resolve_expr]
          by_cases hck : alistGet sc name.lexeme = some false
          · rw [if_pos hck]
            exact ⟨1, rfl⟩
          · rw [if_neg hck]
            exact ⟨0, rfl⟩
  | Super keyword method d =>
      obtain ⟨scs, cs0, cf0, cc0, errs0⟩ := st
      cases cc0 with
      | none => exact ⟨1, rfl⟩
      | some ct =>
          cases ct with
          | Class => exact ⟨1, rfl⟩
          | SubClass => exact ⟨0, rfl⟩
  | This keyword d =>
      obtain ⟨scs, cs0, cf0, cc0, errs0⟩ := st
      cases cc0 with
      | none => exact ⟨1, rfl⟩
      | some ct => exact ⟨0, rfl⟩
  | Assign name d value =>
      simp only [Resolver.resolve_expr]
      rcases hx : Resolver.resolve_expr f st value with ⟨v1, st1⟩
      obtain ⟨k1, h1⟩ := ihE st value
      rw [hx] at h1
      simp only [hx]
      exact ⟨k1, h1⟩
  | Unary op r =>
      simp only [Resolver.resolve_expr]
      rcases hx : Resolver.resolve_expr f st r with ⟨r1, st1⟩
      obtain ⟨k1, h1⟩ := ihE st r
      rw [hx] at h1
      simp only [hx]
      exact ⟨k1, h1⟩
  | Binary l op r =>
      simp only [Resolver.resolve_expr]
      rcases hx1 : Resolver.resolve_expr f st l with ⟨l1, st1⟩
      obtain ⟨k1, h1⟩ := ihE st l
      rw [hx1] at h1
      simp only at h1
      rcases hx2 : Resolver.resolve_expr f st1 r with ⟨r1, st2⟩
      obtain ⟨k2, h2⟩ := ihE st1 r
      rw [hx2] at h2
      simp only at h2
      simp only [hx1, hx2]
      refine ⟨k1 + k2, ?_⟩
      rw [h2, h1]
      show ({ st with num_of_resolver_errs :=
        (st.num_of_resolver_errs + k1) + k2 } : RState) = _
      rw [Nat.add_assoc]
  | Logical l op r =>
      simp only [Resolver.resolve_expr]
      rcases hx1 : Resolver.resolve_expr f st l with ⟨l1, st1⟩
      obtain ⟨k1, h1⟩ := ihE st l
      rw [hx1] at h1
      simp only at h1
      rcases hx2 : Resolver.resolve_expr f st1 r with ⟨r1, st2⟩
      obtain ⟨k2, h2⟩ := ihE st1 r
      rw [hx2] at h2
      simp only at h2
      simp only [hx1, hx2]
      refine ⟨k1 + k2, ?_⟩
      rw [h2, h1]
      show ({ st with num_of_resolver_errs :=
        (st.num_of_resolver_errs + k1) + k2 } : RState) = _
      rw [Nat.add_assoc]
  | Grouping e1 =>
      simp only [Resolver.resolve_expr]
      rcases hx : Resolver.resolve_expr f st e1 with ⟨g1, st1⟩
      obtain ⟨k1, h1⟩ := ihE st e1
      rw [hx] at h1
      simp only [hx]
      exact ⟨k1, h1⟩
  | Call callee paran args =>
      simp only [Resolver.resolve_expr]
      rcases hx1 : Resolver.resolve_expr f st callee with ⟨c1, st1⟩
      obtain ⟨k1, h1⟩ := ihE st callee
      rw [hx1] at h1
      simp only at h1
      rcases hx2 : Resolver.resolve_exprs f st1 args with ⟨args1, st2⟩
      obtain ⟨k2, h2⟩ := ihEs st1 args
      rw [hx2] at h2
      simp only at h2
      simp only [hx1, hx2]
      refine ⟨k1 + k2, ?_⟩
      rw [h2, h1]
      show ({ st with num_of_resolver_errs :=
        (st.num_of_resolver_errs + k1) + k2 } : RState) = _
      rw [Nat.add_assoc]
  | Get object name =>
      simp only [Resolver.resolve_expr]
      rcases hx : Resolver.resolve_expr f st object with ⟨o1, st1⟩
      obtain ⟨k1, h1⟩ := ihE st object
      rw [hx] at h1
      simp only [hx]
      exact ⟨k1, h1⟩
  | Set object name value =>
      simp only [Resolver.resolve_expr]
      rcases hx1 : Resolver.resolve_expr f st object with ⟨o1, st1⟩
      obtain ⟨k1, h1⟩ := ihE st object
      rw [hx1] at h1
      simp only at h1
      rcases hx2 : Resolver.resolve_expr f st1 value with ⟨v1, st2⟩
      obtain ⟨k2, h2⟩ := ihE st1 value
      rw [hx2] at h2
      simp only at h2
      simp only [hx1, hx2]
      refine ⟨k1 + k2, ?_⟩
      rw [h2, h1]
      show ({ st with num_of_resolver_errs :=
        (st.num_of_resolver_errs + k1) + k2 } : RState) = _
      rw [Nat.add_assoc]

theorem PExprs_step (f : Nat) (ih : PAll f) : PExprs (f + 1) := by
  obtain ⟨ihE, ihEs, _, _, _, _, _⟩ := ih
  intro st es
  cases es with
  | nil => exact ⟨0, rfl⟩
  | cons e rest =>
      simp only [Resolver.resolve_exprs]
      rcases hx1 : Resolver.resolve_expr f st e with ⟨e1, st1⟩
      obtain ⟨k1, h1⟩ := ihE st e
      rw [hx1] at h1
      simp only at h1
      rcases hx2 : Resolver.resolve_exprs f st1 rest with ⟨rest1, st2⟩
      obtain ⟨k2, h2⟩ := ihEs st1 rest
      rw [hx2] at h2
      simp only at h2
      simp only [hx1, hx2]
      refine ⟨k1 + k2, ?_⟩
      rw [h2, h1]
      show ({ st with num_of_resolver_errs :=
        (st.num_of_resolver_errs + k1) + k2 } : RState) = _
      rw [Nat.add_assoc]

theorem cons_of_tail_len {α : Type} {l t : List α} (ht : l.tail = t)
    (hl : l.length = t.length + 1) : ∃ hd, l = hd :: t := by
  cases l with
  | nil =>
      exfalso
      rw [show (([] : List α)).length = 0 from rfl] at hl
      omega
  | cons hd rest =>
      simp only [List.tail_cons] at ht
      exact ⟨hd, by rw [ht]⟩

theorem fold_params_eq (params : List Token) :
    ∀ (sc : List (String × Bool)) (rest : Ctx) (cs0 : List ClassData)
      (cf0 : Option FunctionType) (cc0 : Option ClassType) (errs0 : Nat),
      ∃ k, (params.foldl (fun acc p => Resolver.define (Resolver.declare acc p) p)
          ⟨sc :: rest, cs0, cf0, cc0, errs0⟩) =
        ⟨bindParams sc params :: rest, cs0, cf0, cc0, errs0 + k⟩ := by
  induction params with
  | nil =>
      intro sc rest cs0 cf0 cc0 errs0
      exact ⟨0, rfl⟩
  | cons p ps ih =>
      intro sc rest cs0 cf0 cc0 errs0
      rw [List.foldl_cons]
      obtain ⟨k1, h1⟩ := declare_define_eq (sc :: rest) cs0 cf0 cc0 errs0 p
      rw [h1]
      have hred : (ctxDefine (sc :: rest) p.lexeme) =
          alistInsert sc p.lexeme true :: rest := rfl
      rw [hred]
      obtain ⟨k2, h2⟩ := ih (alistInsert sc p.lexeme true) rest cs0 cf0 cc0
        (errs0 + k1)
      rw [h2]
      refine ⟨k1 + k2, ?_⟩
      rw [show bindParams sc (p :: ps) =
        bindParams (alistInsert sc p.lexeme true) ps from rfl]
      rw [Nat.add_assoc]

theorem define_method_eq (st : RState) (n : Token) :
    ∃ k cs2, Resolver.define_method st n =
      { st with num_of_resolver_errs := st.num_of_resolver_errs + k,
                class_scopes := cs2 } ∧
      cs2.tail = st.class_scopes.tail := by
  obtain ⟨scs, cs0, cf0, cc0, errs0⟩ := st
  cases cs0 with
  | nil => exact ⟨0, [], rfl, rfl⟩
  | cons cd rest =>
      cases hc : alistContains cd.methods n.lexeme with
      | true =>
          refine ⟨1, cd :: rest, ?_, rfl⟩
          simp only [Resolver.define_method, Resolver.rerror, hc, if_true]
      | false =>
          refine ⟨0, { cd with methods := (n.lexeme, true) :: cd.methods } :: rest,
            ?_, rfl⟩
          simp only [Resolver.define_method, hc, Bool.false_eq_true, if_false]
          rfl

theorem PFun_step (f : Nat) (ih : PAll f) : PFun (f + 1) := by
  obtain ⟨_, _, _, ihSs, _, _, _⟩ := ih
  intro st fn ft
  obtain ⟨scs, cs0, cf0, cc0, errs0⟩ := st
  obtain ⟨nm, ps, body⟩ := fn
  simp only [Resolver.resolve_function, Resolver.begin_scope]
  obtain ⟨k1, h1⟩ := fold_params_eq ps [] scs cs0 (some ft) cc0 errs0
  rw [h1]
  rcases hx : Resolver.resolve_stmts f
      ⟨bindParams [] ps :: scs, cs0, some ft, cc0, errs0 + k1⟩ body
      with ⟨body1, st3⟩
  have hP := ihSs ⟨bindParams [] ps :: scs, cs0, some ft, cc0, errs0 + k1⟩ body
  rw [hx] at hP
  simp only at hP
  obtain ⟨hmono, ⟨hcs, hcf, hcc⟩, ⟨htail, hlen⟩, _⟩ := hP
  obtain ⟨s3, c3, f3, k3c, e3⟩ := st3
  simp only at hmono hcs hcf hcc htail hlen
  subst hcs
  subst hcf
  subst hcc
  obtain ⟨hd, hhd⟩ := cons_of_tail_len htail (by
    rw [hlen]
    rfl)
  subst hhd
  refine ⟨⟨e3 - errs0, ?_⟩, body1, rfl⟩
  simp only [Resolver.end_scope]
  have he3 : e3 = errs0 + (e3 - errs0) := by omega
  rw [← he3]
  rfl

theorem PMList_step (f : Nat) (ih : PAll f) : PMList (f + 1) := by
  obtain ⟨_, _, _, _, ihF, _, ihML⟩ := ih
  intro st ms
  cases ms with
  | nil => exact ⟨0, st.class_scopes, rfl, rfl⟩
  | cons m rest =>
      simp only [Resolver.resolve_method_list]
      obtain ⟨k1, cs1, h1, ht1⟩ := define_method_eq st m.name
      rw [h1]
      rcases hx2 : Resolver.resolve_function f
          { st with num_of_resolver_errs := st.num_of_resolver_errs + k1,
                    class_scopes := cs1 } m
          (if m.name.lexeme = "init" then FunctionType.Initializer
           else FunctionType.Method) with ⟨m1, st2⟩
      have hF := ihF { st with num_of_resolver_errs :=
          st.num_of_resolver_errs + k1, class_scopes := cs1 } m
        (if m.name.lexeme = "init" then FunctionType.Initializer
         else FunctionType.Method)
      rw [hx2] at hF
      simp only at hF
      obtain ⟨⟨k2, h2⟩, _⟩ := hF
      rw [h2]
      rcases hx3 : Resolver.resolve_method_list f
          { st with num_of_resolver_errs := st.num_of_resolver_errs + k1 + k2,
                    class_scopes := cs1 } rest with ⟨rest1, st3⟩
      have hM := ihML { st with num_of_resolver_errs :=
          st.num_of_resolver_errs + k1 + k2, class_scopes := cs1 } rest
      rw [hx3] at hM
      simp only at hM
      obtain ⟨k3, cs3, h3, ht3⟩ := hM
      rw [h3]
      refine ⟨k1 + k2 + k3, cs3, ?_, ?_⟩
      · show ({ st with num_of_resolver_errs :=
          st.num_of_resolver_errs + k1 + k2 + k3, class_scopes := cs3 } : RState) = _
        rw [show st.num_of_resolver_errs + k1 + k2 + k3 =
          st.num_of_resolver_errs + (k1 + k2 + k3) by omega]
      · rw [ht3]
        exact ht1

theorem PMethods_step (f : Nat) (ih : PAll f) : PMethods (f + 1) := by
  obtain ⟨ihE, _, _, _, _, _, ihML⟩ := ih
  intro st sc ms
  obtain ⟨scs, cs0, cf0, cc0, errs0⟩ := st
  cases sc with
  | none =>
      simp only [Resolver.resolve_methods, Resolver.begin_scope,
        Resolver.insert_top]
      rcases hx : Resolver.resolve_method_list f
          ⟨alistInsert [] "this" true :: scs, cs0, cf0, some .Class, errs0⟩ ms
          with ⟨ms1, st4⟩
      have hM := ihML ⟨alistInsert [] "this" true :: scs, cs0, cf0,
        some .Class, errs0⟩ ms
      rw [hx] at hM
      simp only at hM
      obtain ⟨k1, cs2, h1, ht1⟩ := hM
      subst h1
      exact ⟨k1, cs2, rfl, ht1⟩
  | some scE =>
      simp only [Resolver.resolve_methods, Resolver.begin_scope,
        Resolver.insert_top]
      rcases hx1 : Resolver.resolve_expr f
          ⟨scs, cs0, cf0, some .SubClass, errs0⟩ scE with ⟨sc1, st1b⟩
      have hE := ihE ⟨scs, cs0, cf0, some .SubClass, errs0⟩ scE
      rw [hx1] at hE
      simp only at hE
      obtain ⟨k1, h1⟩ := hE
      subst h1
      dsimp only
      rcases hx2 : Resolver.resolve_method_list f
          ⟨alistInsert [] "this" true :: alistInsert [] "super" true :: scs,
            cs0, cf0, some .SubClass, errs0 + k1⟩ ms with ⟨ms1, st4⟩
      have hM := ihML ⟨alistInsert [] "this" true ::
          alistInsert [] "super" true :: scs,
        cs0, cf0, some .SubClass, errs0 + k1⟩ ms
      rw [hx2] at hM
      simp only at hM
      obtain ⟨k2, cs2, h2, ht2⟩ := hM
      subst h2
      refine ⟨k1 + k2, cs2, ?_, ht2⟩
      simp only [Resolver.end_scope]
      rw [show errs0 + k1 + k2 = errs0 + (k1 + k2) by omega]
      rfl
theorem PStmt_step (f : Nat) (ih : PAll f) : PStmt (f + 1) := by
  obtain ⟨ihE, ihEs, ihS, ihSs, ihF, ihM, ihML⟩ := ih
  intro st s
  cases s with
  | PrintStmt e =>
      simp only [Resolver.resolve_stmt]
      rcases hx : Resolver.resolve_expr f st e with ⟨e1, st1⟩
      have hE := ihE st e
      rw [hx] at hE
      simp only at hE
      obtain ⟨k1, h1⟩ := hE
      subst h1
      exact ⟨Nat.le_add_right _ _, ⟨rfl, rfl, rfl⟩, ⟨rfl, rfl⟩, fun _ => rfl⟩
  | ExpressionStmt e =>
      simp only [Resolver.resolve_stmt]
      rcases hx : Resolver.resolve_expr f st e with ⟨e1, st1⟩
      have hE := ihE st e
      rw [hx] at hE
      simp only at hE
      obtain ⟨k1, h1⟩ := hE
      subst h1
      exact ⟨Nat.le_add_right _ _, ⟨rfl, rfl, rfl⟩, ⟨rfl, rfl⟩, fun _ => rfl⟩
  | Return kw val =>
      obtain ⟨scs, cs0, cf0, cc0, errs0⟩ := st
      cases cf0 with
      | none =>
          simp only [Resolver.resolve_stmt]
          exact ⟨Nat.le_add_right _ _, ⟨rfl, rfl, rfl⟩, ⟨rfl, rfl⟩, fun _ => rfl⟩
      | some ft =>
          cases val with
          | none =>
              simp only [Resolver.resolve_stmt]
              exact ⟨le_refl _, ⟨rfl, rfl, rfl⟩, ⟨rfl, rfl⟩, fun _ => rfl⟩
          | some v =>
              by_cases hft : ft = FunctionType.Initializer
              · simp only [Resolver.resolve_stmt, if_pos hft]
                exact ⟨Nat.le_add_right _ _, ⟨rfl, rfl, rfl⟩, ⟨rfl, rfl⟩,
                  fun _ => rfl⟩
              · simp only [Resolver.resolve_stmt, if_neg hft]
                rcases hx : Resolver.resolve_expr f
                    ⟨scs, cs0, some ft, cc0, errs0⟩ v with ⟨v1, st1⟩
                have hE := ihE ⟨scs, cs0, some ft, cc0, errs0⟩ v
                rw [hx] at hE
                simp only at hE
                obtain ⟨k1, h1⟩ := hE
                subst h1
                exact ⟨Nat.le_add_right _ _, ⟨rfl, rfl, rfl⟩, ⟨rfl, rfl⟩,
                  fun _ => rfl⟩
  | Var name exprOpt =>
      obtain ⟨scs, cs0, cf0, cc0, errs0⟩ := st
      cases exprOpt with
      | none =>
          simp only [Resolver.resolve_stmt]
          obtain ⟨k, hdd⟩ := declare_define_eq scs cs0 cf0 cc0 errs0 name
          rw [hdd]
          refine ⟨Nat.le_add_right _ _, ⟨rfl, rfl, rfl⟩,
            ⟨ctxDefine_tail _ _, ctxDefine_length _ _⟩, fun _ => rfl⟩
      | some e =>
          cases scs with
          | nil =>
              simp only [Resolver.resolve_stmt, Resolver.declare]
              rcases hx : Resolver.resolve_expr f ⟨[], cs0, cf0, cc0, errs0⟩ e
                  with ⟨e1, st2⟩
              have hE := ihE ⟨[], cs0, cf0, cc0, errs0⟩ e
              rw [hx] at hE
              simp only at hE
              obtain ⟨k1, h1⟩ := hE
              subst h1
              exact ⟨Nat.le_add_right _ _, ⟨rfl, rfl, rfl⟩, ⟨rfl, rfl⟩,
                fun _ => rfl⟩
          | cons sc rest =>
              cases hc : alistContains sc name.lexeme with
              | true =>
                  simp only [Resolver.resolve_stmt, Resolver.declare, hc,
                    if_true, Resolver.rerror]
                  rcases hx : Resolver.resolve_expr f
                      ⟨sc :: rest, cs0, cf0, cc0, errs0 + 1⟩ e with ⟨e1, st2⟩
                  have hE := ihE ⟨sc :: rest, cs0, cf0, cc0, errs0 + 1⟩ e
                  rw [hx] at hE
                  simp only at hE
                  obtain ⟨k1, h1⟩ := hE
                  subst h1
                  refine ⟨?_, ⟨rfl, rfl, rfl⟩,
                    ⟨rfl, ctxDefine_length (sc :: rest) name.lexeme⟩,
                    fun _ => rfl⟩
                  show errs0 ≤ errs0 + 1 + k1
                  omega
              | false =>
                  simp only [Resolver.resolve_stmt, Resolver.declare, hc,
                    Bool.false_eq_true, if_false]
                  rcases hx : Resolver.resolve_expr f
                      ⟨((name.lexeme, false) :: sc) :: rest, cs0, cf0, cc0,
                        errs0⟩ e with ⟨e1, st2⟩
                  have hE := ihE ⟨((name.lexeme, false) :: sc) :: rest, cs0,
                    cf0, cc0, errs0⟩ e
                  rw [hx] at hE
                  simp only at hE
                  obtain ⟨k1, h1⟩ := hE
                  subst h1
                  simp only [Resolver.define]
                  rw [alistInsert_cons_self]
                  exact ⟨Nat.le_add_right _ _, ⟨rfl, rfl, rfl⟩,
                    ⟨rfl, ctxDefine_length (sc :: rest) name.lexeme⟩,
                    fun _ => rfl⟩
  | Function fn =>
      obtain ⟨scs, cs0, cf0, cc0, errs0⟩ := st
      obtain ⟨nm, ps, body⟩ := fn
      simp only [Resolver.resolve_stmt, Fun.name]
      obtain ⟨k1, hdd⟩ := declare_define_eq scs cs0 cf0 cc0 errs0 nm
      rw [hdd]
      rcases hx : Resolver.resolve_function f
          ⟨ctxDefine scs nm.lexeme, cs0, cf0, cc0, errs0 + k1⟩
          (.mk nm ps body) .Function with ⟨fn1, st2⟩
      have hF := ihF ⟨ctxDefine scs nm.lexeme, cs0, cf0, cc0, errs0 + k1⟩
        (.mk nm ps body) .Function
      rw [hx] at hF
      simp only at hF
      obtain ⟨⟨k2, h2⟩, body', hshape⟩ := hF
      subst h2
      simp only [Fun.name, Fun.params] at hshape
      subst hshape
      refine ⟨?_, ⟨rfl, rfl, rfl⟩,
        ⟨ctxDefine_tail _ _, ctxDefine_length _ _⟩, fun _ => rfl⟩
      show errs0 ≤ errs0 + k1 + k2
      omega
  | Block ss =>
      obtain ⟨scs, cs0, cf0, cc0, errs0⟩ := st
      simp only [Resolver.resolve_stmt, Resolver.begin_scope]
      rcases hx : Resolver.resolve_stmts f ⟨[] :: scs, cs0, cf0, cc0, errs0⟩ ss
          with ⟨ss1, st1⟩
      have hSs := ihSs ⟨[] :: scs, cs0, cf0, cc0, errs0⟩ ss
      rw [hx] at hSs
      simp only at hSs
      obtain ⟨hmono, ⟨hcs, hcf, hcc⟩, ⟨htail, hlen⟩, _⟩ := hSs
      obtain ⟨s1, c1, f1, k1c, e1⟩ := st1
      simp only at hmono hcs hcf hcc htail hlen
      subst hcs
      subst hcf
      subst hcc
      obtain ⟨hd, hhd⟩ := cons_of_tail_len htail (by rw [hlen]; rfl)
      subst hhd
      exact ⟨hmono, ⟨rfl, rfl, rfl⟩, ⟨rfl, rfl⟩, fun _ => rfl⟩
  | WhileStmt c b =>
      simp only [Resolver.resolve_stmt]
      rcases hx1 : Resolver.resolve_expr f st c with ⟨c1, st1⟩
      have hE := ihE st c
      rw [hx1] at hE
      simp only at hE
      obtain ⟨k1, h1⟩ := hE
      subst h1
      rcases hx2 : Resolver.resolve_stmt f
          { st with num_of_resolver_errs := st.num_of_resolver_errs + k1 } b
          with ⟨b1, st2⟩
      have hS := ihS { st with num_of_resolver_errs :=
        st.num_of_resolver_errs + k1 } b
      rw [hx2] at hS
      simp only at hS
      obtain ⟨hmono, ⟨hcs, hcf, hcc⟩, ⟨htail, hlen⟩, hcond⟩ := hS
      dsimp only
      refine ⟨?_, ⟨hcs, hcf, hcc⟩, ⟨htail, hlen⟩, ?_⟩
      · exact le_trans (Nat.le_add_right _ _) hmono
      · intro heq
        have hk1 : st.num_of_resolver_errs + k1 = st.num_of_resolver_errs := by
          omega
        have := hcond (by rw [heq, hk1])
        rw [this]
        rfl
  | IfStmt c t els =>
      simp only [Resolver.resolve_stmt]
      rcases hx1 : Resolver.resolve_expr f st c with ⟨c1, st1⟩
      have hE := ihE st c
      rw [hx1] at hE
      simp only at hE
      obtain ⟨k1, h1⟩ := hE
      subst h1
      rcases hx2 : Resolver.resolve_stmt f
          { st with num_of_resolver_errs := st.num_of_resolver_errs + k1 } t
          with ⟨t1, st2⟩
      have hS := ihS { st with num_of_resolver_errs :=
        st.num_of_resolver_errs + k1 } t
      rw [hx2] at hS
      simp only at hS
      obtain ⟨hmono2, ⟨hcs2, hcf2, hcc2⟩, ⟨htail2, hlen2⟩, hcond2⟩ := hS
      cases els with
      | none =>
          dsimp only
          refine ⟨le_trans (Nat.le_add_right _ _) hmono2,
            ⟨hcs2, hcf2, hcc2⟩, ⟨htail2, hlen2⟩, ?_⟩
          intro heq
          have hk1 : st.num_of_resolver_errs + k1 = st.num_of_resolver_errs := by
            omega
          have := hcond2 (by rw [heq, hk1])
          rw [this]
          rfl
      | some e2 =>
          dsimp only
          rcases hx3 : Resolver.resolve_stmt f st2 e2 with ⟨e3, st3⟩
          dsimp only
          have hS3 := ihS st2 e2
          rw [hx3] at hS3
          simp only at hS3
          obtain ⟨hmono3, ⟨hcs3, hcf3, hcc3⟩, ⟨htail3, hlen3⟩, hcond3⟩ := hS3
          refine ⟨?_, ⟨?_, ?_, ?_⟩, ⟨?_, ?_⟩, ?_⟩
          · exact le_trans (Nat.le_add_right _ _) (le_trans hmono2 hmono3)
          · rw [hcs3, hcs2]
          · rw [hcf3, hcf2]
          · rw [hcc3, hcc2]
          · rw [htail3, htail2]
          · rw [hlen3, hlen2]
          · intro heq
            have hk1 : st.num_of_resolver_errs + k1 = st.num_of_resolver_errs := by
              omega
            have h2e : st2.num_of_resolver_errs =
                st.num_of_resolver_errs + k1 := by omega
            have hpost2 := hcond2 h2e
            have hpost3 := hcond3 (by omega)
            rw [hpost3, hpost2]
            rfl
  | Class name sp methods =>
      obtain ⟨scs, cs0, cf0, cc0, errs0⟩ := st
      have key : ∀ (errs1 : Nat) (spx : Option Expr) (cd : ClassData),
          errs0 ≤ errs1 →
          ∀ p : Stmt × RState,
            p = (match Resolver.resolve_methods f
                ⟨ctxDefine scs name.lexeme, cd :: cs0, cf0, cc0, errs1⟩
                spx methods with
              | (sc1, ms1, st4) =>
                  (Stmt.Class name sc1 ms1, Resolver.end_class_scope st4)) →
            errs0 ≤ p.2.num_of_resolver_errs ∧
            RFieldsEq p.2 ⟨scs, cs0, cf0, cc0, errs0⟩ ∧
            ScTailLen p.2 ⟨scs, cs0, cf0, cc0, errs0⟩ ∧
            (p.2.num_of_resolver_errs = errs0 →
              p.2.scopes = postCtx scs p.1) := by
        intro errs1 spx cd hle p hp
        rcases hx : Resolver.resolve_methods f
            ⟨ctxDefine scs name.lexeme, cd :: cs0, cf0, cc0, errs1⟩
            spx methods with ⟨sc1, ms1, st4⟩
        rw [hx] at hp
        subst hp
        have hM := ihM ⟨ctxDefine scs name.lexeme, cd :: cs0, cf0, cc0, errs1⟩
          spx methods
        rw [hx] at hM
        simp only at hM
        obtain ⟨k2, cs2, h2, ht2⟩ := hM
        subst h2
        simp only [Resolver.end_class_scope]
        refine ⟨by show errs0 ≤ errs1 + k2; omega,
          ⟨?_, rfl, rfl⟩, ⟨ctxDefine_tail _ _, ctxDefine_length _ _⟩,
          fun _ => ?_⟩
        · show cs2.tail = cs0
          rw [ht2]
          rfl
        · show ctxDefine scs name.lexeme =
            postCtx scs (.Class name sc1 ms1)
          rfl
      simp only [Resolver.resolve_stmt]
      obtain ⟨k1, hdd⟩ := declare_define_eq scs cs0 cf0 cc0 errs0 name
      rw [hdd]
      simp only [Resolver.begin_class_scope]
      cases sp with
      | none =>
          exact key (errs0 + k1) none ⟨name.lexeme, none, []⟩
            (Nat.le_add_right _ _) _ rfl
      | some spe =>
          cases spe
          case Variable sctok d =>
              dsimp only
              by_cases hlex : sctok.lexeme = name.lexeme
              · rw [if_pos hlex]
                exact key (errs0 + k1 + 1) (some (.Variable sctok d))
                  ⟨name.lexeme, some sctok, []⟩ (by omega) _ rfl
              · rw [if_neg hlex]
                exact key (errs0 + k1) (some (.Variable sctok d))
                  ⟨name.lexeme, some sctok, []⟩ (Nat.le_add_right _ _) _ rfl
          all_goals
            exact key (errs0 + k1) _ ⟨name.lexeme, none, []⟩
              (Nat.le_add_right _ _) _ rfl

theorem PStmts_step (f : Nat) (ih : PAll f) : PStmts (f + 1) := by
  have ihS := ih.2.2.1
  have ihSs := ih.2.2.2.1
  intro st l
  cases l with
  | nil => exact ⟨le_refl _, ⟨rfl, rfl, rfl⟩, ⟨rfl, rfl⟩, fun _ => rfl⟩
  | cons s rest =>
      simp only [Resolver.resolve_stmts]
      rcases hx1 : Resolver.resolve_stmt f st s with ⟨s1, st1⟩
      have hS := ihS st s
      rw [hx1] at hS
      simp only at hS
      obtain ⟨hmono1, ⟨hcs1, hcf1, hcc1⟩, ⟨htail1, hlen1⟩, hcond1⟩ := hS
      rcases hx2 : Resolver.resolve_stmts f st1 rest with ⟨rest1, st2⟩
      have hSs := ihSs st1 rest
      rw [hx2] at hSs
      simp only at hSs
      obtain ⟨hmono2, ⟨hcs2, hcf2, hcc2⟩, ⟨htail2, hlen2⟩, hcond2⟩ := hSs
      dsimp only
      refine ⟨le_trans hmono1 hmono2, ⟨?_, ?_, ?_⟩, ⟨?_, ?_⟩, ?_⟩
      · rw [hcs2, hcs1]
      · rw [hcf2, hcf1]
      · rw [hcc2, hcc1]
      · rw [htail2, htail1]
      · rw [hlen2, hlen1]
      · intro heq
        have h1e : st1.num_of_resolver_errs = st.num_of_resolver_errs := by
          omega
        have hpost1 := hcond1 h1e
        have hpost2 := hcond2 (by omega)
        rw [hpost2, hpost1]
        rfl

theorem PAll_all : ∀ f, PAll f := by
  intro f
  induction f with
  | zero => exact PAll_zero
  | succ f ihf =>
      exact ⟨PExpr_step f ihf, PExprs_step f ihf, PStmt_step f ihf,
        PStmts_step f ihf, PFun_step f ihf, PMethods_step f ihf,
        PMList_step f ihf⟩

/-! ## Facts about contexts with all flags defined. -/

theorem AllTrue_tail {Γ : Ctx} (h : AllTrue Γ) : AllTrue Γ.tail := by
  cases Γ with
  | nil => exact h
  | cons sc rest =>
      intro sc2 h2 p hp
      exact h sc2 (List.mem_cons_of_mem _ h2) p hp

theorem FoundTrue_of_allTrue {n : String} {Γ : Ctx} (h : AllTrue Γ) :
    FoundTrue n Γ := by
  induction Γ with
  | nil => trivial
  | cons sc rest ih =>
      cases hg : alistGet sc n with
      | some b =>
          simp only [FoundTrue, hg]
          exact h sc (List.mem_cons_self _ _) _ (alistGet_mem hg)
      | none =>
          simp only [FoundTrue, hg]
          exact ih (fun sc2 h2 => h sc2 (List.mem_cons_of_mem _ h2))

theorem FoundTrue_of_head_check {sc : List (String × Bool)} {rest : Ctx}
    {n : String} (hchk : ¬ alistGet sc n = some false) (ht : AllTrue rest) :
    FoundTrue n (sc :: rest) := by
  cases hg : alistGet sc n with
  | some b =>
      simp only [FoundTrue, hg]
      cases b with
      | true => rfl
      | false => exact absurd hg hchk
  | none =>
      simp only [FoundTrue, hg]
      exact FoundTrue_of_allTrue ht

theorem FoundTrue_declCtx {Γ : Ctx} {n m : String} (hne : ¬ n = m)
    (h : FoundTrue m Γ) : FoundTrue m (declCtx Γ n) := by
  cases Γ with
  | nil => trivial
  | cons sc rest =>
      show FoundTrue m (((n, false) :: sc) :: rest)
      have hred : alistGet ((n, false) :: sc) m = alistGet sc m := by
        simp only [alistGet, if_neg hne]
      simp only [FoundTrue] at h ⊢
      rw [hred]
      exact h

theorem scope_allTrue_alistInsert {sc : List (String × Bool)} {n : String}
    (h : ∀ p ∈ sc, (p : String × Bool).2 = true) :
    ∀ p ∈ alistInsert sc n true, (p : String × Bool).2 = true := by
  intro p hp
  simp only [alistInsert] at hp
  rcases List.mem_cons.mp hp with h1 | h1
  · rw [h1]
  · exact h p (List.mem_filter.mp h1).1

theorem AllTrue_ctxDefine {Γ : Ctx} {n : String} (h : AllTrue Γ) :
    AllTrue (ctxDefine Γ n) := by
  cases Γ with
  | nil => exact h
  | cons sc rest =>
      intro sc2 h2 p hp
      rcases List.mem_cons.mp h2 with h3 | h3
      · subst h3
        exact scope_allTrue_alistInsert
          (fun p2 hp2 => h sc (List.mem_cons_self _ _) p2 hp2) p hp
      · exact h sc2 (List.mem_cons_of_mem _ h3) p hp

theorem AllTrue_postCtx : ∀ (s : Stmt) (Γ : Ctx), AllTrue Γ →
    AllTrue (postCtx Γ s)
  | .Var _ _, _, h => AllTrue_ctxDefine h
  | .Function _, _, h => AllTrue_ctxDefine h
  | .Class _ _ _, _, h => AllTrue_ctxDefine h
  | .IfStmt _ t none, Γ, h => AllTrue_postCtx t Γ h
  | .IfStmt _ t (some e), Γ, h => AllTrue_postCtx e _ (AllTrue_postCtx t Γ h)
  | .WhileStmt _ b, Γ, h => AllTrue_postCtx b Γ h
  | .ExpressionStmt _, _, h => h
  | .PrintStmt _, _, h => h
  | .Return _ _, _, h => h
  | .Block _, _, h => h

theorem postCtx_of_PSb : ∀ (s : Stmt), PSb s → ∀ Γ : Ctx, postCtx Γ s = Γ
  | .ExpressionStmt _, _, _ => rfl
  | .PrintStmt _, _, _ => rfl
  | .Return _ _, _, _ => rfl
  | .Block _, _, _ => rfl
  | .IfStmt c t none, h, Γ => by
      cases h with
      | if_none _ ht => exact postCtx_of_PSb t ht Γ
  | .IfStmt c t (some e), h, Γ => by
      cases h with
      | if_some _ ht he =>
          show postCtx (postCtx Γ t) e = Γ
          rw [postCtx_of_PSb t ht Γ]
          exact postCtx_of_PSb e he Γ
  | .WhileStmt c b, h, Γ => by
      cases h with
      | whileS _ hb => exact postCtx_of_PSb b hb Γ
  | .Var _ _, h, _ => by cases h
  | .Function _, h, _ => by cases h
  | .Class _ _ _, h, _ => by cases h

theorem AllTrue_thisCons {Γ : Ctx} (h : AllTrue Γ) :
    AllTrue (thisScope :: Γ) := by
  intro sc h2 p hp
  rcases List.mem_cons.mp h2 with h3 | h3
  · subst h3
    simp only [thisScope] at hp
    rcases List.mem_cons.mp hp with h4 | h4
    · rw [h4]
    · exact absurd h4 (List.not_mem_nil _)
  · exact h sc h3 p hp

theorem scope_allTrue_bindParams : ∀ (ps : List Token)
    (sc : List (String × Bool)),
    (∀ p ∈ sc, (p : String × Bool).2 = true) →
    ∀ p ∈ bindParams sc ps, (p : String × Bool).2 = true := by
  intro ps
  induction ps with
  | nil =>
      intro sc h
      exact h
  | cons t ts ih =>
      intro sc h
      exact ih _ (scope_allTrue_alistInsert h)

theorem AllTrue_bindParams_cons {ps : List Token} {Γ : Ctx} (h : AllTrue Γ) :
    AllTrue (bindParams [] ps :: Γ) := by
  intro sc h2 p hp
  rcases List.mem_cons.mp h2 with h3 | h3
  · subst h3
    exact scope_allTrue_bindParams ps []
      (fun p2 hp2 => absurd hp2 (List.not_mem_nil _)) p hp
  · exact h sc h3 p hp

theorem state_eq_of_zero {st st1 : RState} {k : Nat}
    (h1 : st1 = { st with num_of_resolver_errs := st.num_of_resolver_errs + k })
    (hk : k = 0) : st1 = st := by
  subst hk
  exact h1

theorem AExpr_step (f : Nat) (ih : AAll f) : AExpr (f + 1) := by
  obtain ⟨ihE, ihEs, _, _, _, _, _, _⟩ := ih
  have hPE := (PAll_all f).1
  have hPEs := (PAll_all f).2.1
  intro st e hcc htail hthis hpse heq
  cases e with
  | Litral l => exact WfExpr.litral
  | Variable name d =>
      obtain ⟨scs, cs0, cf0, cc0, errs0⟩ := st
      cases scs with
      | nil =>
          simp only [Resolver.resolve_expr]
          exact WfExpr.variableE rfl (by trivial)
      | cons sc rest =>
          simp only [Resolver.resolve_expr] at heq ⊢
          by_cases hck : alistGet sc name.lexeme = some false
          · rw [if_pos hck] at heq
            simp only [Resolver.rerror] at heq
            omega
          · rw [if_neg hck] at heq ⊢
            exact WfExpr.variableE rfl (FoundTrue_of_head_check hck htail)
  | This keyword d =>
      cases hpse with
      | thisE hlex =>
          obtain ⟨scs, cs0, cf0, cc0, errs0⟩ := st
          cases cc0 with
          | none =>
              simp only [Resolver.resolve_expr, Resolver.rerror] at heq
              omega
          | some ct =>
              simp only [Resolver.resolve_expr]
              refine WfExpr.thisE hlex ?_ hthis
              show Resolver.resolve_local_depth
                ⟨scs, cs0, cf0, some ct, errs0⟩ keyword = rld "this" scs
              rw [Resolver.resolve_local_depth, hlex]
  | Super keyword method d =>
      obtain ⟨scs, cs0, cf0, cc0, errs0⟩ := st
      cases cc0 with
      | none =>
          simp only [Resolver.resolve_expr, Resolver.rerror] at heq
          omega
      | some ct =>
          cases ct with
          | Class =>
              simp only [Resolver.resolve_expr, Resolver.rerror] at heq
              omega
          | SubClass => exact absurd rfl hcc
  | Assign name d value =>
      cases hpse with
      | assignE hpv =>
          simp only [Resolver.resolve_expr] at heq ⊢
          rcases hx : Resolver.resolve_expr f st value with ⟨v1, st1⟩
          obtain ⟨k1, h1⟩ := hPE st value
          rw [hx] at h1
          simp only at h1
          simp only [hx] at heq ⊢
          have hst1 : st1 = st := state_eq_of_zero h1 (by
            rw [h1] at heq
            simp only at heq
            omega)
          have hwf := ihE st value hcc htail hthis hpv (by rw [hx, hst1])
          rw [hx] at hwf
          simp only at hwf
          refine WfExpr.assignE ?_ hwf
          rw [hst1]
          rfl
  | Unary op r =>
      cases hpse with
      | unaryE hpr =>
          simp only [Resolver.resolve_expr] at heq ⊢
          rcases hx : Resolver.resolve_expr f st r with ⟨r1, st1⟩
          have hwf := ihE st r hcc htail hthis hpr heq
          rw [hx] at hwf
          simp only at hwf
          exact WfExpr.unaryE hwf
  | Grouping e1 =>
      cases hpse with
      | groupingE hpe =>
          simp only [Resolver.resolve_expr] at heq ⊢
          rcases hx : Resolver.resolve_expr f st e1 with ⟨g1, st1⟩
          have hwf := ihE st e1 hcc htail hthis hpe heq
          rw [hx] at hwf
          simp only at hwf
          exact WfExpr.groupingE hwf
  | Binary l op r =>
      cases hpse with
      | binaryE hpl hpr =>
          simp only [Resolver.resolve_expr] at heq ⊢
          rcases hx1 : Resolver.resolve_expr f st l with ⟨l1, st1⟩
          obtain ⟨k1, h1⟩ := hPE st l
          rw [hx1] at h1
          simp only at h1
          rcases hx2 : Resolver.resolve_expr f st1 r with ⟨r1, st2⟩
          obtain ⟨k2, h2⟩ := hPE st1 r
          rw [hx2] at h2
          simp only at h2
          simp only [hx1, hx2] at heq ⊢
          have hk1 : k1 = 0 := by
            rw [h2, h1] at heq
            simp only at heq
            omega
          have hst1 : st1 = st := state_eq_of_zero h1 hk1
          have hwl := ihE st l hcc htail hthis hpl (by rw [hx1, hst1])
          rw [hx1] at hwl
          simp only at hwl
          have hwr := ihE st1 r (by rw [hst1]; exact hcc)
            (by rw [hst1]; exact htail) (by rw [hst1]; exact hthis) hpr
            (by have heq2 := heq
                rw [h2, h1] at heq2
                simp only at heq2
                rw [hx2, h2, h1]
                simp only
                omega)
          rw [hx2, hst1] at hwr
          simp only at hwr
          exact WfExpr.binaryE hwl hwr
  | Logical l op r =>
      cases hpse with
      | logicalE hpl hpr =>
          simp only [Resolver.resolve_expr] at heq ⊢
          rcases hx1 : Resolver.resolve_expr f st l with ⟨l1, st1⟩
          obtain ⟨k1, h1⟩ := hPE st l
          rw [hx1] at h1
          simp only at h1
          rcases hx2 : Resolver.resolve_expr f st1 r with ⟨r1, st2⟩
          obtain ⟨k2, h2⟩ := hPE st1 r
          rw [hx2] at h2
          simp only at h2
          simp only [hx1, hx2] at heq ⊢
          have hk1 : k1 = 0 := by
            rw [h2, h1] at heq
            simp only at heq
            omega
          have hst1 : st1 = st := state_eq_of_zero h1 hk1
          have hwl := ihE st l hcc htail hthis hpl (by rw [hx1, hst1])
          rw [hx1] at hwl
          simp only at hwl
          have hwr := ihE st1 r (by rw [hst1]; exact hcc)
            (by rw [hst1]; exact htail) (by rw [hst1]; exact hthis) hpr
            (by have heq2 := heq
                rw [h2, h1] at heq2
                simp only at heq2
                rw [hx2, h2, h1]
                simp only
                omega)
          rw [hx2, hst1] at hwr
          simp only at hwr
          exact WfExpr.logicalE hwl hwr
  | Get object name =>
      cases hpse with
      | getE hpo =>
          simp only [Resolver.resolve_expr] at heq ⊢
          rcases hx : Resolver.resolve_expr f st object with ⟨o1, st1⟩
          have hwf := ihE st object hcc htail hthis hpo heq
          rw [hx] at hwf
          simp only at hwf
          exact WfExpr.getE hwf
  | Set object name value =>
      cases hpse with
      | setE hpo hpv =>
          simp only [Resolver.resolve_expr] at heq ⊢
          rcases hx1 : Resolver.resolve_expr f st object with ⟨o1, st1⟩
          obtain ⟨k1, h1⟩ := hPE st object
          rw [hx1] at h1
          simp only at h1
          rcases hx2 : Resolver.resolve_expr f st1 value with ⟨v1, st2⟩
          obtain ⟨k2, h2⟩ := hPE st1 value
          rw [hx2] at h2
          simp only at h2
          simp only [hx1, hx2] at heq ⊢
          have hk1 : k1 = 0 := by
            rw [h2, h1] at heq
            simp only at heq
            omega
          have hst1 : st1 = st := state_eq_of_zero h1 hk1
          have hwl := ihE st object hcc htail hthis hpo (by rw [hx1, hst1])
          rw [hx1] at hwl
          simp only at hwl
          have hwr := ihE st1 value (by rw [hst1]; exact hcc)
            (by rw [hst1]; exact htail) (by rw [hst1]; exact hthis) hpv
            (by have heq2 := heq
                rw [h2, h1] at heq2
                simp only at heq2
                rw [hx2, h2, h1]
                simp only
                omega)
          rw [hx2, hst1] at hwr
          simp only at hwr
          exact WfExpr.setE hwl hwr
  | Call callee paran args =>
      cases hpse with
      | callE hpc hpargs =>
          simp only [Resolver.resolve_expr] at heq ⊢
          rcases hx1 : Resolver.resolve_expr f st callee with ⟨c1, st1⟩
          obtain ⟨k1, h1⟩ := hPE st callee
          rw [hx1] at h1
          simp only at h1
          rcases hx2 : Resolver.resolve_exprs f st1 args with ⟨args1, st2⟩
          obtain ⟨k2, h2⟩ := hPEs st1 args
          rw [hx2] at h2
          simp only at h2
          simp only [hx1, hx2] at heq ⊢
          have hk1 : k1 = 0 := by
            rw [h2, h1] at heq
            simp only at heq
            omega
          have hst1 : st1 = st := state_eq_of_zero h1 hk1
          have hwc := ihE st callee hcc htail hthis hpc (by rw [hx1, hst1])
          rw [hx1] at hwc
          simp only at hwc
          have hwargs := ihEs st1 args (by rw [hst1]; exact hcc)
            (by rw [hst1]; exact htail) (by rw [hst1]; exact hthis) hpargs
            (by have heq2 := heq
                rw [h2, h1] at heq2
                simp only at heq2
                rw [hx2, h2, h1]
                simp only
                omega)
          rw [hx2, hst1] at hwargs
          simp only at hwargs
          exact WfExpr.callE hwc hwargs

theorem AExprs_step (f : Nat) (ih : AAll f) : AExprs (f + 1) := by
  obtain ⟨ihE, ihEs, _, _, _, _, _, _⟩ := ih
  have hPE := (PAll_all f).1
  have hPEs := (PAll_all f).2.1
  intro st es hcc htail hthis hps heq
  cases es with
  | nil =>
      intro a ha
      simp only [Resolver.resolve_exprs] at ha
      exact absurd ha (List.not_mem_nil _)
  | cons e rest =>
      simp only [Resolver.resolve_exprs] at heq ⊢
      rcases hx1 : Resolver.resolve_expr f st e with ⟨e1, st1⟩
      obtain ⟨k1, h1⟩ := hPE st e
      rw [hx1] at h1
      simp only at h1
      rcases hx2 : Resolver.resolve_exprs f st1 rest with ⟨rest1, st2⟩
      obtain ⟨k2, h2⟩ := hPEs st1 rest
      rw [hx2] at h2
      simp only at h2
      simp only [hx1, hx2] at heq ⊢
      have hk1 : k1 = 0 := by
        rw [h2, h1] at heq
        simp only at heq
        omega
      have hst1 : st1 = st := state_eq_of_zero h1 hk1
      have hwe := ihE st e hcc htail hthis (hps e (List.mem_cons_self _ _))
        (by rw [hx1, hst1])
      rw [hx1] at hwe
      simp only at hwe
      have hwrest := ihEs st1 rest (by rw [hst1]; exact hcc)
        (by rw [hst1]; exact htail) (by rw [hst1]; exact hthis)
        (fun a ha => hps a (List.mem_cons_of_mem _ ha))
        (by have heq2 := heq
            rw [h2, h1] at heq2
            simp only at heq2
            rw [hx2, h2, h1]
            simp only
            omega)
      rw [hx2, hst1] at hwrest
      simp only at hwrest
      intro a ha
      rcases List.mem_cons.mp ha with ha1 | ha1
      · subst ha1
        exact hwe
      · exact hwrest a ha1

theorem AllTrue_nil_cons {Γ : Ctx} (h : AllTrue Γ) : AllTrue ([] :: Γ) := by
  intro sc h2 p hp
  rcases List.mem_cons.mp h2 with h3 | h3
  · subst h3
    exact absurd hp (List.not_mem_nil _)
  · exact h sc h3 p hp

theorem resolve_expr_var_shape : ∀ (f : Nat) (st : RState) (tok : Token)
    (d : Option Nat),
    ∃ d2, (Resolver.resolve_expr f st (.Variable tok d)).1 = .Variable tok d2
  | 0, _, _, d => ⟨d, rfl⟩
  | _ + 1, _, _, _ => ⟨_, rfl⟩

theorem resolve_methods_none_shape : ∀ (f : Nat) (st : RState) (ms : List Fun),
    (Resolver.resolve_methods f st none ms).1 = none
  | 0, _, _ => rfl
  | _ + 1, _, _ => rfl

theorem resolve_methods_var_shape (f : Nat) (st : RState) (tok : Token)
    (d : Option Nat) (ms : List Fun) :
    ∃ d2, (Resolver.resolve_methods f st (some (.Variable tok d)) ms).1 =
      some (.Variable tok d2) := by
  cases f with
  | zero => exact ⟨d, rfl⟩
  | succ f2 =>
      obtain ⟨d2, h⟩ := resolve_expr_var_shape f2
        { st with current_class := some ClassType.SubClass } tok d
      refine ⟨d2, ?_⟩
      have hr : (Resolver.resolve_methods (f2 + 1) st
            (some (.Variable tok d)) ms).1 =
          some ((Resolver.resolve_expr f2
            { st with current_class := some ClassType.SubClass }
            (.Variable tok d)).1) := rfl
      rw [hr, h]

theorem ShapeAll_all : ∀ f, ShapeAll f := by
  intro f
  induction f with
  | zero =>
      refine ⟨?_, ?_, ?_, ?_, ?_, ?_, ?_, ?_⟩
      · intro st e hp
        exact hp
      · intro st es hps a ha
        exact hps a ha
      · intro st s hp
        exact hp
      · intro st s hp
        exact hp
      · intro st l hl
        exact hl
      · intro st fn ft hl
        exact hl
      · intro st ms hm m1 h1
        exact hm m1 h1
      · intro st sc ms hm m1 h1
        exact hm m1 h1
  | succ f ih =>
      obtain ⟨ihE, ihEs, ihSb, ihS, ihSs, ihF, ihML, ihM⟩ := ih
      have hPF := (PAll_all f).2.2.2.2.1
      have hE : ∀ st e, PSE e → PSE (Resolver.resolve_expr (f + 1) st e).1 := by
        intro st e hp
        cases hp with
        | litral => exact PSE.litral
        | variableE =>
            rename_i n d
            obtain ⟨d2, h⟩ := resolve_expr_var_shape (f + 1) st n d
            rw [h]
            exact PSE.variableE
        | thisE hlex =>
            obtain ⟨scs, cs0, cf0, cc0, errs0⟩ := st
            cases cc0 with
            | none =>
                simp only [Resolver.resolve_expr]
                exact PSE.thisE hlex
            | some ct =>
                simp only [Resolver.resolve_expr]
                exact PSE.thisE hlex
        | superE =>
            obtain ⟨scs, cs0, cf0, cc0, errs0⟩ := st
            cases cc0 with
            | none =>
                simp only [Resolver.resolve_expr]
                exact PSE.superE
            | some ct =>
                cases ct with
                | Class =>
                    simp only [Resolver.resolve_expr]
                    exact PSE.superE
                | SubClass =>
                    simp only [Resolver.resolve_expr]
                    exact PSE.superE
        | assignE hv =>
            rename_i n d v
            rcases hx : Resolver.resolve_expr f st v with ⟨v1, st1⟩
            simp only [Resolver.resolve_expr, hx]
            refine PSE.assignE ?_
            have h2 := ihE st v hv
            rw [hx] at h2
            exact h2
        | unaryE hr =>
            rename_i op r
            rcases hx : Resolver.resolve_expr f st r with ⟨r1, st1⟩
            simp only [Resolver.resolve_expr, hx]
            refine PSE.unaryE ?_
            have h2 := ihE st r hr
            rw [hx] at h2
            exact h2
        | binaryE hl hr =>
            rename_i l op r
            rcases hx1 : Resolver.resolve_expr f st l with ⟨l1, st1⟩
            rcases hx2 : Resolver.resolve_expr f st1 r with ⟨r1, st2⟩
            simp only [Resolver.resolve_expr, hx1, hx2]
            have h2 := ihE st l hl
            rw [hx1] at h2
            have h3 := ihE st1 r hr
            rw [hx2] at h3
            exact PSE.binaryE h2 h3
        | logicalE hl hr =>
            rename_i l op r
            rcases hx1 : Resolver.resolve_expr f st l with ⟨l1, st1⟩
            rcases hx2 : Resolver.resolve_expr f st1 r with ⟨r1, st2⟩
            simp only [Resolver.resolve_expr, hx1, hx2]
            have h2 := ihE st l hl
            rw [hx1] at h2
            have h3 := ihE st1 r hr
            rw [hx2] at h3
            exact PSE.logicalE h2 h3
        | groupingE he =>
            rename_i e1
            rcases hx : Resolver.resolve_expr f st e1 with ⟨g1, st1⟩
            simp only [Resolver.resolve_expr, hx]
            refine PSE.groupingE ?_
            have h2 := ihE st e1 he
            rw [hx] at h2
            exact h2
        | callE hc hargs =>
            rename_i c p args
            rcases hx1 : Resolver.resolve_expr f st c with ⟨c1, st1⟩
            rcases hx2 : Resolver.resolve_exprs f st1 args with ⟨args1, st2⟩
            simp only [Resolver.resolve_expr, hx1, hx2]
            have h2 := ihE st c hc
            rw [hx1] at h2
            have h3 := ihEs st1 args hargs
            rw [hx2] at h3
            exact PSE.callE h2 h3
        | getE ho =>
            rename_i o n
            rcases hx : Resolver.resolve_expr f st o with ⟨o1, st1⟩
            simp only [Resolver.resolve_expr, hx]
            refine PSE.getE ?_
            have h2 := ihE st o ho
            rw [hx] at h2
            exact h2
        | setE ho hv =>
            rename_i o n v
            rcases hx1 : Resolver.resolve_expr f st o with ⟨o1, st1⟩
            rcases hx2 : Resolver.resolve_expr f st1 v with ⟨v1, st2⟩
            simp only [Resolver.resolve_expr, hx1, hx2]
            have h2 := ihE st o ho
            rw [hx1] at h2
            have h3 := ihE st1 v hv
            rw [hx2] at h3
            exact PSE.setE h2 h3
      have hEs : ∀ st es, (∀ a ∈ es, PSE a) →
          ∀ a ∈ (Resolver.resolve_exprs (f + 1) st es).1, PSE a := by
        intro st es hps
        cases es with
        | nil =>
            intro a ha
            simp only [Resolver.resolve_exprs] at ha
            exact absurd ha (List.not_mem_nil _)
        | cons e rest =>
            rcases hx1 : Resolver.resolve_expr f st e with ⟨e1, st1⟩
            rcases hx2 : Resolver.resolve_exprs f st1 rest with ⟨rest1, st2⟩
            simp only [Resolver.resolve_exprs, hx1, hx2]
            intro a ha
            rcases List.mem_cons.mp ha with h | h
            · subst h
              have h2 := ihE st e (hps e (List.mem_cons_self _ _))
              rw [hx1] at h2
              exact h2
            · have h3 := ihEs st1 rest (fun a2 ha2 => hps a2 (List.mem_cons_of_mem _ ha2))
              rw [hx2] at h3
              exact h3 a h
      have hSb : ∀ st s, PSb s → PSb (Resolver.resolve_stmt (f + 1) st s).1 := by
        intro st s hp
        cases hp with
        | exprS hpe =>
            rename_i e
            rcases hx : Resolver.resolve_expr f st e with ⟨e1, st1⟩
            simp only [Resolver.resolve_stmt, hx]
            refine PSb.exprS ?_
            have h2 := ihE st e hpe
            rw [hx] at h2
            exact h2
        | printS hpe =>
            rename_i e
            rcases hx : Resolver.resolve_expr f st e with ⟨e1, st1⟩
            simp only [Resolver.resolve_stmt, hx]
            refine PSb.printS ?_
            have h2 := ihE st e hpe
            rw [hx] at h2
            exact h2
        | return_none =>
            obtain ⟨scs, cs0, cf0, cc0, errs0⟩ := st
            cases cf0 with
            | none =>
                simp only [Resolver.resolve_stmt]
                exact PSb.return_none
            | some ft =>
                simp only [Resolver.resolve_stmt]
                exact PSb.return_none
        | return_some hv =>
            rename_i k v
            obtain ⟨scs, cs0, cf0, cc0, errs0⟩ := st
            cases cf0 with
            | none =>
                simp only [Resolver.resolve_stmt]
                exact PSb.return_some hv
            | some ft =>
                simp only [Resolver.resolve_stmt]
                by_cases hft : ft = FunctionType.Initializer
                · rw [if_pos hft]
                  exact PSb.return_some hv
                · rw [if_neg hft]
                  rcases hx : Resolver.resolve_expr f
                      ⟨scs, cs0, some ft, cc0, errs0⟩ v with ⟨v1, st1⟩
                  simp only [hx]
                  refine PSb.return_some ?_
                  have h2 := ihE ⟨scs, cs0, some ft, cc0, errs0⟩ v hv
                  rw [hx] at h2
                  exact h2
        | if_none hc ht =>
            rename_i c t
            rcases hx1 : Resolver.resolve_expr f st c with ⟨c1, st1⟩
            rcases hx2 : Resolver.resolve_stmt f st1 t with ⟨t1, st2⟩
            simp only [Resolver.resolve_stmt, hx1, hx2]
            have h2 := ihE st c hc
            rw [hx1] at h2
            have h3 := ihSb st1 t ht
            rw [hx2] at h3
            exact PSb.if_none h2 h3
        | if_some hc ht he =>
            rename_i c t e
            rcases hx1 : Resolver.resolve_expr f st c with ⟨c1, st1⟩
            rcases hx2 : Resolver.resolve_stmt f st1 t with ⟨t1, st2⟩
            rcases hx3 : Resolver.resolve_stmt f st2 e with ⟨e1, st3⟩
            simp only [Resolver.resolve_stmt, hx1, hx2, hx3]
            have h2 := ihE st c hc
            rw [hx1] at h2
            have h3 := ihSb st1 t ht
            rw [hx2] at h3
            have h4 := ihSb st2 e he
            rw [hx3] at h4
            exact PSb.if_some h2 h3 h4
        | whileS hc hb =>
            rename_i c b
            rcases hx1 : Resolver.resolve_expr f st c with ⟨c1, st1⟩
            rcases hx2 : Resolver.resolve_stmt f st1 b with ⟨b1, st2⟩
            simp only [Resolver.resolve_stmt, hx1, hx2]
            have h2 := ihE st c hc
            rw [hx1] at h2
            have h3 := ihSb st1 b hb
            rw [hx2] at h3
            exact PSb.whileS h2 h3
        | blockS hl =>
            rename_i ss
            rcases hx : Resolver.resolve_stmts f (Resolver.begin_scope st) ss
                with ⟨ss1, st1⟩
            simp only [Resolver.resolve_stmt, hx]
            refine PSb.blockS ?_
            have h2 := ihSs (Resolver.begin_scope st) ss hl
            rw [hx] at h2
            exact h2
      have hS : ∀ st s, PS s → PS (Resolver.resolve_stmt (f + 1) st s).1 := by
        intro st s hp
        cases hp with
        | ofBranch hb => exact PS.ofBranch (hSb st _ hb)
        | var_none hne =>
            simp only [Resolver.resolve_stmt]
            exact PS.var_none hne
        | var_some hne hpe =>
            rename_i n e
            rcases hx : Resolver.resolve_expr f (Resolver.declare st n) e
                with ⟨e1, st2⟩
            simp only [Resolver.resolve_stmt, hx]
            refine PS.var_some hne ?_
            have h2 := ihE (Resolver.declare st n) e hpe
            rw [hx] at h2
            exact h2
        | functionS hl =>
            rename_i nm ps body
            simp only [Resolver.resolve_stmt, Fun.name]
            rcases hx : Resolver.resolve_function f
                (Resolver.define (Resolver.declare st nm) nm)
                (.mk nm ps body) FunctionType.Function with ⟨fn1, st2⟩
            simp only [hx]
            have hsh := (hPF (Resolver.define (Resolver.declare st nm) nm)
              (.mk nm ps body) FunctionType.Function).2
            rw [hx] at hsh
            simp only [Fun.name, Fun.params] at hsh
            obtain ⟨body1, hb1⟩ := hsh
            have hwb := ihF (Resolver.define (Resolver.declare st nm) nm)
              (.mk nm ps body) FunctionType.Function hl
            rw [hx] at hwb
            rw [hb1] at hwb ⊢
            simp only [Fun.body] at hwb
            exact PS.functionS hwb
        | class_none hm =>
            rename_i name methods
            simp only [Resolver.resolve_stmt]
            have key : ∀ ST : RState,
                PS (.Class name
                  (Resolver.resolve_methods f ST none methods).1
                  (Resolver.resolve_methods f ST none methods).2.1) := by
              intro ST
              rw [resolve_methods_none_shape f ST methods]
              exact PS.class_none (ihM ST none methods hm)
            exact key _
        | class_var hm =>
            rename_i name scTok d methods
            simp only [Resolver.resolve_stmt]
            have key : ∀ ST : RState,
                PS (.Class name
                  (Resolver.resolve_methods f ST
                    (some (.Variable scTok d)) methods).1
                  (Resolver.resolve_methods f ST
                    (some (.Variable scTok d)) methods).2.1) := by
              intro ST
              obtain ⟨d2, hsh⟩ := resolve_methods_var_shape f ST scTok d methods
              rw [hsh]
              exact PS.class_var (ihM ST (some (.Variable scTok d)) methods hm)
            exact key _
      have hSs : ∀ st l, PSList l →
          PSList (Resolver.resolve_stmts (f + 1) st l).1 := by
        intro st l hl
        cases hl with
        | nil =>
            simp only [Resolver.resolve_stmts]
            exact PSList.nil
        | cons hp hrest =>
            rename_i s rest
            rcases hx1 : Resolver.resolve_stmt f st s with ⟨s1, st1⟩
            rcases hx2 : Resolver.resolve_stmts f st1 rest with ⟨rest1, st2⟩
            simp only [Resolver.resolve_stmts, hx1, hx2]
            have h2 := ihS st s hp
            rw [hx1] at h2
            have h3 := ihSs st1 rest hrest
            rw [hx2] at h3
            exact PSList.cons h2 h3
      have hF : ∀ st fn ft, PSList fn.body →
          PSList ((Resolver.resolve_function (f + 1) st fn ft).1).body := by
        intro st fn ft hl
        obtain ⟨nm, ps, body⟩ := fn
        exact ihSs _ body hl
      have hML : ∀ st ms, (∀ m ∈ ms, PSList m.body) →
          ∀ m1 ∈ (Resolver.resolve_method_list (f + 1) st ms).1,
            PSList m1.body := by
        intro st ms hm
        cases ms with
        | nil =>
            intro m1 h1
            simp only [Resolver.resolve_method_list] at h1
            exact absurd h1 (List.not_mem_nil _)
        | cons m rest =>
            rcases hx2 : Resolver.resolve_function f
                (Resolver.define_method st m.name) m
                (if m.name.lexeme = "init" then FunctionType.Initializer
                 else FunctionType.Method) with ⟨m1, st2⟩
            rcases hx3 : Resolver.resolve_method_list f st2 rest
                with ⟨rest1, st3⟩
            simp only [Resolver.resolve_method_list, hx2, hx3]
            intro m2 hm2
            rcases List.mem_cons.mp hm2 with h | h
            · subst h
              have h2 := ihF (Resolver.define_method st m.name) m
                (if m.name.lexeme = "init" then FunctionType.Initializer
                 else FunctionType.Method) (hm m (List.mem_cons_self _ _))
              rw [hx2] at h2
              exact h2
            · have h3 := ihML st2 rest
                (fun m3 hm3 => hm m3 (List.mem_cons_of_mem _ hm3))
              rw [hx3] at h3
              exact h3 m2 h
      have hM : ∀ st sc ms, (∀ m ∈ ms, PSList m.body) →
          ∀ m1 ∈ (Resolver.resolve_methods (f + 1) st sc ms).2.1,
            PSList m1.body := by
        intro st sc ms hm m1 h1
        cases sc with
        | none => exact ihML _ ms hm m1 h1
        | some scE => exact ihML _ ms hm m1 h1
      exact ⟨hE, hEs, hSb, hS, hSs, hF, hML, hM⟩

theorem resolve_var_succ (f : Nat) (st : RState) (n : Token) (d : Option Nat)
    (heq : (Resolver.resolve_expr (f + 1) st
        (.Variable n d)).2.num_of_resolver_errs = st.num_of_resolver_errs)
    (htail : AllTrue st.scopes.tail) :
    (Resolver.resolve_expr (f + 1) st (.Variable n d)).2 = st ∧
    (Resolver.resolve_expr (f + 1) st (.Variable n d)).1 =
      .Variable n (rld n.lexeme st.scopes) ∧
    FoundTrue n.lexeme st.scopes := by
  obtain ⟨scs, cs0, cf0, cc0, errs0⟩ := st
  cases scs with
  | nil => exact ⟨rfl, rfl, by trivial⟩
  | cons sc rest =>
      simp only [Resolver.resolve_expr] at heq ⊢
      by_cases hck : alistGet sc n.lexeme = some false
      · rw [if_pos hck] at heq
        simp only [Resolver.rerror] at heq
        omega
      · rw [if_neg hck] at heq ⊢
        exact ⟨rfl, rfl, FoundTrue_of_head_check hck htail⟩

theorem AFun_step (f : Nat) (ih : AAll f) : AFun (f + 1) := by
  obtain ⟨_, _, _, ihSs, _, _, _, _⟩ := ih
  have hPSs := (PAll_all f).2.2.2.1
  intro st fn ft hcc htrue hps heq
  obtain ⟨scs, cs0, cf0, cc0, errs0⟩ := st
  obtain ⟨nm, ps, body⟩ := fn
  simp only [Resolver.resolve_function, Resolver.begin_scope] at heq ⊢
  obtain ⟨k1, h1⟩ := fold_params_eq ps [] scs cs0 (some ft) cc0 errs0
  rw [h1] at heq ⊢
  rcases hx : Resolver.resolve_stmts f
      ⟨bindParams [] ps :: scs, cs0, some ft, cc0, errs0 + k1⟩ body
      with ⟨body1, st3⟩
  simp only [hx] at heq ⊢
  have hP := hPSs ⟨bindParams [] ps :: scs, cs0, some ft, cc0, errs0 + k1⟩ body
  rw [hx] at hP
  simp only at hP
  obtain ⟨hmono, _, _, _⟩ := hP
  simp only [Resolver.end_scope] at heq
  have hA := ihSs ⟨bindParams [] ps :: scs, cs0, some ft, cc0, errs0 + k1⟩ body
    hcc (AllTrue_bindParams_cons htrue) hps (by
      rw [hx]
      simp only
      omega)
  rw [hx] at hA
  simp only at hA
  exact ⟨body1, rfl, hA⟩

theorem AMList_step (f : Nat) (ih : AAll f) : AMList (f + 1) := by
  obtain ⟨_, _, _, _, ihF, ihML, _, _⟩ := ih
  have hPF := (PAll_all f).2.2.2.2.1
  have hPML := (PAll_all f).2.2.2.2.2.2
  intro st ms hcc htrue hms heq
  cases ms with
  | nil =>
      intro m2 hm2
      simp only [Resolver.resolve_method_list] at hm2
      exact absurd hm2 (List.not_mem_nil _)
  | cons m rest =>
      simp only [Resolver.resolve_method_list] at heq ⊢
      obtain ⟨k1, cs1, h1, ht1⟩ := define_method_eq st m.name
      rw [h1] at heq ⊢
      rcases hx2 : Resolver.resolve_function f
          { st with num_of_resolver_errs := st.num_of_resolver_errs + k1,
                    class_scopes := cs1 } m
          (if m.name.lexeme = "init" then FunctionType.Initializer
           else FunctionType.Method) with ⟨m1, st2⟩
      simp only [hx2] at heq ⊢
      have hPFm := hPF { st with num_of_resolver_errs :=
          st.num_of_resolver_errs + k1, class_scopes := cs1 } m
        (if m.name.lexeme = "init" then FunctionType.Initializer
         else FunctionType.Method)
      rw [hx2] at hPFm
      simp only at hPFm
      obtain ⟨⟨k2, h2⟩, _⟩ := hPFm
      subst h2
      rcases hx3 : Resolver.resolve_method_list f
          { st with num_of_resolver_errs := st.num_of_resolver_errs + k1 + k2,
                    class_scopes := cs1 } rest with ⟨rest1, st3⟩
      simp only [hx3] at heq ⊢
      have hPMLr := hPML { st with num_of_resolver_errs :=
          st.num_of_resolver_errs + k1 + k2, class_scopes := cs1 } rest
      rw [hx3] at hPMLr
      simp only at hPMLr
      obtain ⟨k3, cs3, h3, ht3⟩ := hPMLr
      subst h3
      simp only at heq
      have hAm := ihF { st with num_of_resolver_errs :=
          st.num_of_resolver_errs + k1, class_scopes := cs1 } m
        (if m.name.lexeme = "init" then FunctionType.Initializer
         else FunctionType.Method) hcc htrue (hms m (List.mem_cons_self _ _))
        (by
          rw [hx2]
          simp only
          omega)
      rw [hx2] at hAm
      simp only at hAm
      obtain ⟨body2, hshA, hwf⟩ := hAm
      have hAr := ihML { st with num_of_resolver_errs :=
          st.num_of_resolver_errs + k1 + k2, class_scopes := cs1 } rest hcc htrue
        (fun m3 hm3 => hms m3 (List.mem_cons_of_mem _ hm3))
        (by
          rw [hx3]
          simp only
          omega)
      rw [hx3] at hAr
      simp only at hAr
      intro m2 hm2
      rcases List.mem_cons.mp hm2 with h | h
      · subst h
        rw [hshA]
        exact hwf
      · exact hAr m2 h

theorem AMethodsNone_step (f : Nat) (ih : AAll f) : AMethodsNone (f + 1) := by
  obtain ⟨_, _, _, _, _, ihML, _, _⟩ := ih
  have hPML := (PAll_all f).2.2.2.2.2.2
  intro st ms htrue hps heq
  obtain ⟨scs, cs0, cf0, cc0, errs0⟩ := st
  simp only [Resolver.resolve_methods, Resolver.begin_scope,
    Resolver.insert_top] at heq ⊢
  rcases hx : Resolver.resolve_method_list f
      ⟨alistInsert [] "this" true :: scs, cs0, cf0, some .Class, errs0⟩ ms
      with ⟨ms1, st4⟩
  simp only [hx] at heq ⊢
  have hP := hPML ⟨alistInsert [] "this" true :: scs, cs0, cf0,
    some .Class, errs0⟩ ms
  rw [hx] at hP
  simp only at hP
  obtain ⟨k1, cs2, h1, ht1⟩ := hP
  subst h1
  simp only [Resolver.end_scope] at heq
  refine ⟨True.intro, ?_⟩
  have hA := ihML ⟨alistInsert [] "this" true :: scs, cs0, cf0,
      some .Class, errs0⟩ ms (by simp) (AllTrue_thisCons htrue) hps
    (by
      rw [hx]
      simp only
      omega)
  rw [hx] at hA
  simp only at hA
  intro m2 hm2
  exact hA m2 hm2

theorem AMethodsVar_step (f : Nat) : AMethodsVar (f + 1) := by
  intro st sctok d ms htrue heq
  obtain ⟨scs, cs0, cf0, cc0, errs0⟩ := st
  cases f with
  | zero =>
      simp only [Resolver.resolve_methods, Resolver.resolve_expr,
        Resolver.resolve_method_list, Resolver.rerror, Resolver.begin_scope,
        Resolver.insert_top, Resolver.end_scope] at heq
      omega
  | succ f2 =>
      have hPE := (PAll_all (f2 + 1)).1
      have hPML := (PAll_all (f2 + 1)).2.2.2.2.2.2
      simp only [Resolver.resolve_methods, Resolver.begin_scope,
        Resolver.insert_top] at heq ⊢
      rcases hx1 : Resolver.resolve_expr (f2 + 1)
          ⟨scs, cs0, cf0, some .SubClass, errs0⟩ (.Variable sctok d)
          with ⟨sc1, st1b⟩
      simp only [hx1] at heq ⊢
      obtain ⟨k1, h1⟩ := hPE ⟨scs, cs0, cf0, some .SubClass, errs0⟩
        (.Variable sctok d)
      rw [hx1] at h1
      simp only at h1
      subst h1
      dsimp only at heq ⊢
      rcases hx2 : Resolver.resolve_method_list (f2 + 1)
          ⟨alistInsert [] "this" true :: alistInsert [] "super" true :: scs,
            cs0, cf0, some .SubClass, errs0 + k1⟩ ms with ⟨ms1, st4⟩
      simp only [hx2] at heq ⊢
      have hP := hPML ⟨alistInsert [] "this" true ::
          alistInsert [] "super" true :: scs,
        cs0, cf0, some .SubClass, errs0 + k1⟩ ms
      rw [hx2] at hP
      simp only at hP
      obtain ⟨k2, cs2, h2, ht2⟩ := hP
      subst h2
      simp only [Resolver.end_scope] at heq
      have hv := resolve_var_succ f2 ⟨scs, cs0, cf0, some .SubClass, errs0⟩
        sctok d (by
          rw [hx1]
          simp only
          omega) (AllTrue_tail htrue)
      rw [hx1] at hv
      simp only at hv
      obtain ⟨hst1b, hsc1, hfound⟩ := hv
      refine ⟨?_, hfound⟩
      rw [hsc1]

theorem AStmt_step (f : Nat) (ih : AAll f) : AStmt (f + 1) := by
  obtain ⟨ihE, ihEs, ihS, ihSs, ihF, ihML, ihMN, ihMV⟩ := ih
  have hPE := (PAll_all f).1
  have hPS := (PAll_all f).2.2.1
  have hPF := (PAll_all f).2.2.2.2.1
  have hPM := (PAll_all f).2.2.2.2.2.1
  have hShSb := (ShapeAll_all f).2.2.1
  intro st s hcc htrue hps heq
  cases s with
  | ExpressionStmt e =>
      have hpe : PSE e := by
        cases hps with
        | ofBranch hb => cases hb with | exprS h => exact h
      rcases hx : Resolver.resolve_expr f st e with ⟨e1, st1⟩
      simp only [Resolver.resolve_stmt, hx] at heq ⊢
      have hwf := ihE st e hcc (AllTrue_tail htrue) (FoundTrue_of_allTrue htrue)
        hpe (by rw [hx]; exact heq)
      rw [hx] at hwf
      exact WfStmt.exprS hwf
  | PrintStmt e =>
      have hpe : PSE e := by
        cases hps with
        | ofBranch hb => cases hb with | printS h => exact h
      rcases hx : Resolver.resolve_expr f st e with ⟨e1, st1⟩
      simp only [Resolver.resolve_stmt, hx] at heq ⊢
      have hwf := ihE st e hcc (AllTrue_tail htrue) (FoundTrue_of_allTrue htrue)
        hpe (by rw [hx]; exact heq)
      rw [hx] at hwf
      exact WfStmt.printS hwf
  | Return k v =>
      obtain ⟨scs, cs0, cf0, cc0, errs0⟩ := st
      cases cf0 with
      | none =>
          simp only [Resolver.resolve_stmt, Resolver.rerror] at heq
          omega
      | some ft =>
          cases v with
          | none =>
              simp only [Resolver.resolve_stmt]
              exact WfStmt.return_none
          | some v0 =>
              have hpv : PSE v0 := by
                cases hps with
                | ofBranch hb => cases hb with | return_some h => exact h
              simp only [Resolver.resolve_stmt] at heq ⊢
              by_cases hft : ft = FunctionType.Initializer
              · rw [if_pos hft] at heq
                simp only [Resolver.rerror] at heq
                omega
              · rw [if_neg hft] at heq ⊢
                rcases hx : Resolver.resolve_expr f
                    ⟨scs, cs0, some ft, cc0, errs0⟩ v0 with ⟨v1, st1⟩
                simp only [hx] at heq ⊢
                have hwf := ihE ⟨scs, cs0, some ft, cc0, errs0⟩ v0 hcc
                  (AllTrue_tail htrue) (FoundTrue_of_allTrue htrue) hpv
                  (by rw [hx]; exact heq)
                rw [hx] at hwf
                simp only at hwf
                exact WfStmt.return_some hwf
  | Var name v =>
      cases v with
      | none =>
          simp only [Resolver.resolve_stmt]
          exact WfStmt.var_none
      | some e =>
          obtain ⟨hne, hpe⟩ : ¬ name.lexeme = "this" ∧ PSE e := by
            cases hps with
            | ofBranch hb => cases hb
            | var_some hne hpe => exact ⟨hne, hpe⟩
          obtain ⟨scs, cs0, cf0, cc0, errs0⟩ := st
          cases scs with
          | nil =>
              simp only [Resolver.resolve_stmt, Resolver.declare] at heq ⊢
              rcases hx : Resolver.resolve_expr f ⟨[], cs0, cf0, cc0, errs0⟩ e
                  with ⟨e1, st2⟩
              simp only [hx] at heq ⊢
              obtain ⟨k1, h1⟩ := hPE ⟨[], cs0, cf0, cc0, errs0⟩ e
              rw [hx] at h1
              simp only at h1
              subst h1
              simp only [Resolver.define] at heq
              have hwf := ihE ⟨[], cs0, cf0, cc0, errs0⟩ e hcc
                (fun sc h => absurd h (List.not_mem_nil _))
                (by trivial) hpe (by rw [hx]; simp only; omega)
              rw [hx] at hwf
              simp only at hwf
              exact WfStmt.var_some hwf
          | cons sc rest =>
              simp only [Resolver.resolve_stmt, Resolver.declare] at heq ⊢
              cases hdup : alistContains sc name.lexeme with
              | true =>
                  simp only [hdup, if_true, Resolver.rerror] at heq
                  rcases hx : Resolver.resolve_expr f
                      ⟨sc :: rest, cs0, cf0, cc0, errs0 + 1⟩ e with ⟨e1, st2⟩
                  simp only [hx] at heq
                  obtain ⟨k1, h1⟩ := hPE ⟨sc :: rest, cs0, cf0, cc0, errs0 + 1⟩ e
                  rw [hx] at h1
                  simp only at h1
                  subst h1
                  simp only [Resolver.define] at heq
                  omega
              | false =>
                  simp only [hdup, Bool.false_eq_true, if_false] at heq ⊢
                  rcases hx : Resolver.resolve_expr f
                      ⟨((name.lexeme, false) :: sc) :: rest,
                        cs0, cf0, cc0, errs0⟩ e with ⟨e1, st2⟩
                  simp only [hx] at heq ⊢
                  obtain ⟨k1, h1⟩ := hPE ⟨((name.lexeme, false) :: sc) :: rest,
                    cs0, cf0, cc0, errs0⟩ e
                  rw [hx] at h1
                  simp only at h1
                  subst h1
                  simp only [Resolver.define] at heq
                  have hwf := ihE ⟨((name.lexeme, false) :: sc) :: rest, cs0,
                      cf0, cc0, errs0⟩ e hcc
                    (show AllTrue rest from AllTrue_tail htrue)
                    (@FoundTrue_declCtx (sc :: rest) name.lexeme "this" hne
                      (FoundTrue_of_allTrue htrue)) hpe
                    (by rw [hx]; simp only; omega)
                  rw [hx] at hwf
                  simp only at hwf
                  exact WfStmt.var_some hwf
  | Block ss =>
      have hl : PSList ss := by
        cases hps with
        | ofBranch hb => cases hb with | blockS h => exact h
      rcases hx : Resolver.resolve_stmts f (Resolver.begin_scope st) ss
          with ⟨ss1, st1⟩
      simp only [Resolver.resolve_stmt, hx] at heq ⊢
      simp only [Resolver.end_scope] at heq
      have hA := ihSs (Resolver.begin_scope st) ss hcc (AllTrue_nil_cons htrue)
        hl (by rw [hx]; exact heq)
      rw [hx] at hA
      simp only at hA
      exact WfStmt.blockS hA
  | IfStmt c t eb =>
      rcases hx1 : Resolver.resolve_expr f st c with ⟨c1, st1⟩
      rcases hx2 : Resolver.resolve_stmt f st1 t with ⟨t1, st2⟩
      obtain ⟨k1, h1⟩ := hPE st c
      rw [hx1] at h1
      simp only at h1
      have hPt := hPS st1 t
      rw [hx2] at hPt
      simp only at hPt
      obtain ⟨hmono2, ⟨hcs2, hcf2, hcc2⟩, _, hpost2⟩ := hPt
      rw [h1] at hmono2
      simp only at hmono2
      cases eb with
      | none =>
          obtain ⟨hpc, hpt⟩ : PSE c ∧ PSb t := by
            cases hps with
            | ofBranch hb =>
                cases hb with
                | if_none ha hb2 => exact ⟨ha, hb2⟩
          simp only [Resolver.resolve_stmt, hx1, hx2] at heq ⊢
          have hk1 : k1 = 0 := by omega
          have hst1 : st1 = st := state_eq_of_zero h1 hk1
          have hwc := ihE st c hcc (AllTrue_tail htrue)
            (FoundTrue_of_allTrue htrue) hpc (by rw [hx1, hst1])
          rw [hx1] at hwc
          simp only at hwc
          have hwt := ihS st1 t (by rw [hst1]; exact hcc)
            (by rw [hst1]; exact htrue) (PS.ofBranch hpt)
            (by rw [hx2, h1]; simp only; omega)
          rw [hx2] at hwt
          simp only at hwt
          rw [hst1] at hwt
          have hsb1 := hShSb st1 t hpt
          rw [hx2] at hsb1
          exact WfStmt.if_none hwc hwt (postCtx_of_PSb t1 hsb1 st.scopes)
      | some e =>
          obtain ⟨hpc, hpt, hpe⟩ : PSE c ∧ PSb t ∧ PSb e := by
            cases hps with
            | ofBranch hb =>
                cases hb with
                | if_some ha hb2 hc2 => exact ⟨ha, hb2, hc2⟩
          rcases hx3 : Resolver.resolve_stmt f st2 e with ⟨e1, st3⟩
          have hPe := hPS st2 e
          rw [hx3] at hPe
          simp only at hPe
          obtain ⟨hmono3, ⟨hcs3, hcf3, hcc3⟩, _, _⟩ := hPe
          simp only [Resolver.resolve_stmt, hx1, hx2, hx3] at heq ⊢
          have hk1 : k1 = 0 := by omega
          have hst1 : st1 = st := state_eq_of_zero h1 hk1
          have hwc := ihE st c hcc (AllTrue_tail htrue)
            (FoundTrue_of_allTrue htrue) hpc (by rw [hx1, hst1])
          rw [hx1] at hwc
          simp only at hwc
          have hwt := ihS st1 t (by rw [hst1]; exact hcc)
            (by rw [hst1]; exact htrue) (PS.ofBranch hpt)
            (by rw [hx2, h1]; simp only; omega)
          rw [hx2] at hwt
          simp only at hwt
          rw [hst1] at hwt
          have hsb1 := hShSb st1 t hpt
          rw [hx2] at hsb1
          have hsc2 : st2.scopes = postCtx st1.scopes t1 := hpost2 (by
            rw [h1]
            simp only
            omega)
          have hsc2e : st2.scopes = st.scopes := by
            rw [hsc2, hst1, postCtx_of_PSb t1 hsb1]
          have hwe := ihS st2 e (by rw [hcc2, hst1]; exact hcc)
            (by rw [hsc2e]; exact htrue) (PS.ofBranch hpe)
            (by rw [hx3]; simp only; omega)
          rw [hx3] at hwe
          simp only at hwe
          rw [hsc2e] at hwe
          have hsb3 := hShSb st2 e hpe
          rw [hx3] at hsb3
          exact WfStmt.if_some hwc hwt hwe (postCtx_of_PSb t1 hsb1 st.scopes)
            (postCtx_of_PSb e1 hsb3 st.scopes)
  | WhileStmt c b =>
      obtain ⟨hpc, hpb⟩ : PSE c ∧ PSb b := by
        cases hps with
        | ofBranch hb =>
            cases hb with
            | whileS ha hb2 => exact ⟨ha, hb2⟩
      rcases hx1 : Resolver.resolve_expr f st c with ⟨c1, st1⟩
      rcases hx2 : Resolver.resolve_stmt f st1 b with ⟨b1, st2⟩
      obtain ⟨k1, h1⟩ := hPE st c
      rw [hx1] at h1
      simp only at h1
      have hPt := hPS st1 b
      rw [hx2] at hPt
      simp only at hPt
      obtain ⟨hmono2, _, _, _⟩ := hPt
      rw [h1] at hmono2
      simp only at hmono2
      simp only [Resolver.resolve_stmt, hx1, hx2] at heq ⊢
      have hk1 : k1 = 0 := by omega
      have hst1 : st1 = st := state_eq_of_zero h1 hk1
      have hwc := ihE st c hcc (AllTrue_tail htrue)
        (FoundTrue_of_allTrue htrue) hpc (by rw [hx1, hst1])
      rw [hx1] at hwc
      simp only at hwc
      have hwb := ihS st1 b (by rw [hst1]; exact hcc)
        (by rw [hst1]; exact htrue) (PS.ofBranch hpb)
        (by rw [hx2, h1]; simp only; omega)
      rw [hx2] at hwb
      simp only at hwb
      rw [hst1] at hwb
      have hsb1 := hShSb st1 b hpb
      rw [hx2] at hsb1
      exact WfStmt.whileS hwc hwb (postCtx_of_PSb b1 hsb1 st.scopes)
  | Function fn =>
      obtain ⟨nm, ps, body⟩ := fn
      have hl : PSList body := by
        cases hps with
        | ofBranch hb => cases hb
        | functionS h => exact h
      obtain ⟨scs, cs0, cf0, cc0, errs0⟩ := st
      simp only [Resolver.resolve_stmt, Fun.name] at heq ⊢
      obtain ⟨k0, h0⟩ := declare_define_eq scs cs0 cf0 cc0 errs0 nm
      rw [h0] at heq ⊢
      rcases hx : Resolver.resolve_function f
          ⟨ctxDefine scs nm.lexeme, cs0, cf0, cc0, errs0 + k0⟩
          (.mk nm ps body) FunctionType.Function with ⟨fn1, st2⟩
      simp only [hx] at heq ⊢
      have hPFf := hPF ⟨ctxDefine scs nm.lexeme, cs0, cf0, cc0, errs0 + k0⟩
        (.mk nm ps body) FunctionType.Function
      rw [hx] at hPFf
      simp only at hPFf
      obtain ⟨⟨k1, h1⟩, _⟩ := hPFf
      subst h1
      simp only at heq
      have hA := ihF ⟨ctxDefine scs nm.lexeme, cs0, cf0, cc0, errs0 + k0⟩
        (.mk nm ps body) FunctionType.Function hcc (AllTrue_ctxDefine htrue) hl
        (by rw [hx]; simp only; omega)
      rw [hx] at hA
      simp only at hA
      obtain ⟨body1, hsh, hwf⟩ := hA
      rw [hsh]
      exact WfStmt.functionS hwf
  | Class name sc methods =>
      obtain ⟨scs, cs0, cf0, cc0, errs0⟩ := st
      cases hps with
      | ofBranch hb => cases hb
      | class_none hm =>
          simp only [Resolver.resolve_stmt] at heq ⊢
          obtain ⟨k0, h0⟩ := declare_define_eq scs cs0 cf0 cc0 errs0 name
          rw [h0] at heq ⊢
          simp only [Resolver.begin_class_scope] at heq ⊢
          rcases hx : Resolver.resolve_methods f
              ⟨ctxDefine scs name.lexeme, ⟨name.lexeme, none, []⟩ :: cs0,
                cf0, cc0, errs0 + k0⟩ none methods with ⟨sc1, ms1, st4⟩
          simp only [hx] at heq ⊢
          have hPMm := hPM ⟨ctxDefine scs name.lexeme,
            ⟨name.lexeme, none, []⟩ :: cs0, cf0, cc0, errs0 + k0⟩ none methods
          rw [hx] at hPMm
          simp only at hPMm
          obtain ⟨k1, cs2, h1, ht1⟩ := hPMm
          subst h1
          simp only [Resolver.end_class_scope] at heq
          have hA := ihMN ⟨ctxDefine scs name.lexeme,
              ⟨name.lexeme, none, []⟩ :: cs0, cf0, cc0, errs0 + k0⟩ methods
            (AllTrue_ctxDefine htrue) hm (by rw [hx]; simp only; omega)
          rw [hx] at hA
          simp only at hA
          obtain ⟨hnone, hwfm⟩ := hA
          rw [hnone]
          exact WfStmt.class_root (fun m hm2 => hwfm m hm2)
      | class_var hm =>
          rename_i scTok d
          simp only [Resolver.resolve_stmt] at heq ⊢
          obtain ⟨k0, h0⟩ := declare_define_eq scs cs0 cf0 cc0 errs0 name
          rw [h0] at heq ⊢
          simp only [Resolver.begin_class_scope] at heq ⊢
          by_cases hlex : scTok.lexeme = name.lexeme
          · rw [if_pos hlex] at heq
            simp only [Resolver.rerror] at heq
            rcases hx : Resolver.resolve_methods f
                ⟨ctxDefine scs name.lexeme,
                  ⟨name.lexeme, some scTok, []⟩ :: cs0,
                  cf0, cc0, errs0 + k0 + 1⟩ (some (.Variable scTok d)) methods
                with ⟨sc1, ms1, st4⟩
            simp only [hx] at heq
            have hPMm := hPM ⟨ctxDefine scs name.lexeme,
              ⟨name.lexeme, some scTok, []⟩ :: cs0, cf0, cc0, errs0 + k0 + 1⟩
              (some (.Variable scTok d)) methods
            rw [hx] at hPMm
            simp only at hPMm
            obtain ⟨k1, cs2, h1, ht1⟩ := hPMm
            subst h1
            simp only [Resolver.end_class_scope] at heq
            omega
          · rw [if_neg hlex] at heq ⊢
            rcases hx : Resolver.resolve_methods f
                ⟨ctxDefine scs name.lexeme,
                  ⟨name.lexeme, some scTok, []⟩ :: cs0,
                  cf0, cc0, errs0 + k0⟩ (some (.Variable scTok d)) methods
                with ⟨sc1, ms1, st4⟩
            simp only [hx] at heq ⊢
            have hPMm := hPM ⟨ctxDefine scs name.lexeme,
              ⟨name.lexeme, some scTok, []⟩ :: cs0, cf0, cc0, errs0 + k0⟩
              (some (.Variable scTok d)) methods
            rw [hx] at hPMm
            simp only at hPMm
            obtain ⟨k1, cs2, h1, ht1⟩ := hPMm
            subst h1
            simp only [Resolver.end_class_scope] at heq
            have hA := ihMV ⟨ctxDefine scs name.lexeme,
                ⟨name.lexeme, some scTok, []⟩ :: cs0, cf0, cc0, errs0 + k0⟩
              scTok d methods (AllTrue_ctxDefine htrue)
              (by rw [hx]; simp only; omega)
            rw [hx] at hA
            simp only at hA
            obtain ⟨hsc1, hfound⟩ := hA
            rw [hsc1]
            exact WfStmt.class_sub hlex rfl hfound

theorem AStmts_step (f : Nat) (ih : AAll f) : AStmts (f + 1) := by
  obtain ⟨_, _, ihS, ihSs, _, _, _, _⟩ := ih
  have hPSt := (PAll_all f).2.2.1
  have hPSts := (PAll_all f).2.2.2.1
  intro st l hcc htrue hl heq
  cases l with
  | nil =>
      simp only [Resolver.resolve_stmts]
      exact WfStmts.nil
  | cons s rest =>
      obtain ⟨hp, hrest⟩ : PS s ∧ PSList rest := by
        cases hl with
        | cons a b => exact ⟨a, b⟩
      rcases hx1 : Resolver.resolve_stmt f st s with ⟨s1, st1⟩
      rcases hx2 : Resolver.resolve_stmts f st1 rest with ⟨rest1, st2⟩
      simp only [Resolver.resolve_stmts, hx1, hx2] at heq ⊢
      have hP1 := hPSt st s
      rw [hx1] at hP1
      simp only at hP1
      obtain ⟨hm1, ⟨hcs1, hcf1, hcc1⟩, _, hpost1⟩ := hP1
      have hP2 := hPSts st1 rest
      rw [hx2] at hP2
      simp only at hP2
      obtain ⟨hm2, _, _, _⟩ := hP2
      have h1eq : st1.num_of_resolver_errs = st.num_of_resolver_errs := by omega
      have hscopes1 : st1.scopes = postCtx st.scopes s1 := hpost1 h1eq
      have hws := ihS st s hcc htrue hp (by rw [hx1]; simp only; omega)
      rw [hx1] at hws
      simp only at hws
      have hwrest := ihSs st1 rest (by rw [hcc1]; exact hcc)
        (by rw [hscopes1]; exact AllTrue_postCtx s1 _ htrue)
        hrest (by rw [hx2]; simp only; omega)
      rw [hx2] at hwrest
      simp only at hwrest
      rw [hscopes1] at hwrest
      exact WfStmts.cons hws hwrest

theorem AAll_zero : AAll 0 := by
  refine ⟨?_, ?_, ?_, ?_, ?_, ?_, ?_, ?_⟩
  · intro st e hcc htail hthis hpse heq
    simp only [Resolver.resolve_expr, Resolver.rerror] at heq
    omega
  · intro st es hcc htail hthis hps heq
    simp only [Resolver.resolve_exprs, Resolver.rerror] at heq
    omega
  · intro st s hcc htrue hps heq
    simp only [Resolver.resolve_stmt, Resolver.rerror] at heq
    omega
  · intro st l hcc htrue hl heq
    simp only [Resolver.resolve_stmts, Resolver.rerror] at heq
    omega
  · intro st fn ft hcc htrue hps heq
    simp only [Resolver.resolve_function, Resolver.rerror] at heq
    omega
  · intro st ms hcc htrue hms heq
    simp only [Resolver.resolve_method_list, Resolver.rerror] at heq
    omega
  · intro st ms htrue hps heq
    simp only [Resolver.resolve_methods, Resolver.rerror] at heq
    omega
  · intro st sctok d ms htrue heq
    simp only [Resolver.resolve_methods, Resolver.rerror] at heq
    omega

theorem AAll_all : ∀ f, AAll f := by
  intro f
  induction f with
  | zero => exact AAll_zero
  | succ f ihf =>
      exact ⟨AExpr_step f ihf, AExprs_step f ihf, AStmt_step f ihf,
        AStmts_step f ihf, AFun_step f ihf, AMList_step f ihf,
        AMethodsNone_step f ihf, AMethodsVar_step f⟩

theorem OkBase_refl_of {s : IState} (hs : StoreWF s.heap) : OkBase s s :=
  ⟨hs, rfl, rfl, HeapExtends.refl _⟩

theorem OkBase_trans {s1 s2 s3 : IState} (a : OkBase s1 s2)
    (b : OkBase s2 s3) : OkBase s1 s3 :=
  ⟨b.1, b.2.1.trans a.2.1, b.2.2.1.trans a.2.2.1,
    HeapExtends.trans a.2.2.2 b.2.2.2⟩

theorem GoodState_of_base {s s2 : IState} {Γ : Ctx} (g : GoodState s Γ)
    (b : OkBase s s2) : GoodState s2 Γ := by
  refine ⟨b.1, ?_, ?_⟩
  · rw [b.2.1]
    exact g.2.1
  · rw [b.2.2.1]
    exact Corresponds_extends g.2.2 b.2.2.2

theorem ECond_absorb {s s2 : IState} {r : HRes HVal} (b : OkBase s s2)
    (h : ECond s2 r) : ECond s r := by
  cases r with
  | ok v s3 => exact ⟨h.1, OkBase_trans b h.2⟩
  | err e s3 => exact ⟨OkBase_trans b h.1, h.2⟩
  | panicEnv => exact h
  | panicOther => trivial
  | timeout => trivial

theorem ACond_absorb {es : List Expr} {s s2 : IState} {r : HRes (List HVal)}
    (b : OkBase s s2) (h : ACond es s2 r) : ACond es s r := by
  cases r with
  | ok vs s3 => exact ⟨h.1, h.2.1, OkBase_trans b h.2.2⟩
  | err e s3 => exact ⟨OkBase_trans b h.1, h.2⟩
  | panicEnv => exact h
  | panicOther => trivial
  | timeout => trivial

theorem UCond_absorb {s s2 : IState} {r : HRes Unit} (b : OkBase s s2)
    (h : UCond s2 r) : UCond s r := by
  cases r with
  | ok v s3 => exact OkBase_trans b h
  | err e s3 => exact ⟨OkBase_trans b h.1, h.2⟩
  | panicEnv => exact h
  | panicOther => trivial
  | timeout => trivial

theorem SCond_absorb {Γ2 : Ctx} {s s2 : IState} {r : HRes Unit}
    (b : OkBase s s2) (h : SCond Γ2 s2 r) : SCond Γ2 s r := by
  cases r with
  | ok v s3 => exact ⟨OkBase_trans b h.1, h.2⟩
  | err e s3 => exact ⟨OkBase_trans b h.1, h.2⟩
  | panicEnv => exact h
  | panicOther => trivial
  | timeout => trivial

theorem RetWF_rt (s2 : IState) (msg : String) :
    RetWF s2 (.runtimeError msg) :=
  fun _ h => nomatch h

theorem getByName_go_err {h : Heap} {n : String} :
    ∀ (fuel : Nat) (i : EnvId) (e : HInterpErr),
      Heap.getByName.go h n fuel i = Except.error e →
      ∃ msg, e = .runtimeError msg := by
  intro fuel
  induction fuel with
  | zero =>
      intro i e hg
      simp only [Heap.getByName.go] at hg
      cases hg
      exact ⟨_, rfl⟩
  | succ fuel ih =>
      intro i e hg
      simp only [Heap.getByName.go] at hg
      split at hg
      · cases hg
        exact ⟨_, rfl⟩
      · split at hg
        · cases hg
        · split at hg
          · cases hg
            exact ⟨_, rfl⟩
          · exact ih _ _ hg

theorem getByName_err_shape {h : Heap} {e0 : EnvId} {n : String}
    {e : HInterpErr} (hg : Heap.getByName h e0 n = Except.error e) :
    ∃ msg, e = .runtimeError msg := by
  unfold Heap.getByName at hg
  exact getByName_go_err _ _ _ hg

theorem assignByName_go_err {h : Heap} {n : String} {v : HVal} :
    ∀ (fuel : Nat) (i : EnvId) (e : HInterpErr),
      Heap.assignByName.go h n v fuel i = Except.error e →
      ∃ msg, e = .runtimeError msg := by
  intro fuel
  induction fuel with
  | zero =>
      intro i e hg
      simp only [Heap.assignByName.go] at hg
      cases hg
      exact ⟨_, rfl⟩
  | succ fuel ih =>
      intro i e hg
      simp only [Heap.assignByName.go] at hg
      split at hg
      · cases hg
        exact ⟨_, rfl⟩
      · split at hg
        · cases hg
        · split at hg
          · cases hg
            exact ⟨_, rfl⟩
          · exact ih _ _ hg

theorem assignByName_err_shape {h : Heap} {e0 : EnvId} {n : String} {v : HVal}
    {e : HInterpErr} (hg : Heap.assignByName h e0 n v = Except.error e) :
    ∃ msg, e = .runtimeError msg := by
  unfold Heap.assignByName at hg
  exact assignByName_go_err _ _ _ hg

theorem RetWF_of_shape {s2 : IState} {e : HInterpErr}
    (h : ∃ msg, e = .runtimeError msg) : RetWF s2 e := by
  obtain ⟨msg, hm⟩ := h
  subst hm
  exact RetWF_rt s2 msg

theorem evalBinaryOpH_ok_ValWF (hp : Heap) {op : TokenType} {l r v : HVal}
    (h : evalBinaryOpH op l r = .ok v) : ValWF hp v := by
  unfold evalBinaryOpH at h
  repeat' split at h
  all_goals cases h <;> trivial

theorem alistContains_insert_ne {sc : List (String × Bool)} {k n : String}
    (hne : ¬ k = n) :
    alistContains (alistInsert sc k true) n = alistContains sc n := by
  unfold alistContains
  rw [alistGet_insert, if_neg hne]

theorem rld_ctxDefine_ne {m n : String} (hne : ¬ n = m) (Γ : Ctx) :
    rld m (ctxDefine Γ n) = rld m Γ := by
  cases Γ with
  | nil => rfl
  | cons sc rest =>
      show rld m (alistInsert sc n true :: rest) = rld m (sc :: rest)
      simp only [rld, Resolver.resolve_local_depth_aux]
      rw [alistContains_insert_ne hne]

theorem FoundTrue_ctxDefine_ne {m n : String} (hne : ¬ n = m) {Γ : Ctx}
    (h : FoundTrue m (ctxDefine Γ n)) : FoundTrue m Γ := by
  cases Γ with
  | nil => trivial
  | cons sc rest =>
      show FoundTrue m (sc :: rest)
      have h2 : FoundTrue m (alistInsert sc n true :: rest) := h
      simp only [FoundTrue] at h2 ⊢
      rw [alistGet_insert, if_neg hne] at h2
      exact h2

theorem bindParams_dom : ∀ (ps : List Token) (sc : List (String × Bool))
    (n : String), (alistGet (bindParams sc ps) n).isSome →
    (alistGet sc n).isSome ∨ ∃ p ∈ ps, p.lexeme = n := by
  intro ps
  induction ps with
  | nil =>
      intro sc n h
      exact Or.inl h
  | cons p rest ih =>
      intro sc n h
      rcases ih _ n h with h1 | h1
      · rw [alistGet_insert] at h1
        by_cases hk : p.lexeme = n
        · exact Or.inr ⟨p, List.mem_cons_self _ _, hk⟩
        · rw [if_neg hk] at h1
          exact Or.inl h1
      · obtain ⟨p2, hp2, hl⟩ := h1
        exact Or.inr ⟨p2, List.mem_cons_of_mem _ hp2, hl⟩

theorem scopeDom_bindParams_zip {ps : List Token} {args : List HVal}
    (hlen : ps.length = args.length) :
    scopeDom (bindParams [] ps)
      ((List.zip (ps.map (fun p => p.lexeme)) args).foldl
        (fun acc pa => alistInsert acc pa.1 pa.2) []) := by
  intro n hn
  have hd := bindParams_dom ps [] n (by rw [hn]; rfl)
  rcases hd with h1 | h1
  · simp [alistGet] at h1
  · obtain ⟨p, hp, hl⟩ := h1
    have hmem : n ∈ ps.map (fun p => p.lexeme) := by
      rw [← hl]
      exact List.mem_map_of_mem _ hp
    have hlen2 : (ps.map (fun p => p.lexeme)).length = args.length := by
      rw [List.length_map]
      exact hlen
    obtain ⟨a, ha⟩ := zip_mem_of_mem_left hlen2 hmem
    exact alistGet_foldl_insert_isSome
      (fun pa : String × HVal => pa.1) (fun pa : String × HVal => pa.2)
      ((ps.map (fun p => p.lexeme)).zip args) [] n
      (Or.inr ⟨(n, a), ha, rfl⟩)

theorem get_at_zero_some {h : Heap} {e : EnvId} {n : String} {fr : HFrame}
    (hf : h.frame e = some fr) (hd : (alistGet fr.values n).isSome) :
    ∃ v, Heap.get_at h e n 0 = some v := by
  obtain ⟨v, hv⟩ := Option.isSome_iff_exists.mp hd
  refine ⟨v, ?_⟩
  unfold Heap.get_at Heap.env_at_depth
  rw [if_pos rfl, Option.some_bind, hf, Option.some_bind]
  exact hv

theorem bind_facts {h : Heap} {fn : Fun} {env : EnvId} {isInit : Bool}
    {recv : HVal} (hs : StoreWF h) (hm : MethodWF h fn env)
    (hrv : ValWF h recv) :
    StoreWF (h.bind fn env isInit recv).1 ∧
    HeapExtends h (h.bind fn env isInit recv).1 ∧
    ValWF (h.bind fn env isInit recv).1 (h.bind fn env isInit recv).2 := by
  obtain ⟨Γd, hcD, hwfD⟩ := hm
  have hvals : ∀ n v, (n, v) ∈ ([("this", recv)] :
      List (String × HVal)) → ValWF h v := by
    intro n v hmem
    rcases List.mem_cons.mp hmem with h1 | h1
    · cases h1
      exact hrv
    · exact absurd h1 (List.not_mem_nil _)
  have hx := extends_allocFrame h (⟨[("this", recv)], some env⟩ : HFrame)
  refine ⟨StoreWF_allocFrame hs hvals, hx, ?_, ?_⟩
  · refine ⟨thisScope :: Γd, ?_, hwfD⟩
    refine ⟨⟨[("this", recv)], some env⟩, frame_alloc_self h _,
      scopeDom_thisScope recv, env, rfl, Corresponds_extends hcD hx⟩
  · intro hb
    refine ⟨⟨[("this", recv)], some env⟩, frame_alloc_self h _, ?_⟩
    simp [alistGet]

theorem is_truthy_bool (v : HVal) : ∃ b, v.is_truthy = .hBool b := by
  cases v with
  | hNil => exact ⟨_, rfl⟩
  | hBool b => cases b <;> exact ⟨_, rfl⟩
  | hNum q => exact ⟨_, rfl⟩
  | hStr s => exact ⟨_, rfl⟩
  | hClock => exact ⟨_, rfl⟩
  | hFun fn c b => exact ⟨_, rfl⟩
  | hClass c => exact ⟨_, rfl⟩
  | hInstance i => exact ⟨_, rfl⟩

theorem evalBinaryOpH_err_shape {op : TokenType} {l r : HVal} {e : HInterpErr}
    (h : evalBinaryOpH op l r = .error e) : ∃ msg, e = .runtimeError msg := by
  unfold evalBinaryOpH at h
  repeat' split at h
  all_goals cases h <;> exact ⟨_, rfl⟩

theorem RunAll_zero : RunAll 0 := by
  refine ⟨?_, ?_, ?_, ?_, ?_, ?_, ?_⟩
  · intro s e Γ _ _
    trivial
  · intro s es Γ _ _
    trivial
  · intro s fv args _ _ _ _ _
    trivial
  · intro s st Γ _ _
    trivial
  · intro s l Γ _ _
    trivial
  · intro s newEnv l Γb _ _ _ _
    trivial
  · intro s name scOpt methods Γ _ _ _
    trivial

theorem RArgs_step (f : Nat) (ih : RunAll f) :
    ∀ s es Γ, GoodState s Γ → (∀ a ∈ es, WfExpr Γ a) →
      ACond es s (evaluateArgsH (f + 1) s es) := by
  obtain ⟨ihE, ihAs, _, _, _, _, _⟩ := ih
  intro s es Γ hg hwf
  cases es with
  | nil =>
      simp only [evaluateArgsH]
      exact ⟨fun v hv => absurd hv (List.not_mem_nil _), rfl,
        OkBase_refl_of hg.1⟩
  | cons e rest =>
      simp only [evaluateArgsH]
      have h1 := ihE s e Γ hg (hwf e (List.mem_cons_self _ _))
      cases hr1 : evaluateH f s e with
      | ok v s1 =>
          rw [hr1] at h1
          obtain ⟨hv, hb1⟩ := h1
          dsimp only
          have h2 := ihAs s1 rest Γ (GoodState_of_base hg hb1)
            (fun a ha => hwf a (List.mem_cons_of_mem _ ha))
          cases hr2 : evaluateArgsH f s1 rest with
          | ok vs s2 =>
              rw [hr2] at h2
              obtain ⟨hvs, hlen, hb2⟩ := h2
              dsimp only
              refine ⟨?_, ?_, OkBase_trans hb1 hb2⟩
              · intro w hw
                rcases List.mem_cons.mp hw with h3 | h3
                · subst h3
                  exact ValWF_extends hv hb2.2.2.2
                · exact hvs w h3
              · simp only [List.length_cons, hlen]
          | err e2 s2 =>
              rw [hr2] at h2
              exact ⟨OkBase_trans hb1 h2.1, h2.2⟩
          | panicEnv =>
              rw [hr2] at h2
              exact h2
          | panicOther => trivial
          | timeout => trivial
      | err e1 s1 =>
          rw [hr1] at h1
          exact h1
      | panicEnv =>
          rw [hr1] at h1
          exact h1
      | panicOther => trivial
      | timeout => trivial

theorem RBlock_step (f : Nat) (ih : RunAll f) :
    ∀ s newEnv l Γb, StoreWF s.heap → s.globals = 0 →
      Corresponds s.heap newEnv Γb → WfStmts Γb l →
      UCond s (executeBlockH (f + 1) s newEnv l) := by
  obtain ⟨_, _, _, _, ihSs, _, _⟩ := ih
  intro s newEnv l Γb hs hgl hc hwf
  simp only [executeBlockH]
  have h1 := ihSs { s with environment := newEnv } l Γb ⟨hs, hgl, hc⟩ hwf
  cases hr : executeStmtsH f { s with environment := newEnv } l with
  | ok u s1 =>
      rw [hr] at h1
      obtain ⟨⟨hs1, hg1, he1, hx1⟩, _⟩ := h1
      exact ⟨hs1, hg1, rfl, hx1⟩
  | err e s1 =>
      rw [hr] at h1
      obtain ⟨⟨hs1, hg1, he1, hx1⟩, hret⟩ := h1
      exact ⟨⟨hs1, hg1, rfl, hx1⟩, hret⟩
  | panicEnv =>
      rw [hr] at h1
      exact h1
  | panicOther => trivial
  | timeout => trivial

theorem RSs_step (f : Nat) (ih : RunAll f) :
    ∀ s l Γ, GoodState s Γ → WfStmts Γ l →
      SCond (postCtxs Γ l) s (executeStmtsH (f + 1) s l) := by
  obtain ⟨_, _, _, ihS, ihSs, _, _⟩ := ih
  intro s l Γ hg hwf
  cases l with
  | nil =>
      simp only [executeStmtsH]
      exact ⟨OkBase_refl_of hg.1, hg.2.2⟩
  | cons st rest =>
      simp only [executeStmtsH]
      cases hwf with
      | cons hw1 hwrest =>
          have h1 := ihS s st Γ hg hw1
          cases hr1 : executeH f s st with
          | ok u s1 =>
              rw [hr1] at h1
              obtain ⟨hb1, hc1⟩ := h1
              have h2 := ihSs s1 rest (postCtx Γ st)
                ⟨hb1.1, by rw [hb1.2.1]; exact hg.2.1, hc1⟩ hwrest
              exact SCond_absorb hb1 h2
          | err e s1 =>
              rw [hr1] at h1
              exact h1
          | panicEnv =>
              rw [hr1] at h1
              exact h1
          | panicOther => trivial
          | timeout => trivial

set_option maxHeartbeats 1000000 in
theorem RE_step (f : Nat) (ih : RunAll f) :
    ∀ s e Γ, GoodState s Γ → WfExpr Γ e → ECond s (evaluateH (f + 1) s e) := by
  obtain ⟨ihE, ihAs, ihC, _, _, _, _⟩ := ih
  intro s e Γ hg hwf
  cases hwf with
  | litral =>
      rename_i l
      simp only [evaluateH]
      refine ⟨?_, OkBase_refl_of hg.1⟩
      cases l <;> exact True.intro
  | groupingE hwe =>
      rename_i e1
      simp only [evaluateH]
      exact ihE s e1 Γ hg hwe
  | variableE hd hfd =>
      rename_i n depth
      simp only [evaluateH]
      cases hrd : rld n.lexeme Γ with
      | some d =>
          rw [hrd] at hd
          subst hd
          dsimp only
          obtain ⟨v, hv⟩ := corresponds_get_at hg.2.2 hrd hfd
          rw [hv]
          exact ⟨get_at_ValWF hg.1 hv, OkBase_refl_of hg.1⟩
      | none =>
          rw [hrd] at hd
          subst hd
          dsimp only
          cases hgb : Heap.getByName s.heap s.globals n.lexeme with
          | ok v =>
              exact ⟨getByName_ok_ValWF hg.1 hgb, OkBase_refl_of hg.1⟩
          | error e2 =>
              exact ⟨OkBase_refl_of hg.1,
                RetWF_of_shape (getByName_err_shape hgb)⟩
  | thisE hlex hd hfd =>
      rename_i k depth
      simp only [evaluateH]
      cases hrd : rld "this" Γ with
      | some d =>
          rw [hrd] at hd
          subst hd
          dsimp only
          rw [hlex]
          obtain ⟨v, hv⟩ := corresponds_get_at hg.2.2 hrd hfd
          rw [hv]
          exact ⟨get_at_ValWF hg.1 hv, OkBase_refl_of hg.1⟩
      | none =>
          rw [hrd] at hd
          subst hd
          trivial
  | assignE hd hwv =>
      rename_i n depth v
      simp only [evaluateH]
      have h1 := ihE s v Γ hg hwv
      cases hr1 : evaluateH f s v with
      | ok w s1 =>
          rw [hr1] at h1
          obtain ⟨hw, hb1⟩ := h1
          dsimp only
          cases hrd : rld n.lexeme Γ with
          | some d =>
              rw [hrd] at hd
              subst hd
              dsimp only
              have hc1 : Corresponds s1.heap s1.environment Γ := by
                rw [hb1.2.2.1]
                exact Corresponds_extends hg.2.2 hb1.2.2.2
              have hlt := rld_lt Γ d hrd
              obtain ⟨i, hi⟩ := corresponds_env_at_depth hc1 hlt
              have hsome : Heap.assign_at s1.heap s1.environment n.lexeme w d
                  = some (s1.heap.defineAt i n.lexeme w) := by
                unfold Heap.assign_at
                rw [hi, Option.map_some']
              rw [hsome]
              obtain ⟨hs2, hx2⟩ := assign_at_facts hb1.1 hw hsome
              exact ⟨ValWF_extends hw hx2, hs2, hb1.2.1, hb1.2.2.1,
                HeapExtends.trans hb1.2.2.2 hx2⟩
          | none =>
              rw [hrd] at hd
              subst hd
              dsimp only
              cases hab : Heap.assignByName s1.heap s1.globals n.lexeme w with
              | ok h2 =>
                  obtain ⟨hs2, hx2⟩ := assignByName_ok_facts hb1.1 hw hab
                  exact ⟨ValWF_extends hw hx2, hs2, hb1.2.1, hb1.2.2.1,
                    HeapExtends.trans hb1.2.2.2 hx2⟩
              | error e2 =>
                  exact ⟨hb1, RetWF_of_shape (assignByName_err_shape hab)⟩
      | err e1 s1 =>
          rw [hr1] at h1
          exact h1
      | panicEnv =>
          rw [hr1] at h1
          exact h1
      | panicOther => trivial
      | timeout => trivial
  | unaryE hwr =>
      rename_i op r
      simp only [evaluateH]
      have h1 := ihE s r Γ hg hwr
      cases hr1 : evaluateH f s r with
      | ok rv s1 =>
          rw [hr1] at h1
          obtain ⟨hrv, hb1⟩ := h1
          dsimp only
          cases htt : op.token_type
          case MINUS =>
              cases rv
              case hNum q => exact ⟨True.intro, hb1⟩
              all_goals exact ⟨hb1, RetWF_rt _ _⟩
          case BANG =>
              obtain ⟨b, hb⟩ := is_truthy_bool rv
              rw [hb]
              exact ⟨True.intro, hb1⟩
          all_goals exact ⟨hb1, RetWF_rt _ _⟩
      | err e1 s1 =>
          rw [hr1] at h1
          exact h1
      | panicEnv =>
          rw [hr1] at h1
          exact h1
      | panicOther => trivial
      | timeout => trivial
  | binaryE hwl hwr =>
      rename_i l op r
      simp only [evaluateH]
      have h1 := ihE s l Γ hg hwl
      cases hr1 : evaluateH f s l with
      | ok lv s1 =>
          rw [hr1] at h1
          obtain ⟨hlv, hb1⟩ := h1
          dsimp only
          have h2 := ihE s1 r Γ (GoodState_of_base hg hb1) hwr
          cases hr2 : evaluateH f s1 r with
          | ok rv s2 =>
              rw [hr2] at h2
              obtain ⟨hrv, hb2⟩ := h2
              dsimp only
              cases hop : evalBinaryOpH op.token_type lv rv with
              | ok w =>
                  exact ⟨evalBinaryOpH_ok_ValWF _ hop, OkBase_trans hb1 hb2⟩
              | error e2 =>
                  exact ⟨OkBase_trans hb1 hb2,
                    RetWF_of_shape (evalBinaryOpH_err_shape hop)⟩
          | err e2 s2 =>
              rw [hr2] at h2
              exact ⟨OkBase_trans hb1 h2.1, h2.2⟩
          | panicEnv =>
              rw [hr2] at h2
              exact h2
          | panicOther => trivial
          | timeout => trivial
      | err e1 s1 =>
          rw [hr1] at h1
          exact h1
      | panicEnv =>
          rw [hr1] at h1
          exact h1
      | panicOther => trivial
      | timeout => trivial
  | logicalE hwl hwr =>
      rename_i l op r
      simp only [evaluateH]
      have h1 := ihE s l Γ hg hwl
      cases hr1 : evaluateH f s l with
      | ok lv s1 =>
          rw [hr1] at h1
          obtain ⟨hlv, hb1⟩ := h1
          dsimp only
          have hA : ECond s (HRes.ok lv s1) := ⟨hlv, hb1⟩
          have hB : ECond s (evaluateH f s1 r) :=
            ECond_absorb hb1 (ihE s1 r Γ (GoodState_of_base hg hb1) hwr)
          cases htt : op.token_type <;> cases htb : lv.toBool <;>
            first
              | exact hA
              | exact hB
      | err e1 s1 =>
          rw [hr1] at h1
          exact h1
      | panicEnv =>
          rw [hr1] at h1
          exact h1
      | panicOther => trivial
      | timeout => trivial
  | callE hwc hwargs =>
      rename_i c p args
      simp only [evaluateH]
      have h1 := ihE s c Γ hg hwc
      cases hr1 : evaluateH f s c with
      | ok fv s1 =>
          rw [hr1] at h1
          obtain ⟨hfv, hb1⟩ := h1
          dsimp only
          by_cases hcall : fv.isCallable = true
          · rw [if_pos hcall]
            by_cases har : arityH s1.heap fv ≠ args.length
            · rw [if_pos har]
              exact ⟨hb1, RetWF_rt _ _⟩
            · rw [if_neg har]
              have h2 := ihAs s1 args Γ (GoodState_of_base hg hb1) hwargs
              cases hr2 : evaluateArgsH f s1 args with
              | ok vs s2 =>
                  rw [hr2] at h2
                  obtain ⟨hvs, hlen, hb2⟩ := h2
                  dsimp only
                  have hfv2 : ValWF s2.heap fv := ValWF_extends hfv hb2.2.2.2
                  have harity : arityH s2.heap fv = vs.length := by
                    rw [arityH_stable hb1.1 hb2.1 hb2.2.2.2 hfv, hlen]
                    exact of_not_not har
                  have h3 := ihC s2 fv vs hb2.1
                    (by rw [hb2.2.1, hb1.2.1]; exact hg.2.1) hfv2 hvs harity
                  exact ECond_absorb (OkBase_trans hb1 hb2) h3
              | err e2 s2 =>
                  rw [hr2] at h2
                  exact ⟨OkBase_trans hb1 h2.1, h2.2⟩
              | panicEnv =>
                  rw [hr2] at h2
                  exact h2
              | panicOther => trivial
              | timeout => trivial
          · rw [if_neg hcall]
            exact ⟨hb1, RetWF_rt _ _⟩
      | err e1 s1 =>
          rw [hr1] at h1
          exact h1
      | panicEnv =>
          rw [hr1] at h1
          exact h1
      | panicOther => trivial
      | timeout => trivial
  | getE hwo =>
      rename_i o n
      simp only [evaluateH]
      have h1 := ihE s o Γ hg hwo
      cases hr1 : evaluateH f s o with
      | ok ov s1 =>
          rw [hr1] at h1
          obtain ⟨hov, hb1⟩ := h1
          dsimp only
          cases ov
          case hInstance iid =>
              dsimp only
              cases hio : s1.heap.instObj iid with
              | none => trivial
              | some io =>
                  dsimp only
                  cases hfld : alistGet io.fields n.lexeme with
                  | some w =>
                      refine ⟨?_, hb1⟩
                      exact (hb1.1.2.2 iid io hio).2 n.lexeme w
                        (alistGet_mem hfld)
                  | none =>
                      dsimp only
                      cases hfm : Heap.find_method s1.heap io.kclass n.lexeme
                          with
                      | some t =>
                          obtain ⟨fn, env, isInit⟩ := t
                          dsimp only
                          have hmw := find_method_MethodWF hb1.1 hfm
                          obtain ⟨hbs, hbx, hbv⟩ := bind_facts hb1.1 hmw hov
                          exact ⟨hbv, hbs, hb1.2.1, hb1.2.2.1,
                            HeapExtends.trans hb1.2.2.2 hbx⟩
                      | none => exact ⟨hb1, RetWF_rt _ _⟩
          all_goals exact ⟨hb1, RetWF_rt _ _⟩
      | err e1 s1 =>
          rw [hr1] at h1
          exact h1
      | panicEnv =>
          rw [hr1] at h1
          exact h1
      | panicOther => trivial
      | timeout => trivial
  | setE hwo hwv =>
      rename_i o n v
      simp only [evaluateH]
      have h1 := ihE s o Γ hg hwo
      cases hr1 : evaluateH f s o with
      | ok ov s1 =>
          rw [hr1] at h1
          obtain ⟨hov, hb1⟩ := h1
          dsimp only
          cases ov
          case hInstance iid =>
              dsimp only
              have h2 := ihE s1 v Γ (GoodState_of_base hg hb1) hwv
              cases hr2 : evaluateH f s1 v with
              | ok w s2 =>
                  rw [hr2] at h2
                  obtain ⟨hw, hb2⟩ := h2
                  dsimp only
                  cases hio : s2.heap.instObj iid with
                  | none => trivial
                  | some io =>
                      dsimp only
                      have hk : io.kclass < s2.heap.classes.length :=
                        (hb2.1.2.2 iid io hio).1
                      have hfld : ∀ m u,
                          (m, u) ∈ alistInsert io.fields n.lexeme w →
                          ValWF s2.heap u := by
                        intro m u hm
                        rcases mem_alistInsert hm with ⟨hm1, hm2⟩ | hm2
                        · subst hm2
                          exact hw
                        · exact (hb2.1.2.2 iid io hio).2 m u hm2
                      refine ⟨ValWF_extends hw (extends_setInst _ _ _),
                        StoreWF_setInst hb2.1 hk hfld, hb2.2.1.trans hb1.2.1,
                        hb2.2.2.1.trans hb1.2.2.1, ?_⟩
                      exact HeapExtends.trans
                        (HeapExtends.trans hb1.2.2.2 hb2.2.2.2)
                        (extends_setInst _ _ _)
              | err e2 s2 =>
                  rw [hr2] at h2
                  exact ⟨OkBase_trans hb1 h2.1, h2.2⟩
              | panicEnv =>
                  rw [hr2] at h2
                  exact h2
              | panicOther => trivial
              | timeout => trivial
          all_goals exact ⟨hb1, RetWF_rt _ _⟩
      | err e1 s1 =>
          rw [hr1] at h1
          exact h1
      | panicEnv =>
          rw [hr1] at h1
          exact h1
      | panicOther => trivial
      | timeout => trivial

theorem SCond_of_UCond {Γ2 : Ctx} {s s2 : IState} {r : HRes Unit}
    (hU : UCond s2 r) (hb : OkBase s s2)
    (hc : Corresponds s.heap s.environment Γ2) : SCond Γ2 s r := by
  cases r with
  | ok u s3 =>
      have hb2 := OkBase_trans hb hU
      exact ⟨hb2, by rw [hb2.2.2.1]; exact Corresponds_extends hc hb2.2.2.2⟩
  | err e s3 => exact ⟨OkBase_trans hb hU.1, hU.2⟩
  | panicEnv => exact hU
  | panicOther => trivial
  | timeout => trivial

set_option maxHeartbeats 1000000 in
theorem RS_step (f : Nat) (ih : RunAll f) :
    ∀ s st Γ, GoodState s Γ → WfStmt Γ st →
      SCond (postCtx Γ st) s (executeH (f + 1) s st) := by
  obtain ⟨ihE, ihAs, ihC, ihS, ihSs, ihB, ihCB⟩ := ih
  intro s st Γ hg hwf
  cases hwf with
  | var_none =>
      rename_i n
      simp only [executeH]
      refine ⟨⟨StoreWF_defineAt hg.1 True.intro, rfl, rfl,
        extends_defineAt _ _ _ _⟩, ?_⟩
      exact Corresponds_ctxDefine .hNil hg.2.2
  | var_some hwe =>
      rename_i n e0
      simp only [executeH]
      have h1 := ihE s e0 (declCtx Γ n.lexeme)
        ⟨hg.1, hg.2.1, Corresponds_declCtx hg.2.2⟩ hwe
      cases hr1 : evaluateH f s e0 with
      | ok w s1 =>
          rw [hr1] at h1
          obtain ⟨hw, hb1⟩ := h1
          dsimp only
          refine ⟨⟨StoreWF_defineAt hb1.1
            (ValWF_extends hw (extends_defineAt _ _ _ _)), hb1.2.1, hb1.2.2.1,
            HeapExtends.trans hb1.2.2.2 (extends_defineAt _ _ _ _)⟩, ?_⟩
          have hcd : Corresponds s1.heap s1.environment (declCtx Γ n.lexeme) := by
            rw [hb1.2.2.1]
            exact Corresponds_extends (Corresponds_declCtx hg.2.2) hb1.2.2.2
          exact Corresponds_defineAt_of_declCtx w hcd
      | err e1 s1 =>
          rw [hr1] at h1
          exact h1
      | panicEnv =>
          rw [hr1] at h1
          exact h1
      | panicOther => trivial
      | timeout => trivial
  | exprS hwe =>
      rename_i e0
      simp only [executeH]
      have h1 := ihE s e0 Γ hg hwe
      cases hr1 : evaluateH f s e0 with
      | ok w s1 =>
          rw [hr1] at h1
          obtain ⟨_, hb1⟩ := h1
          exact ⟨hb1, by rw [hb1.2.2.1]; exact Corresponds_extends hg.2.2 hb1.2.2.2⟩
      | err e1 s1 =>
          rw [hr1] at h1
          exact h1
      | panicEnv =>
          rw [hr1] at h1
          exact h1
      | panicOther => trivial
      | timeout => trivial
  | printS hwe =>
      rename_i e0
      simp only [executeH]
      have h1 := ihE s e0 Γ hg hwe
      cases hr1 : evaluateH f s e0 with
      | ok w s1 =>
          rw [hr1] at h1
          obtain ⟨_, hb1⟩ := h1
          exact ⟨hb1, by rw [hb1.2.2.1]; exact Corresponds_extends hg.2.2 hb1.2.2.2⟩
      | err e1 s1 =>
          rw [hr1] at h1
          exact h1
      | panicEnv =>
          rw [hr1] at h1
          exact h1
      | panicOther => trivial
      | timeout => trivial
  | return_none =>
      rename_i k
      simp only [executeH]
      refine ⟨OkBase_refl_of hg.1, ?_⟩
      intro rv h
      cases h
      exact True.intro
  | return_some hwv =>
      rename_i k v
      simp only [executeH]
      have h1 := ihE s v Γ hg hwv
      cases hr1 : evaluateH f s v with
      | ok w s1 =>
          rw [hr1] at h1
          obtain ⟨hw, hb1⟩ := h1
          dsimp only
          refine ⟨hb1, ?_⟩
          intro rv h
          cases h
          exact hw
      | err e1 s1 =>
          rw [hr1] at h1
          exact h1
      | panicEnv =>
          rw [hr1] at h1
          exact h1
      | panicOther => trivial
      | timeout => trivial
  | if_none hwc hwt hpost =>
      rename_i c t
      simp only [executeH]
      have h1 := ihE s c Γ hg hwc
      cases hr1 : evaluateH f s c with
      | ok cv s1 =>
          rw [hr1] at h1
          obtain ⟨_, hb1⟩ := h1
          dsimp only
          by_cases htb : cv.toBool = true
          · rw [if_pos htb]
            exact SCond_absorb hb1 (ihS s1 t Γ (GoodState_of_base hg hb1) hwt)
          · rw [if_neg htb]
            refine ⟨hb1, ?_⟩
            have hpost2 : postCtx Γ (.IfStmt c t none) = Γ := hpost
            rw [hpost2, hb1.2.2.1]
            exact Corresponds_extends hg.2.2 hb1.2.2.2
      | err e1 s1 =>
          rw [hr1] at h1
          exact h1
      | panicEnv =>
          rw [hr1] at h1
          exact h1
      | panicOther => trivial
      | timeout => trivial
  | if_some hwc hwt hwe hpostT hpostE =>
      rename_i c t e0
      simp only [executeH]
      have h1 := ihE s c Γ hg hwc
      cases hr1 : evaluateH f s c with
      | ok cv s1 =>
          rw [hr1] at h1
          obtain ⟨_, hb1⟩ := h1
          dsimp only
          have hpost2 : postCtx Γ (.IfStmt c t (some e0)) = postCtx Γ t := by
            show postCtx (postCtx Γ t) e0 = postCtx Γ t
            rw [hpostT, hpostE]
          by_cases htb : cv.toBool = true
          · rw [if_pos htb, hpost2]
            exact SCond_absorb hb1 (ihS s1 t Γ (GoodState_of_base hg hb1) hwt)
          · rw [if_neg htb]
            have hpost3 : postCtx Γ (.IfStmt c t (some e0)) = postCtx Γ e0 := by
              show postCtx (postCtx Γ t) e0 = postCtx Γ e0
              rw [hpostT]
            rw [hpost3]
            exact SCond_absorb hb1 (ihS s1 e0 Γ (GoodState_of_base hg hb1) hwe)
      | err e1 s1 =>
          rw [hr1] at h1
          exact h1
      | panicEnv =>
          rw [hr1] at h1
          exact h1
      | panicOther => trivial
      | timeout => trivial
  | whileS hwc hwb hpost =>
      rename_i c b
      simp only [executeH]
      have h1 := ihE s c Γ hg hwc
      cases hr1 : evaluateH f s c with
      | ok cv s1 =>
          rw [hr1] at h1
          obtain ⟨_, hb1⟩ := h1
          dsimp only
          by_cases htb : cv.toBool = true
          · rw [if_pos htb]
            have h2 := ihS s1 b Γ (GoodState_of_base hg hb1) hwb
            cases hr2 : executeH f s1 b with
            | ok u s2 =>
                rw [hr2] at h2
                obtain ⟨hb2, hc2⟩ := h2
                dsimp only
                rw [hpost] at hc2
                have h3 := ihS s2 (.WhileStmt c b) Γ
                  ⟨hb2.1, by rw [hb2.2.1, hb1.2.1]; exact hg.2.1, hc2⟩
                  (WfStmt.whileS hwc hwb hpost)
                exact SCond_absorb (OkBase_trans hb1 hb2) h3
            | err e1 s2 =>
                rw [hr2] at h2
                exact SCond_absorb hb1 h2
            | panicEnv =>
                rw [hr2] at h2
                exact h2
            | panicOther => trivial
            | timeout => trivial
          · rw [if_neg htb]
            refine ⟨hb1, ?_⟩
            have hpost2 : postCtx Γ (.WhileStmt c b) = Γ := hpost
            rw [hpost2, hb1.2.2.1]
            exact Corresponds_extends hg.2.2 hb1.2.2.2
      | err e1 s1 =>
          rw [hr1] at h1
          exact h1
      | panicEnv =>
          rw [hr1] at h1
          exact h1
      | panicOther => trivial
      | timeout => trivial
  | blockS hwss =>
      rename_i ss
      simp only [executeH]
      have hsf : StoreWF (s.heap.allocFrame ⟨[], some s.environment⟩).1 :=
        StoreWF_allocFrame hg.1 (fun n v hm => absurd hm (List.not_mem_nil _))
      have hcor : Corresponds (s.heap.allocFrame ⟨[], some s.environment⟩).1
          (s.heap.allocFrame ⟨[], some s.environment⟩).2 ([] :: Γ) :=
        ⟨⟨[], some s.environment⟩, frame_alloc_self s.heap _, scopeDom_nil _,
          s.environment, rfl,
          Corresponds_extends hg.2.2 (extends_allocFrame _ _)⟩
      have hblk := ihB { s with heap :=
          (s.heap.allocFrame ⟨[], some s.environment⟩).1 }
        (s.heap.allocFrame ⟨[], some s.environment⟩).2 ss ([] :: Γ)
        hsf hg.2.1 hcor hwss
      exact SCond_of_UCond hblk
        ⟨hsf, rfl, rfl, extends_allocFrame _ _⟩ hg.2.2
  | functionS hwb =>
      rename_i nm ps body
      simp only [executeH]
      have hcor : Corresponds
          (s.heap.defineAt s.environment nm.lexeme
            (.hFun (.mk nm ps body) s.environment false))
          s.environment (ctxDefine Γ nm.lexeme) :=
        Corresponds_ctxDefine _ hg.2.2
      have hvwf : ValWF
          (s.heap.defineAt s.environment nm.lexeme
            (.hFun (.mk nm ps body) s.environment false))
          (.hFun (.mk nm ps body) s.environment false) :=
        ⟨⟨ctxDefine Γ nm.lexeme, hcor, hwb⟩, fun hb => nomatch hb⟩
      exact ⟨⟨StoreWF_defineAt hg.1 hvwf, rfl, rfl,
        extends_defineAt _ _ _ _⟩, hcor⟩
  | class_root hms =>
      rename_i name methods
      simp only [executeH]
      exact ihCB s name none methods Γ hg (fun _ => hms)
        (fun cid h => nomatch h)
  | class_sub hne hd hfd =>
      rename_i name scTok d methods
      simp only [executeH]
      have hwsc : WfExpr Γ (.Variable scTok d) := by
        refine WfExpr.variableE ?_ ?_
        · rw [hd]
          exact rld_ctxDefine_ne (fun h => hne h.symm) Γ
        · exact FoundTrue_ctxDefine_ne (fun h => hne h.symm) hfd
      have h1 := ihE s (.Variable scTok d) Γ hg hwsc
      cases hr1 : evaluateH f s (.Variable scTok d) with
      | ok v s1 =>
          rw [hr1] at h1
          obtain ⟨hv, hb1⟩ := h1
          dsimp only
          by_cases hcall : v.isCallable = true
          · rw [if_pos hcall]
            cases v with
            | hClass cid =>
                have h2 := ihCB s1 name (some cid) methods Γ
                  (GoodState_of_base hg hb1) (fun h => nomatch h)
                  (fun cid2 hc2 => by cases hc2; exact hv)
                exact SCond_absorb hb1 h2
            | hNil => trivial
            | hBool b => trivial
            | hNum q => trivial
            | hStr s2 => trivial
            | hClock => trivial
            | hFun fn c2 b => trivial
            | hInstance i => trivial
          · rw [if_neg hcall]
            exact ⟨hb1, RetWF_rt _ _⟩
      | err e1 s1 =>
          rw [hr1] at h1
          exact h1
      | panicEnv =>
          rw [hr1] at h1
          exact h1
      | panicOther => trivial
      | timeout => trivial

set_option maxHeartbeats 1000000 in
theorem RC_step (f : Nat) (ih : RunAll f) :
    ∀ s fv args, StoreWF s.heap → s.globals = 0 → ValWF s.heap fv →
      (∀ v ∈ args, ValWF s.heap v) → arityH s.heap fv = args.length →
      ECond s (callH (f + 1) s fv args) := by
  obtain ⟨_, _, ihC, _, _, ihB, _⟩ := ih
  intro s fv args hs hgl hfv hargs har
  cases fv with
  | hNil => trivial
  | hBool b => trivial
  | hNum q => trivial
  | hStr str => trivial
  | hInstance i => trivial
  | hClock =>
      simp only [callH]
      by_cases hl : args.length ≠ 0
      · rw [if_pos hl]
        exact ⟨OkBase_refl_of hs, RetWF_rt _ _⟩
      · rw [if_neg hl]
        exact ⟨True.intro, OkBase_refl_of hs⟩
  | hFun fn closure isInit =>
      simp only [callH]
      by_cases hlt : fn.params.length < args.length
      · rw [if_pos hlt]
        trivial
      · rw [if_neg hlt]
        have hleneq : fn.params.length = args.length := har
        obtain ⟨⟨Γc, hcc, hwfb⟩, hinit⟩ := hfv
        set FV : List (String × HVal) :=
          (List.zip (fn.params.map (fun p => p.lexeme)) args).foldl
            (fun acc pa => alistInsert acc pa.1 pa.2) [] with hFV
        have hvals : ∀ n v, (n, v) ∈ FV → ValWF s.heap v := by
          intro n v hm
          rw [hFV] at hm
          rcases mem_foldl_insert (fun pa : String × HVal => pa.1)
              (fun pa : String × HVal => pa.2) _ _ _ _ hm with h1 | h1
          · exact absurd h1 (List.not_mem_nil _)
          · obtain ⟨m, hmzip, _, hv2⟩ := h1
            subst hv2
            exact hargs _ (List.of_mem_zip hmzip).2
        have hsf1 : StoreWF (s.heap.allocFrame ⟨FV, some closure⟩).1 :=
          StoreWF_allocFrame hs hvals
        have hcor : Corresponds (s.heap.allocFrame ⟨FV, some closure⟩).1
            (s.heap.allocFrame ⟨FV, some closure⟩).2
            (bindParams [] fn.params :: Γc) := by
          refine ⟨⟨FV, some closure⟩, frame_alloc_self s.heap _, ?_, closure,
            rfl, Corresponds_extends hcc (extends_allocFrame _ _)⟩
          rw [hFV]
          exact scopeDom_bindParams_zip hleneq
        have hblk := ihB
          { s with heap := (s.heap.allocFrame ⟨FV, some closure⟩).1 }
          (s.heap.allocFrame ⟨FV, some closure⟩).2 fn.body
          (bindParams [] fn.params :: Γc) hsf1 hgl hcor hwfb
        have hbase1 : OkBase s
            { s with heap := (s.heap.allocFrame ⟨FV, some closure⟩).1 } :=
          ⟨hsf1, rfl, rfl, extends_allocFrame _ _⟩
        cases hr : executeBlockH f
            { s with heap := (s.heap.allocFrame ⟨FV, some closure⟩).1 }
            (s.heap.allocFrame ⟨FV, some closure⟩).2 fn.body with
        | ok u s2 =>
            rw [hr] at hblk
            cases u
            dsimp only
            have hbase := OkBase_trans hbase1 hblk
            cases isInit with
            | false =>
                rw [if_neg Bool.false_ne_true]
                exact ⟨True.intro, hbase⟩
            | true =>
                rw [if_pos rfl]
                obtain ⟨fr, hfr, hdom⟩ := hinit rfl
                obtain ⟨fr2, hfr2, _, hd2⟩ := hbase.2.2.2.1 closure fr hfr
                obtain ⟨v, hv⟩ := get_at_zero_some hfr2 (hd2 _ hdom)
                rw [hv]
                exact ⟨get_at_ValWF hbase.1 hv, hbase⟩
        | err e s2 =>
            rw [hr] at hblk
            obtain ⟨hb2, hret⟩ := hblk
            have hbase := OkBase_trans hbase1 hb2
            dsimp only
            cases e with
            | earlyReturn rv =>
                dsimp only
                have hrv : ValWF s2.heap rv := hret rv rfl
                cases isInit with
                | false =>
                    rw [if_neg Bool.false_ne_true]
                    exact ⟨hrv, hbase⟩
                | true =>
                    rw [if_pos rfl]
                    by_cases heqn : HVal.hNil.eqRV rv = true
                    · rw [if_pos heqn]
                      obtain ⟨fr, hfr, hdom⟩ := hinit rfl
                      obtain ⟨fr2, hfr2, _, hd2⟩ := hbase.2.2.2.1 closure fr hfr
                      obtain ⟨v, hv⟩ := get_at_zero_some hfr2 (hd2 _ hdom)
                      rw [hv]
                      exact ⟨get_at_ValWF hbase.1 hv, hbase⟩
                    · rw [if_neg heqn]
                      trivial
            | runtimeError msg =>
                exact ⟨hbase, RetWF_rt _ _⟩
        | panicEnv =>
            rw [hr] at hblk
            exact hblk
        | panicOther => trivial
        | timeout => trivial
  | hClass cid =>
      simp only [callH]
      have hcid : cid < s.heap.classes.length := hfv
      have hs1 : StoreWF (s.heap.allocInst ⟨cid, []⟩).1 :=
        StoreWF_allocInst hs hcid (fun n v hm => absurd hm (List.not_mem_nil _))
      have hx1 := extends_allocInst s.heap ⟨cid, []⟩
      cases hfm : Heap.find_method (s.heap.allocInst ⟨cid, []⟩).1 cid "init" with
      | some t =>
          obtain ⟨fn, env, isInit⟩ := t
          dsimp only
          have hmw := find_method_MethodWF hs1 hfm
          have hivalid : ValWF (s.heap.allocInst ⟨cid, []⟩).1
              (.hInstance (s.heap.allocInst ⟨cid, []⟩).2) := by
            show s.heap.instances.length <
              (s.heap.instances ++ [(⟨cid, []⟩ : InstObj)]).length
            simp
          obtain ⟨hbs, hbx, hbv⟩ := bind_facts hs1 hmw hivalid
          have hfm0 : Heap.find_method s.heap cid "init" =
              some (fn, env, isInit) := by
            rw [← find_method_stable hs hs1 hx1.2.1 hx1.2.2.1 hcid]
            exact hfm
          have harity2 : fn.params.length = args.length := by
            rw [← har]
            show fn.params.length = arityH s.heap (.hClass cid)
            simp only [arityH, hfm0]
          have hvargs : ∀ v ∈ args, ValWF
              ((s.heap.allocInst ⟨cid, []⟩).1.bind fn env isInit
                (.hInstance (s.heap.allocInst ⟨cid, []⟩).2)).1 v :=
            fun v hv => ValWF_extends (hargs v hv) (HeapExtends.trans hx1 hbx)
          have h3 := ihC
            { s with heap := ((s.heap.allocInst ⟨cid, []⟩).1.bind fn env isInit
                (.hInstance (s.heap.allocInst ⟨cid, []⟩).2)).1 }
            ((s.heap.allocInst ⟨cid, []⟩).1.bind fn env isInit
              (.hInstance (s.heap.allocInst ⟨cid, []⟩).2)).2 args
            hbs hgl hbv hvargs harity2
          have hbase2 : OkBase s
              { s with heap := ((s.heap.allocInst ⟨cid, []⟩).1.bind fn env
                isInit (.hInstance (s.heap.allocInst ⟨cid, []⟩).2)).1 } :=
            ⟨hbs, rfl, rfl, HeapExtends.trans hx1 hbx⟩
          exact ECond_absorb hbase2 h3
      | none =>
          dsimp only
          refine ⟨?_, hs1, rfl, rfl, hx1⟩
          show s.heap.instances.length <
            (s.heap.instances ++ [(⟨cid, []⟩ : InstObj)]).length
          simp

set_option maxHeartbeats 1000000 in
theorem RCB_step (f : Nat) (ih : RunAll f) :
    ∀ s name scOpt methods Γ, GoodState s Γ →
      (scOpt = none → ∀ m ∈ methods,
        WfStmts (bindParams [] m.params :: thisScope :: ctxDefine Γ name.lexeme)
          m.body) →
      (∀ cid, scOpt = some cid → cid < s.heap.classes.length) →
      SCond (ctxDefine Γ name.lexeme) s
        (classBodyH (f + 1) s name scOpt methods) := by
  intro s name scOpt methods Γ hg hroot hsup
  cases scOpt with
  | none =>
      simp only [classBodyH]
      set H1 : Heap := s.heap.defineAt s.environment name.lexeme HVal.hNil
        with hH1
      have hs1 : StoreWF H1 := StoreWF_defineAt hg.1 True.intro
      have hx1 : HeapExtends s.heap H1 :=
        extends_defineAt s.heap s.environment name.lexeme HVal.hNil
      have hc1 : Corresponds H1 s.environment (ctxDefine Γ name.lexeme) :=
        Corresponds_ctxDefine HVal.hNil hg.2.2
      have hmwf : ∀ mn fnm envm bm, (mn, (fnm, envm, bm)) ∈
          (List.foldl (fun acc m => alistInsert acc m.name.lexeme
            (m, s.environment, decide (m.name.lexeme = "init"))) [] methods) →
          MethodWF H1 fnm envm := by
        intro mn fnm envm bm hm
        rcases mem_foldl_insert (fun m : Fun => m.name.lexeme)
            (fun m : Fun => ((m, s.environment,
              decide (m.name.lexeme = "init")) : Fun × EnvId × Bool))
            _ _ _ _ hm with h1 | h1
        · exact absurd h1 (List.not_mem_nil _)
        · obtain ⟨m, hmm, _, hv⟩ := h1
          injection hv with h2 hrest
          injection hrest with h3 h4
          rw [h2, h3]
          exact ⟨ctxDefine Γ name.lexeme, hc1, hroot rfl m hmm⟩
      set AC : Heap × ClassId := H1.allocClass
        ⟨name.lexeme, none, List.foldl (fun acc m => alistInsert acc
          m.name.lexeme (m, s.environment, decide (m.name.lexeme = "init")))
          [] methods⟩ with hAC
      have hs4 : StoreWF AC.1 := by
        rw [hAC]
        exact StoreWF_allocClass hs1 (fun sc h => nomatch h)
          (fun _ mn fnm envm bm hm => hmwf mn fnm envm bm hm)
      have hx4 : HeapExtends H1 AC.1 := by
        rw [hAC]
        exact extends_allocClass _ _
      have hvc : ValWF AC.1 (.hClass AC.2) := by
        rw [hAC]
        show H1.classes.length < (H1.classes ++ [_]).length
        simp
      cases has : AC.1.assignByName s.environment name.lexeme
          (HVal.hClass AC.2) with
      | ok h5 =>
          obtain ⟨hs5, hx5⟩ := assignByName_ok_facts hs4 hvc has
          refine ⟨⟨hs5, rfl, rfl,
            HeapExtends.trans hx1 (HeapExtends.trans hx4 hx5)⟩, ?_⟩
          exact Corresponds_extends hc1 (HeapExtends.trans hx4 hx5)
      | error e =>
          exact ⟨⟨hs4, rfl, rfl, HeapExtends.trans hx1 hx4⟩,
            RetWF_of_shape (assignByName_err_shape has)⟩
  | some cid =>
      simp only [classBodyH]
      have hcid := hsup cid rfl
      set H1 : Heap := s.heap.defineAt s.environment name.lexeme HVal.hNil
        with hH1
      have hs1 : StoreWF H1 := StoreWF_defineAt hg.1 True.intro
      have hx1 : HeapExtends s.heap H1 :=
        extends_defineAt s.heap s.environment name.lexeme HVal.hNil
      have hc1 : Corresponds H1 s.environment (ctxDefine Γ name.lexeme) :=
        Corresponds_ctxDefine HVal.hNil hg.2.2
      have hcid1 : cid < H1.classes.length :=
        lt_of_lt_of_le hcid hx1.2.2.1
      have hvFR : ∀ n v, (n, v) ∈
          ([("super", HVal.hClass cid)] : List (String × HVal)) →
          ValWF H1 v := by
        intro n v hm
        rcases List.mem_cons.mp hm with h1 | h1
        · cases h1
          exact hcid1
        · exact absurd h1 (List.not_mem_nil _)
      set A : Heap × EnvId := H1.allocFrame
        ⟨[("super", HVal.hClass cid)], some s.environment⟩ with hA
      have hfr : A.1.frame A.2 =
          some ⟨[("super", HVal.hClass cid)], some s.environment⟩ := by
        rw [hA]
        exact frame_alloc_self _ _
      rw [hfr]
      dsimp only
      set B : Heap := A.1.setFrame A.2
        ⟨[("super", HVal.hClass cid)], none⟩ with hB
      have hs3 : StoreWF B := by
        rw [hB, hA]
        exact StoreWF_alloc_sever hs1 hvFR hvFR
      have hx3 : HeapExtends H1 B := by
        rw [hB, hA]
        exact extends_setFrame_of_le _ (extends_allocFrame _ _) (le_refl _)
      set C : Heap × ClassId := B.allocClass
        ⟨name.lexeme, some cid, List.foldl (fun acc m => alistInsert acc
          m.name.lexeme (m, A.2, decide (m.name.lexeme = "init")))
          [] methods⟩ with hC
      have hs4 : StoreWF C.1 := by
        rw [hC]
        refine StoreWF_allocClass hs3 ?_ (fun hnone => nomatch hnone)
        intro sc hsc
        cases hsc
        exact lt_of_lt_of_le hcid1 hx3.2.2.1
      have hx4 : HeapExtends B C.1 := by
        rw [hC]
        exact extends_allocClass _ _
      have hvc : ValWF C.1 (.hClass C.2) := by
        rw [hC]
        show B.classes.length < (B.classes ++ [_]).length
        simp
      cases has : C.1.assignByName s.environment name.lexeme
          (HVal.hClass C.2) with
      | ok h5 =>
          obtain ⟨hs5, hx5⟩ := assignByName_ok_facts hs4 hvc has
          refine ⟨⟨hs5, rfl, rfl, HeapExtends.trans hx1 (HeapExtends.trans hx3
            (HeapExtends.trans hx4 hx5))⟩, ?_⟩
          exact Corresponds_extends hc1 (HeapExtends.trans hx3
            (HeapExtends.trans hx4 hx5))
      | error e =>
          exact ⟨⟨hs4, rfl, rfl, HeapExtends.trans hx1
            (HeapExtends.trans hx3 hx4)⟩,
            RetWF_of_shape (assignByName_err_shape has)⟩

theorem RunAll_all : ∀ f, RunAll f := by
  intro f
  induction f with
  | zero => exact RunAll_zero
  | succ f ihf =>
      exact ⟨RE_step f ihf, RArgs_step f ihf, RC_step f ihf, RS_step f ihf,
        RSs_step f ihf, RBlock_step f ihf, RCB_step f ihf⟩

/-- C3: for every program accepted by the Resolver with zero reported
errors — program meaning an AST the parser can produce, captured by the
PSList shape predicate (superclass clauses are bare Variable nodes,
declarations do not sit in if/while branch position, declared names are
never the keyword this) — the interpreter never reaches the panicking
expect of Environment::get_at and never unwraps a missing enclosing in
Environment::ancestor: whenever a Variable, This, Super or Assign node
with resolved depth some d is evaluated, the frame d hops up exists and
binds the name.  In the model every such panic is the panicEnv outcome,
and no run of the resolved program, at any fuel, produces it. -/
theorem C3_resolved_depth_never_panics
    (f0 : Nat) (prog prog1 : List Stmt) (st1 : RState)
    (hps : PSList prog)
    (hres : Resolver.resolve_stmts f0 Resolver.initial prog = (prog1, st1))
    (herr : st1.num_of_resolver_errs = 0) :
    ∀ fuel, interpretH fuel prog1 ≠ HRes.panicEnv := by
  have hA := (AAll_all f0).2.2.2.1
  have h2 := hA Resolver.initial prog (fun h => nomatch h)
    (fun sc h => absurd h (List.not_mem_nil _)) hps
    (by rw [hres]; exact herr)
  rw [hres] at h2
  have hwf : WfStmts [] prog1 := h2
  have hstore : StoreWF initialIState.heap := by
    refine ⟨?_, ?_, ?_⟩
    · intro i fr hf n v hm
      cases i with
      | zero =>
          have h0 : Heap.frame initialIState.heap 0 =
              some ⟨[("clock", HVal.hClock)], none⟩ := rfl
          rw [h0] at hf
          cases hf
          rcases List.mem_cons.mp hm with h1 | h1
          · cases h1
            exact True.intro
          · exact absurd h1 (List.not_mem_nil _)
      | succ j =>
          have hnone : Heap.frame initialIState.heap (j + 1) = none := rfl
          rw [hnone] at hf
          cases hf
    · intro i c hc
      have hnone : Heap.classObj initialIState.heap i = none := rfl
      rw [hnone] at hc
      cases hc
    · intro i io hio
      have hnone : Heap.instObj initialIState.heap i = none := rfl
      rw [hnone] at hio
      cases hio
  intro fuel hcontra
  have hR := (RunAll_all fuel).2.2.2.2.1 initialIState prog1 []
    ⟨hstore, rfl, trivial⟩ hwf
  have hcontra2 : executeStmtsH fuel initialIState prog1 = HRes.panicEnv :=
    hcontra
  rw [hcontra2] at hR
  exact hR

theorem C3_witness :
    PSList C3exProg ∧
    (Resolver.resolve_stmts 10 Resolver.initial
      C3exProg).2.num_of_resolver_errs = 0 ∧
    interpretH 50 (Resolver.resolve_stmts 10 Resolver.initial C3exProg).1 ≠
      HRes.panicEnv := by
  have hps : PSList C3exProg :=
    PSList.cons (PS.ofBranch (PSb.blockS
      (PSList.cons (PS.var_some (by decide) PSE.litral)
        (PSList.cons (PS.ofBranch (PSb.printS PSE.variableE)) PSList.nil))))
      PSList.nil
  exact ⟨hps, rfl,
    C3_resolved_depth_never_panics 10 C3exProg _ _ hps rfl rfl 50⟩

end JLox
